import Mathlib

/-!
# talhelper: version-tag resolver and image-reference canonicaliser

A shallow embedding of `hack/version-schema-gen/tags.go` and of the library
routines it calls, followed by the properties proved about it.

Go strings are modelled by Lean strings (valid UTF-8 text, as registry tags and
image references are) and processed as lists of characters; a nil slice and an
empty slice are both the empty list. Calls into the network, the logger and the
libraries `regexp` and `fmt` are parameters of the functions that make them;
package `semver` and the routine `sort.Sort` are embedded function by function.
`getMissingTags` takes the sorting routine as a parameter: `sortSort` is the
library routine run through the methods `Len`, `Less` and `Swap` of the tag set,
and the properties that rest only on the routine rearranging the slice are
stated for every routine that does.
-/

namespace Talhelper

/-! ## Data model -/

/-- An error value, carried as its message. -/
abbrev Error := String

/-- TalosVersion holds the Talos version and its list of system extensions. -/
structure TalosVersion where
  Version : String
  SystemExtensions : List String
deriving DecidableEq

/-- TalosVersionTags holds the list of versions returned by the registry. -/
structure TalosVersionTags where
  Versions : List TalosVersion
deriving DecidableEq

/-! ## Library routines -/

/-- Go `strings.HasPrefix s prefix`: `s` starts with `prefix`. -/
def strings.HasPrefix (s pre : String) : Bool :=
  pre.data.isPrefixOf s.data

/-! ### Package `golang.org/x/mod/semver` -/

namespace semver

/-- The parsed form of a version string. -/
structure parsed where
  major : List Char
  minor : List Char
  patch : List Char
  short : List Char
  prerelease : List Char
  build : List Char
deriving DecidableEq

/-- The test `'0' <= c && c <= '9'` used throughout the package. -/
def isDigit (c : Char) : Bool :=
  decide ('0' ≤ c) && decide (c ≤ '9')

/-- Function `isIdentChar`: ASCII letters, digits and the hyphen. -/
def isIdentChar (c : Char) : Bool :=
  (decide ('A' ≤ c) && decide (c ≤ 'Z')) || (decide ('a' ≤ c) && decide (c ≤ 'z'))
    || (decide ('0' ≤ c) && decide (c ≤ '9')) || c == '-'

/-- Function `isBadNum`: all digits, longer than one character, leading zero. -/
def isBadNum (v : List Char) : Bool :=
  let i := (v.takeWhile isDigit).length
  i == v.length && decide (1 < i) && v.head? == some '0'

/-- Function `isNum`: every character is a digit. -/
def isNum (v : List Char) : Bool :=
  (v.takeWhile isDigit).length == v.length

/-- Function `parseInt`: splits off a leading run of digits that has no leading
zero; `none` is the result `ok = false`. -/
def parseInt (v : List Char) : Option (List Char × List Char) :=
  match v with
  | [] => none
  | c :: _ =>
    if !isDigit c then none
    else
      let t := v.takeWhile isDigit
      if c == '0' && t.length != 1 then none
      else some (t, v.dropWhile isDigit)

/-- The scanning loop of `parsePrerelease`: `cur` is `v[start:i]`, `taken` is `v[:i]`. -/
def parsePrerelease.loop : List Char → List Char → List Char → Option (List Char × List Char)
  | [], cur, taken => if cur.isEmpty || isBadNum cur then none else some (taken, [])
  | c :: rest, cur, taken =>
    if c == '+' then
      if cur.isEmpty || isBadNum cur then none else some (taken, c :: rest)
    else if !isIdentChar c && c != '.' then none
    else if c == '.' then
      if cur.isEmpty || isBadNum cur then none
      else parsePrerelease.loop rest [] (taken ++ [c])
    else parsePrerelease.loop rest (cur ++ [c]) (taken ++ [c])

/-- Function `parsePrerelease`: a hyphen and dot-separated identifiers. -/
def parsePrerelease (v : List Char) : Option (List Char × List Char) :=
  match v with
  | [] => none
  | c :: rest => if c != '-' then none else parsePrerelease.loop rest [] [c]

/-- The scanning loop of `parseBuild`: `cur` is `v[start:i]`, `taken` is `v[:i]`. -/
def parseBuild.loop : List Char → List Char → List Char → Option (List Char × List Char)
  | [], cur, taken => if cur.isEmpty then none else some (taken, [])
  | c :: rest, cur, taken =>
    if !isIdentChar c && c != '.' then none
    else if c == '.' then
      if cur.isEmpty then none
      else parseBuild.loop rest [] (taken ++ [c])
    else parseBuild.loop rest (cur ++ [c]) (taken ++ [c])

/-- Function `parseBuild`: a plus sign and dot-separated identifiers. -/
def parseBuild (v : List Char) : Option (List Char × List Char) :=
  match v with
  | [] => none
  | c :: rest => if c != '+' then none else parseBuild.loop rest [] [c]

/-- The end of `parse`, after the patch number: optional pre-release, optional
build metadata, then nothing more. -/
def parse.suffix (major minor patch : List Char) (v : List Char) : Option parsed :=
  let pre : Option (List Char × List Char) :=
    match v with
    | '-' :: _ => parsePrerelease v
    | _ => some ([], v)
  match pre with
  | none => none
  | some (prerelease, v) =>
    let bld : Option (List Char × List Char) :=
      match v with
      | '+' :: _ => parseBuild v
      | _ => some ([], v)
    match bld with
    | none => none
    | some (build, v) =>
      if v != [] then none
      else some ⟨major, minor, patch, [], prerelease, build⟩

/-- Function `parse`: `none` is the result `ok = false`. -/
def parse (v : List Char) : Option parsed :=
  match v with
  | [] => none
  | c :: v =>
    if c != 'v' then none
    else
      match parseInt v with
      | none => none
      | some (major, v) =>
        match v with
        | [] => some ⟨major, ['0'], ['0'], ['.', '0', '.', '0'], [], []⟩
        | c :: v1 =>
          if c != '.' then none
          else
            match parseInt v1 with
            | none => none
            | some (minor, v) =>
              match v with
              | [] => some ⟨major, minor, ['0'], ['.', '0'], [], []⟩
              | c :: v1 =>
                if c != '.' then none
                else
                  match parseInt v1 with
                  | none => none
                  | some (patch, v) => parse.suffix major minor patch v

/-- Function `compareInt`: decimal strings without leading zeros, compared by
length and then as strings. -/
def compareInt (x y : List Char) : Int :=
  if x = y then 0
  else if x.length < y.length then -1
  else if x.length > y.length then 1
  else if x < y then -1
  else 1

/-- Function `nextIdent`: the text up to the next dot, and the rest. -/
def nextIdent (x : List Char) : List Char × List Char :=
  (x.takeWhile (fun c => c != '.'), x.dropWhile (fun c => c != '.'))

/-- The comparison made by `comparePrerelease` on two identifiers that differ. -/
def comparePrerelease.ident (dx dy : List Char) : Int :=
  let ix := isNum dx
  let iy := isNum dy
  if ix ≠ iy then
    if ix then -1 else 1
  else if ix ∧ dx.length < dy.length then -1
  else if ix ∧ dx.length > dy.length then 1
  else if dx < dy then -1
  else 1

/-- The `for x != "" && y != ""` loop of `comparePrerelease` with the return
that follows it. Every round drops at least one character of `x`, so a fuel of
`len(x)` rounds is never used up. -/
def comparePrerelease.loop : Nat → List Char → List Char → Int
  | 0, x, _ => if x = [] then -1 else 1
  | fuel + 1, x, y =>
    if x ≠ [] ∧ y ≠ [] then
      let dx := (nextIdent x.tail).1
      let dy := (nextIdent y.tail).1
      if dx ≠ dy then comparePrerelease.ident dx dy
      else comparePrerelease.loop fuel (nextIdent x.tail).2 (nextIdent y.tail).2
    else if x = [] then -1 else 1

/-- Function `comparePrerelease`. -/
def comparePrerelease (x y : List Char) : Int :=
  if x = y then 0
  else if x = [] then 1
  else if y = [] then -1
  else comparePrerelease.loop x.length x y

/-- Function `Compare`: -1, 0 or +1; an invalid version string is below every
valid one and all invalid strings compare equal. -/
def Compare (v w : String) : Int :=
  match parse v.data, parse w.data with
  | none, none => 0
  | none, some _ => -1
  | some _, none => 1
  | some pv, some pw =>
    if compareInt pv.major pw.major ≠ 0 then compareInt pv.major pw.major
    else if compareInt pv.minor pw.minor ≠ 0 then compareInt pv.minor pw.minor
    else if compareInt pv.patch pw.patch ≠ 0 then compareInt pv.patch pw.patch
    else comparePrerelease pv.prerelease pw.prerelease

end semver

/-! ### Package `sort` -/

/-- What `sort.Sort` is handed: the `Less` method read as a relation on entries,
and the slice to reorder. -/
abbrev SortImpl := (TalosVersion → TalosVersion → Bool) → List TalosVersion → List TalosVersion

/-- The orderings `sort.Sort` is specified for: `less` is irreflexive and
transitive, and so is its complement (a strict weak ordering). -/
structure StrictWeakOrder (less : TalosVersion → TalosVersion → Bool) : Prop where
  irrefl : ∀ a, less a a = false
  trans : ∀ a b c, less a b = true → less b c = true → less a c = true
  incomp_trans : ∀ a b c, less a b = false → less b c = false → less a c = false

/-- The documented behaviour of `sort.Sort`: it rearranges the slice by swaps
only, and for a strict weak ordering no entry of the result is less than an
entry before it. -/
structure SortContract (sortImpl : SortImpl) : Prop where
  perm : ∀ less l, (sortImpl less l).Perm l
  sorted : ∀ less, StrictWeakOrder less → ∀ l,
    (sortImpl less l).Pairwise (fun a b => less b a = false)

/-- The inner loop of insertion sort: the new entry `x` is swapped leftwards past
every entry it is less than. `before` is the sorted part, nearest entry first. -/
def insertionSort.sink (less : TalosVersion → TalosVersion → Bool) (x : TalosVersion) :
    List TalosVersion → List TalosVersion
  | [] => [x]
  | p :: before => if less x p then p :: insertionSort.sink less x before else x :: p :: before

/-- Insertion sort through `Less` and `Swap`, the routine `sort.Sort` applies to
short slices; a concrete sorting routine that meets `SortContract`. -/
def insertionSort : SortImpl := fun less l =>
  (l.foldl (fun before x => insertionSort.sink less x before) []).reverse

/-! ### Package `fmt` -/

/-- Go `fmt.Sprintf format` with no operands. The text before the first `%` is
copied as it stands. A `%` that ends the format has no verb and prints
`%!(NOVERB)`; what the verb machinery prints from any other first `%` on is the
parameter `verbs`. -/
def fmt.Sprintf (verbs : List Char → List Char) (format : String) : String :=
  let text := format.data.takeWhile (fun c => c != '%')
  let rest := format.data.dropWhile (fun c => c != '%')
  ⟨text ++ (if rest = [] then []
    else if rest = ['%'] then ['%', '!', '(', 'N', 'O', 'V', 'E', 'R', 'B', ')']
    else verbs rest)⟩

/-! ### Package `regexp` -/

/-- A compiled regular expression, as far as `cleanString` uses it: the names of
its capture groups (index 0, the whole match, has the empty name) and the
submatch search, whose result is the nil slice when nothing matches. -/
structure Regexp where
  SubexpNames : List String
  FindStringSubmatch : String → List String

/-- A Go `map[string]string`, newest assignment first. -/
abbrev StringMap := List (String × String)

/-- Reading `m[k]`: the zero value `""` for a missing key. -/
def StringMap.index (m : StringMap) (k : String) : String :=
  (m.lookup k).getD ""

/-! ## `tags.go` -/

/-- The `range` loop of `Contains`: the first entry whose `Version` equals `s`
returns true, running off the end returns false. -/
def TalosVersionTags.Contains.loop : List TalosVersion → String → Bool
  | [], _ => false
  | a :: rest, s => if a.Version = s then true else TalosVersionTags.Contains.loop rest s

/-- Method `Contains` of `TalosVersionTags`. -/
def TalosVersionTags.Contains (v : TalosVersionTags) (s : String) : Bool :=
  TalosVersionTags.Contains.loop v.Versions s

/-- Method `Len` of `TalosVersionTags`. -/
def TalosVersionTags.Len (v : TalosVersionTags) : Nat :=
  v.Versions.length

/-- The comparison made by method `Less` on the two entries it is pointed at. -/
def TalosVersion.less (a b : TalosVersion) : Bool :=
  decide (semver.Compare a.Version b.Version < 0)

/-- Method `Less` of `TalosVersionTags`; `none` is an index out of range. -/
def TalosVersionTags.Less (v : TalosVersionTags) (i j : Nat) : Option Bool :=
  match v.Versions[i]?, v.Versions[j]? with
  | some a, some b => some (a.less b)
  | _, _ => none

/-- Method `Swap` of `TalosVersionTags`; `none` is an index out of range. -/
def TalosVersionTags.Swap (v : TalosVersionTags) (i j : Nat) : Option TalosVersionTags :=
  match v.Versions[i]?, v.Versions[j]? with
  | some a, some b => some ⟨(v.Versions.set i b).set j a⟩
  | _, _ => none

/-- The variables of `getMissingTags` at the point where it returns: its two
results and the `cachedTags` argument, whose slice is shared with the caller. -/
structure Returned where
  tags : TalosVersionTags
  err : Option Error
  cachedTags : TalosVersionTags
deriving DecidableEq

/-- The variables that the tag loop of `getMissingTags` reads and writes. -/
structure LoopVars where
  cachedTags : TalosVersionTags
  tagsToAppend : TalosVersionTags
deriving DecidableEq

/-- One iteration of the tag loop of `getMissingTags`. -/
def getMissingTags.body (st : LoopVars) (tag : String) : LoopVars :=
  if !strings.HasPrefix tag "v" then st
  else if st.cachedTags.Contains tag then st
  else { st with tagsToAppend := ⟨st.tagsToAppend.Versions ++ [⟨tag, []⟩]⟩ }

/-- Function `getMissingTags`. `ListTags` is what `crane.ListTags` returned for
the extensions repository: the tag list and the error. -/
def getMissingTags (sortImpl : SortImpl) (ListTags : List String × Option Error)
    (cachedTags : TalosVersionTags) : Returned :=
  let tagsToAppend : TalosVersionTags := ⟨[]⟩
  match ListTags.2 with
  | some err => ⟨cachedTags, some err, cachedTags⟩
  | none =>
    let st := ListTags.1.foldl getMissingTags.body ⟨cachedTags, tagsToAppend⟩
    ⟨⟨sortImpl TalosVersion.less st.tagsToAppend.Versions⟩, none, st.cachedTags⟩

/-- The entries the tag loop of `getMissingTags` appends, in upstream order: tags that start with `v` and are not cached. -/
def missing (cachedTags : TalosVersionTags) (upstreamTags : List String) : List TalosVersion :=
  (upstreamTags.filter (fun tag => strings.HasPrefix tag "v" && !cachedTags.Contains tag)).map
    (fun tag => ⟨tag, []⟩)

/-- The four package-level flags read by `cleanString`. -/
structure Flags where
  minimal : Bool
  trimRegistry : Bool
  trimSha256 : Bool
  trimTag : Bool
deriving DecidableEq

/-- The loop of `cleanString` that maps capture-group names to submatches,
starting at index `i`; the error is the run-time panic of `matches[i]`. -/
def cleanString.captures : Nat → List String → List String → StringMap → Except Error StringMap
  | _, [], _, result => .ok result
  | i, name :: names, submatches, result =>
    if i ≠ 0 ∧ name ≠ "" then
      match submatches[i]? with
      | none => .error "index out of range"
      | some m => cleanString.captures (i + 1) names submatches ((name, m) :: result)
    else cleanString.captures (i + 1) names submatches result

/-- The rendering part of `cleanString`, lines 125 to 155. -/
def cleanString.render (verbs : List Char → List Char) (flags : Flags) (result : StringMap) :
    String :=
  if (flags.trimRegistry && flags.trimSha256 && flags.trimTag) || flags.minimal then
    fmt.Sprintf verbs (result.index "org" ++ "/" ++ result.index "repo")
  else if flags.trimRegistry && flags.trimSha256 then
    fmt.Sprintf verbs (result.index "org" ++ "/" ++ result.index "repo" ++ ":" ++ result.index "tag")
  else if flags.trimRegistry && !flags.trimSha256 then
    if flags.trimTag then
      fmt.Sprintf verbs (result.index "org" ++ "/" ++ result.index "repo" ++ "@sha256:"
        ++ result.index "shasum")
    else
      fmt.Sprintf verbs (result.index "org" ++ "/" ++ result.index "repo" ++ ":"
        ++ result.index "tag" ++ "@sha256:" ++ result.index "shasum")
  else if !flags.trimRegistry && flags.trimSha256 then
    if flags.trimTag then
      fmt.Sprintf verbs (result.index "registry" ++ "/" ++ result.index "org" ++ "/"
        ++ result.index "repo")
    else
      fmt.Sprintf verbs (result.index "registry" ++ "/" ++ result.index "org" ++ "/"
        ++ result.index "repo" ++ ":" ++ result.index "tag")
  else
    if flags.trimTag then
      fmt.Sprintf verbs (result.index "registry" ++ "/" ++ result.index "org" ++ "/"
        ++ result.index "repo" ++ "@sha256:" ++ result.index "shasum")
    else
      fmt.Sprintf verbs (result.index "registry" ++ "/" ++ result.index "org" ++ "/"
        ++ result.index "repo" ++ ":" ++ result.index "tag" ++ "@sha256:"
        ++ result.index "shasum")

/-- Function `cleanString`. `regexp` is the compiled `TSEHelperTalosExtensionsRegex`,
`flags` the package-level flags; the error is a run-time panic. -/
def cleanString (verbs : List Char → List Char) (regexp : Regexp) (flags : Flags)
    (line : String) : Except Error String :=
  let submatches := regexp.FindStringSubmatch line
  match cleanString.captures 0 regexp.SubexpNames submatches [] with
  | .error e => .error e
  | .ok result => .ok (cleanString.render verbs flags result)

/-- What a call of `getMissingVersions` leaves behind: the returned delta, or
`none` when the process was ended by `os.Exit(1)`; what `*versionsTags` holds
afterwards; and whether `loadCache` was called. -/
structure Resolved where
  tags : Option TalosVersionTags
  versionsTags : TalosVersionTags
  loaded : Bool
deriving DecidableEq

/-- Function `getMissingVersions`. `checkCache` and `loadCache` are defined in
another file of the package: the boolean that the call `checkCache()` returns
and the contents `loadCache` writes through the pointer are parameters. -/
def getMissingVersions (sortImpl : SortImpl) (ListTags : List String × Option Error)
    (checkCache : Bool) (loadCache : TalosVersionTags → TalosVersionTags)
    (versionsTags : TalosVersionTags) : Resolved :=
  let afterLoad : TalosVersionTags × Bool :=
    if !checkCache then (loadCache versionsTags, true) else (versionsTags, false)
  let r := getMissingTags sortImpl ListTags afterLoad.1
  match r.err with
  | some _ => ⟨none, r.cachedTags, afterLoad.2⟩
  | none => ⟨some r.tags, r.cachedTags, afterLoad.2⟩

/-! ## Package `sort`, run on a tag set

`sort.Sort` of the Go library (the pattern-defeating quicksort of Go 1.19 and
later), function by function, on a `TalosVersionTags` through its methods `Len`,
`Less` and `Swap`. A result `none` is a run-time panic of one of the methods, or
a loop that ran out of the rounds it was given. Indices are natural numbers: the
routines subtract only where the Go value is not negative, apart from the `j--`
that can leave index 0, which the `down` loops record. -/

/-- Go `bits.Len n`: the number of bits needed to write `n`, 0 for 0. `fuel`
bounds the halvings. -/
def bits.Len.loop : Nat → Nat → Nat
  | 0, _ => 0
  | fuel + 1, n => if n = 0 then 0 else 1 + bits.Len.loop fuel (n / 2)

/-- Go `bits.Len`. -/
def bits.Len (n : Nat) : Nat :=
  bits.Len.loop n n

/-- The inner loop of `insertionSort`:
`for j := i; j > a && data.Less(j, j-1); j-- { data.Swap(j, j-1) }`. -/
def sort.insertionSort.inner (a : Nat) : Nat → TalosVersionTags → Option TalosVersionTags
  | 0, data => some data
  | j + 1, data =>
    if j + 1 > a then
      match data.Less (j + 1) j with
      | none => none
      | some false => some data
      | some true =>
        match data.Swap (j + 1) j with
        | none => none
        | some data => sort.insertionSort.inner a j data
    else some data

/-- The outer loop of `insertionSort`, `for i := a + 1; i < b; i++`, with the
number of rounds left as fuel. -/
def sort.insertionSort.outer (a b : Nat) : Nat → Nat → TalosVersionTags → Option TalosVersionTags
  | 0, _, data => some data
  | fuel + 1, i, data =>
    if i < b then
      match sort.insertionSort.inner a i data with
      | none => none
      | some data => sort.insertionSort.outer a b fuel (i + 1) data
    else some data

/-- Function `insertionSort` of package `sort`: sorts `data[a:b]`. -/
def sort.insertionSort (data : TalosVersionTags) (a b : Nat) : Option TalosVersionTags :=
  sort.insertionSort.outer a b (b - (a + 1)) (a + 1) data

/-- Function `siftDown` of package `sort`, with the loop rounds left as fuel:
`none` is a panic, or fuel used up. -/
def sort.siftDown.loop (hi first : Nat) : Nat → Nat → TalosVersionTags → Option TalosVersionTags
  | fuel, root, data =>
    if 2 * root + 1 ≥ hi then some data
    else
      match fuel with
      | 0 => none
      | fuel + 1 =>
        match (if 2 * root + 1 + 1 < hi then data.Less (first + (2 * root + 1)) (first + (2 * root + 1) + 1)
            else some false) with
        | none => none
        | some right =>
          let child := if right then 2 * root + 1 + 1 else 2 * root + 1
          match data.Less (first + root) (first + child) with
          | none => none
          | some false => some data
          | some true =>
            match data.Swap (first + root) (first + child) with
            | none => none
            | some data => sort.siftDown.loop hi first fuel child data

/-- Function `siftDown` of package `sort`. -/
def sort.siftDown (data : TalosVersionTags) (lo hi first : Nat) : Option TalosVersionTags :=
  sort.siftDown.loop hi first hi lo data

/-- The first loop of `heapSort`: `for i := (hi - 1) / 2; i >= 0; i--`. -/
def sort.heapSort.build (hi first : Nat) : Nat → TalosVersionTags → Option TalosVersionTags
  | 0, data => sort.siftDown data 0 hi first
  | i + 1, data =>
    match sort.siftDown data (i + 1) hi first with
    | none => none
    | some data => sort.heapSort.build hi first i data

/-- The second loop of `heapSort`: `for i := hi - 1; i >= 0; i--`. -/
def sort.heapSort.pop (first : Nat) : Nat → TalosVersionTags → Option TalosVersionTags
  | 0, data =>
    match data.Swap first (first + 0) with
    | none => none
    | some data => sort.siftDown data 0 0 first
  | i + 1, data =>
    match data.Swap first (first + (i + 1)) with
    | none => none
    | some data =>
      match sort.siftDown data 0 (i + 1) first with
      | none => none
      | some data => sort.heapSort.pop first i data

/-- Function `heapSort` of package `sort`: sorts `data[a:b]`. With `hi = 0` the
second loop starts at -1 and does not run. -/
def sort.heapSort (data : TalosVersionTags) (a b : Nat) : Option TalosVersionTags :=
  let first := a
  let hi := b - a
  match sort.heapSort.build hi first ((hi - 1) / 2) data with
  | none => none
  | some data => if hi = 0 then some data else sort.heapSort.pop first (hi - 1) data

/-- The hint of `choosePivot`. -/
inductive sort.sortedHint where
  | unknownHint
  | increasingHint
  | decreasingHint
deriving DecidableEq

/-- The loop `for i <= j && data.Less(i, a) { i++ }` of `partition`, with the
rounds left as fuel; returns the new `i`. -/
def sort.partition.up (data : TalosVersionTags) (a j : Nat) : Nat → Nat → Option Nat
  | 0, i => some i
  | fuel + 1, i =>
    if i ≤ j then
      match data.Less i a with
      | none => none
      | some true => sort.partition.up data a j fuel (i + 1)
      | some false => some i
    else some i

/-- The loop `for i <= j && !data.Less(j, a) { j-- }` of `partition`; returns
the new `j`. Stepping below index 0 is recorded as `none`: the `Swap(j, a)` that
follows would panic. -/
def sort.partition.down (data : TalosVersionTags) (a i : Nat) : Nat → Option Nat
  | 0 =>
    if i ≤ 0 then
      match data.Less 0 a with
      | none => none
      | some true => some 0
      | some false => none
    else some 0
  | j + 1 =>
    if i ≤ j + 1 then
      match data.Less (j + 1) a with
      | none => none
      | some true => some (j + 1)
      | some false => sort.partition.down data a i j
    else some (j + 1)

/-- The endless `for` loop of `partition` with the `Swap(j, a)` and the return
that follow it; rounds left as fuel. -/
def sort.partition.loop (a : Nat) : Nat → Nat → Nat → TalosVersionTags →
    Option (TalosVersionTags × Nat)
  | 0, _, _, _ => none
  | fuel + 1, i, j, data =>
    match sort.partition.up data a j (j + 1 - i) i with
    | none => none
    | some i =>
      match sort.partition.down data a i j with
      | none => none
      | some j =>
        if i > j then
          match data.Swap j a with
          | none => none
          | some data => some (data, j)
        else
          match data.Swap i j with
          | none => none
          | some data => sort.partition.loop a fuel (i + 1) (j - 1) data

/-- Function `partition` of package `sort`: the new pivot index and whether the
slice was already partitioned. -/
def sort.partition (data : TalosVersionTags) (a b pivot : Nat) :
    Option (TalosVersionTags × Nat × Bool) :=
  match data.Swap a pivot with
  | none => none
  | some data =>
    match sort.partition.up data a (b - 1) (b - 1 + 1 - (a + 1)) (a + 1) with
    | none => none
    | some i =>
      match sort.partition.down data a i (b - 1) with
      | none => none
      | some j =>
        if i > j then
          match data.Swap j a with
          | none => none
          | some data => some (data, j, true)
        else
          match data.Swap i j with
          | none => none
          | some data =>
            match sort.partition.loop a (b - a) (i + 1) (j - 1) data with
            | none => none
            | some (data, j) => some (data, j, false)

/-- The loop `for i <= j && !data.Less(a, i) { i++ }` of `partitionEqual`. -/
def sort.partitionEqual.up (data : TalosVersionTags) (a j : Nat) : Nat → Nat → Option Nat
  | 0, i => some i
  | fuel + 1, i =>
    if i ≤ j then
      match data.Less a i with
      | none => none
      | some false => sort.partitionEqual.up data a j fuel (i + 1)
      | some true => some i
    else some i

/-- The loop `for i <= j && data.Less(a, j) { j-- }` of `partitionEqual`; returns
the new `j`, with `some none` for a `j` that has stepped below index 0. -/
def sort.partitionEqual.down (data : TalosVersionTags) (a i : Nat) : Nat → Option (Option Nat)
  | 0 =>
    if i ≤ 0 then
      match data.Less a 0 with
      | none => none
      | some false => some (some 0)
      | some true => some none
    else some (some 0)
  | j + 1 =>
    if i ≤ j + 1 then
      match data.Less a (j + 1) with
      | none => none
      | some false => some (some (j + 1))
      | some true => sort.partitionEqual.down data a i j
    else some (some (j + 1))

/-- The endless `for` loop of `partitionEqual`; rounds left as fuel. -/
def sort.partitionEqual.loop (a : Nat) : Nat → Nat → Nat → TalosVersionTags →
    Option (TalosVersionTags × Nat)
  | 0, _, _, _ => none
  | fuel + 1, i, j, data =>
    match sort.partitionEqual.up data a j (j + 1 - i) i with
    | none => none
    | some i =>
      match sort.partitionEqual.down data a i j with
      | none => none
      | some none => some (data, i)
      | some (some j) =>
        if i > j then some (data, i)
        else
          match data.Swap i j with
          | none => none
          | some data => sort.partitionEqual.loop a fuel (i + 1) (j - 1) data

/-- Function `partitionEqual` of package `sort`. -/
def sort.partitionEqual (data : TalosVersionTags) (a b pivot : Nat) :
    Option (TalosVersionTags × Nat) :=
  match data.Swap a pivot with
  | none => none
  | some data => sort.partitionEqual.loop a (b - a + 1) (a + 1) (b - 1) data

/-- The loop `for i < b && !data.Less(i, i-1) { i++ }` of `partialInsertionSort`. -/
def sort.partialInsertionSort.scan (data : TalosVersionTags) (b : Nat) : Nat → Nat → Option Nat
  | 0, i => some i
  | fuel + 1, i =>
    if i < b then
      match data.Less i (i - 1) with
      | none => none
      | some false => sort.partialInsertionSort.scan data b fuel (i + 1)
      | some true => some i
    else some i

/-- The loop `for j := i - 1; j >= 1; j--` of `partialInsertionSort` that shifts
the smaller entry to the left. -/
def sort.partialInsertionSort.left : Nat → TalosVersionTags → Option TalosVersionTags
  | 0, data => some data
  | j + 1, data =>
    match data.Less (j + 1) j with
    | none => none
    | some false => some data
    | some true =>
      match data.Swap (j + 1) j with
      | none => none
      | some data => sort.partialInsertionSort.left j data

/-- The loop `for j := i + 1; j < b; j++` of `partialInsertionSort` that shifts
the greater entry to the right; rounds left as fuel. -/
def sort.partialInsertionSort.right (b : Nat) : Nat → Nat → TalosVersionTags →
    Option TalosVersionTags
  | 0, _, data => some data
  | fuel + 1, j, data =>
    if j < b then
      match data.Less j (j - 1) with
      | none => none
      | some false => some data
      | some true =>
        match data.Swap j (j - 1) with
        | none => none
        | some data => sort.partialInsertionSort.right b fuel (j + 1) data
    else some data

/-- The loop `for j := 0; j < maxSteps; j++` of `partialInsertionSort`, with the
steps left; `i` is carried from step to step. -/
def sort.partialInsertionSort.steps (a b : Nat) : Nat → Nat → TalosVersionTags →
    Option (TalosVersionTags × Bool)
  | 0, _, data => some (data, false)
  | steps + 1, i, data =>
    match sort.partialInsertionSort.scan data b (b - i) i with
    | none => none
    | some i =>
      if i = b then some (data, true)
      else if b - a < 50 then some (data, false)
      else
        match data.Swap i (i - 1) with
        | none => none
        | some data =>
          match (if i - a ≥ 2 then sort.partialInsertionSort.left (i - 1) data else some data) with
          | none => none
          | some data =>
            match (if b - i ≥ 2 then sort.partialInsertionSort.right b (b - (i + 1)) (i + 1) data
                else some data) with
            | none => none
            | some data => sort.partialInsertionSort.steps a b steps i data

/-- Function `partialInsertionSort` of package `sort`: true when the slice is
sorted at the end. -/
def sort.partialInsertionSort (data : TalosVersionTags) (a b : Nat) :
    Option (TalosVersionTags × Bool) :=
  sort.partialInsertionSort.steps a b 5 (a + 1) data

/-- The loop of `breakPatterns`, `for i := 0; i < 3; i++`, with the rounds left;
`random i` is the value of the `i`-th call of `random.Next()`. -/
def sort.breakPatterns.loop (random : Nat → Nat) (a length modulus idx : Nat) :
    Nat → Nat → TalosVersionTags → Option TalosVersionTags
  | 0, _, data => some data
  | fuel + 1, i, data =>
    let other := random i &&& (modulus - 1)
    let other := if other ≥ length then other - length else other
    match data.Swap (idx - 1 + i) (a + other) with
    | none => none
    | some data => sort.breakPatterns.loop random a length modulus idx fuel (i + 1) data

/-- Function `breakPatterns` of package `sort`. `random length i` is the value
that the `i`-th call of `Next` returns on the generator `xorshift(length)`. -/
def sort.breakPatterns (random : Nat → Nat → Nat) (data : TalosVersionTags) (a b : Nat) :
    Option TalosVersionTags :=
  let length := b - a
  if length ≥ 8 then
    let modulus := 2 ^ bits.Len length
    let idx := a + (length / 4) * 2 - 1
    sort.breakPatterns.loop (random length) a length modulus idx 3 0 data
  else some data

/-- Function `order2` of package `sort`: the two indices in order, and the swap
count. -/
def sort.order2 (data : TalosVersionTags) (a b swaps : Nat) : Option (Nat × Nat × Nat) :=
  match data.Less b a with
  | none => none
  | some true => some (b, a, swaps + 1)
  | some false => some (a, b, swaps)

/-- Function `median` of package `sort`: the index of the median of three, and
the swap count. -/
def sort.median (data : TalosVersionTags) (a b c swaps : Nat) : Option (Nat × Nat) :=
  match sort.order2 data a b swaps with
  | none => none
  | some (a, b, swaps) =>
    match sort.order2 data b c swaps with
    | none => none
    | some (b, _, swaps) =>
      match sort.order2 data a b swaps with
      | none => none
      | some (_, b, swaps) => some (b, swaps)

/-- Function `medianAdjacent` of package `sort`. -/
def sort.medianAdjacent (data : TalosVersionTags) (a swaps : Nat) : Option (Nat × Nat) :=
  sort.median data (a - 1) a (a + 1) swaps

/-- Function `choosePivot` of package `sort`. -/
def sort.choosePivot (data : TalosVersionTags) (a b : Nat) : Option (Nat × sort.sortedHint) :=
  let l := b - a
  let i := a + l / 4 * 1
  let j := a + l / 4 * 2
  let k := a + l / 4 * 3
  match (if l ≥ 8 then
      match (if l ≥ 50 then
          match sort.medianAdjacent data i 0 with
          | none => none
          | some (i, swaps) =>
            match sort.medianAdjacent data j swaps with
            | none => none
            | some (j, swaps) =>
              match sort.medianAdjacent data k swaps with
              | none => none
              | some (k, swaps) => some (i, j, k, swaps)
          else some (i, j, k, 0)) with
      | none => none
      | some (i, j, k, swaps) => sort.median data i j k swaps
      else some (j, 0)) with
  | none => none
  | some (j, swaps) =>
    if swaps = 0 then some (j, .increasingHint)
    else if swaps = 4 * 3 then some (j, .decreasingHint)
    else some (j, .unknownHint)

/-- The loop of `reverseRange`, `for i < j`, with the rounds left as fuel. -/
def sort.reverseRange.loop : Nat → Nat → Nat → TalosVersionTags → Option TalosVersionTags
  | 0, _, _, data => some data
  | fuel + 1, i, j, data =>
    if i < j then
      match data.Swap i j with
      | none => none
      | some data => sort.reverseRange.loop fuel (i + 1) (j - 1) data
    else some data

/-- Function `reverseRange` of package `sort`. -/
def sort.reverseRange (data : TalosVersionTags) (a b : Nat) : Option TalosVersionTags :=
  sort.reverseRange.loop (b - a) a (b - 1) data

/-- Function `pdqsort` of package `sort`: sorts `data[a:b]`. The endless `for`
loop and the recursive calls share the fuel; every round and every call works
on a shorter slice, so a fuel of `b - a` is never used up. -/
def sort.pdqsort (random : Nat → Nat → Nat) : Nat → TalosVersionTags → Nat → Nat → Nat →
    Bool → Bool → Option TalosVersionTags
  | fuel, data, a, b, limit, wasBalanced, wasPartitioned =>
    if b - a ≤ 12 then sort.insertionSort data a b
    else if limit = 0 then sort.heapSort data a b
    else
      match fuel with
      | 0 => none
      | fuel + 1 =>
        match (if !wasBalanced then
            (sort.breakPatterns random data a b).map (fun data => (data, limit - 1))
            else some (data, limit)) with
        | none => none
        | some (data, limit) =>
          match sort.choosePivot data a b with
          | none => none
          | some (pivot, hint) =>
            match (if hint = .decreasingHint then
                (sort.reverseRange data a b).map
                  (fun data => (data, (b - 1) - (pivot - a), sort.sortedHint.increasingHint))
                else some (data, pivot, hint)) with
            | none => none
            | some (data, pivot, hint) =>
              match (if wasBalanced && wasPartitioned && hint = .increasingHint then
                  sort.partialInsertionSort data a b else some (data, false)) with
              | none => none
              | some (data, true) => some data
              | some (data, false) =>
                match (if a > 0 then (data.Less (a - 1) pivot).map (fun lt => !lt)
                    else some false) with
                | none => none
                | some true =>
                  match sort.partitionEqual data a b pivot with
                  | none => none
                  | some (data, mid) =>
                    sort.pdqsort random fuel data mid b limit wasBalanced wasPartitioned
                | some false =>
                  match sort.partition data a b pivot with
                  | none => none
                  | some (data, mid, alreadyPartitioned) =>
                    if mid - a < b - mid then
                      match sort.pdqsort random fuel data a mid limit true true with
                      | none => none
                      | some data =>
                        sort.pdqsort random fuel data (mid + 1) b limit
                          (decide (mid - a ≥ (b - a) / 8)) alreadyPartitioned
                    else
                      match sort.pdqsort random fuel data (mid + 1) b limit true true with
                      | none => none
                      | some data =>
                        sort.pdqsort random fuel data a mid limit
                          (decide (b - mid ≥ (b - a) / 8)) alreadyPartitioned

/-- Function `Sort` of package `sort`, run on a tag set through its methods
`Len`, `Less` and `Swap`; `none` is a run-time panic. -/
def sort.Sort (random : Nat → Nat → Nat) (data : TalosVersionTags) : Option TalosVersionTags :=
  let n := data.Len
  if n ≤ 1 then some data
  else sort.pdqsort random n data 0 n (bits.Len n) true true

/-- The call `sort.Sort(tagsToAppend)` of `getMissingTags` as a sorting routine:
the library routine run on the tag set through its methods `Len`, `Less` and
`Swap`. The relation handed over is not consulted, the routine calls the method
`Less` itself. `random` stands for the generator of `breakPatterns`. A panic
would leave no result at all; it is proved not to happen. -/
def sortSort (random : Nat → Nat → Nat) : SortImpl := fun _ l =>
  match sort.Sort random ⟨l⟩ with
  | some data => data.Versions
  | none => l

/-! ## `talosconfig.go` -/

/-- A node of the cluster description, as far as `GenerateClientConfigBytes`
reads it. -/
structure Node where
  IPAddress : String
  ControlPlane : Bool
deriving DecidableEq

/-- The cluster description `config.TalhelperConfig`: its node list. -/
structure TalhelperConfig where
  Nodes : List Node
deriving DecidableEq

/-- The options of the generation input: the endpoint list and, in `other`, the
options that `GenerateClientConfigBytes` does not touch. -/
structure GenOptions (ω : Type) where
  EndpointList : List String
  other : ω

/-- The generation input `generate.Input`: its options and, in `other`, the rest. -/
structure Input (ω ι : Type) where
  Options : GenOptions ω
  other : ι

/-- What a call of `GenerateClientConfigBytes` leaves behind: the two results
and the generation input behind the pointer. -/
structure Generated (ω ι : Type) where
  bytes : Option (List Nat)
  err : Option Error
  input : Input ω ι

/-- One iteration of the node loop of `GenerateClientConfigBytes`. -/
def GenerateClientConfigBytes.body (endpoints : List String) (node : Node) : List String :=
  if node.ControlPlane then endpoints ++ [node.IPAddress] else endpoints

/-- Function `GenerateClientConfigBytes`. The library calls `input.Talosconfig()`
and `cfg.Bytes()` are the parameters `Talosconfig` and `Bytes`. -/
def GenerateClientConfigBytes {ω ι κ : Type} (Talosconfig : Input ω ι → Except Error κ)
    (Bytes : κ → Except Error (List Nat)) (c : TalhelperConfig) (input : Input ω ι) :
    Generated ω ι :=
  let endpoints := c.Nodes.foldl GenerateClientConfigBytes.body []
  let input : Input ω ι := { input with Options := { input.Options with EndpointList := endpoints } }
  match Talosconfig input with
  | .error err => ⟨none, some err, input⟩
  | .ok cfg =>
    match Bytes cfg with
    | .error err => ⟨none, some err, input⟩
    | .ok finalCfg => ⟨some finalCfg, none, input⟩

/-! ## The specification's view of the canonicaliser -/

/-- The parsed image reference of the specification: five named string fields. -/
structure ImageReference where
  registry : String
  org : String
  repo : String
  tag : String
  shasum : String
deriving DecidableEq

/-- The five field values of a parsed reference. -/
def ImageReference.fields (ref : ImageReference) : List String :=
  [ref.registry, ref.org, ref.repo, ref.tag, ref.shasum]

/-- The grammar parses `line` into the fields `ref`: the submatch search finds a
match, and the capture-group names lead to the five values of `ref`. -/
def Regexp.Parses (regexp : Regexp) (line : String) (ref : ImageReference) : Prop :=
  regexp.FindStringSubmatch line ≠ [] ∧
  ∃ result, cleanString.captures 0 regexp.SubexpNames (regexp.FindStringSubmatch line) []
      = .ok result ∧
    result.index "registry" = ref.registry ∧ result.index "org" = ref.org ∧
    result.index "repo" = ref.repo ∧ result.index "tag" = ref.tag ∧
    result.index "shasum" = ref.shasum

/-- The rendering table of the specification, section 4.5, row by row: the flag
values a row matches and the output it assigns. -/
def renderingTable : List ((Flags → Bool) × (ImageReference → String)) :=
  [ (fun f => f.minimal || (f.trimRegistry && f.trimSha256 && f.trimTag),
      fun r => r.org ++ "/" ++ r.repo),
    (fun f => !f.minimal && f.trimRegistry && f.trimSha256,
      fun r => r.org ++ "/" ++ r.repo ++ ":" ++ r.tag),
    (fun f => !f.minimal && f.trimRegistry && !f.trimSha256 && f.trimTag,
      fun r => r.org ++ "/" ++ r.repo ++ "@sha256:" ++ r.shasum),
    (fun f => !f.minimal && f.trimRegistry && !f.trimSha256 && !f.trimTag,
      fun r => r.org ++ "/" ++ r.repo ++ ":" ++ r.tag ++ "@sha256:" ++ r.shasum),
    (fun f => !f.minimal && !f.trimRegistry && f.trimSha256 && f.trimTag,
      fun r => r.registry ++ "/" ++ r.org ++ "/" ++ r.repo),
    (fun f => !f.minimal && !f.trimRegistry && f.trimSha256 && !f.trimTag,
      fun r => r.registry ++ "/" ++ r.org ++ "/" ++ r.repo ++ ":" ++ r.tag),
    (fun f => !f.minimal && !f.trimRegistry && !f.trimSha256 && f.trimTag,
      fun r => r.registry ++ "/" ++ r.org ++ "/" ++ r.repo ++ "@sha256:" ++ r.shasum),
    (fun f => !f.minimal && !f.trimRegistry && !f.trimSha256 && !f.trimTag,
      fun r => r.registry ++ "/" ++ r.org ++ "/" ++ r.repo ++ ":" ++ r.tag ++ "@sha256:"
        ++ r.shasum) ]

/-- The output of the first row of the rendering table that matches the flags. -/
def renderingTable.output (flags : Flags) (ref : ImageReference) : Option String :=
  (renderingTable.find? (fun row => row.1 flags)).map (fun row => row.2 ref)

/-- A compiled pattern with the five capture groups of the specification that
matches the reference of the specification's canonicalisation table and no
other line. -/
def tableRegexp : Regexp where
  SubexpNames := ["", "registry", "org", "repo", "tag", "shasum"]
  FindStringSubmatch := fun line =>
    if line = "registry.example.com/acme/widget:v1.2.3@sha256:deadbeef" then
      ["registry.example.com/acme/widget:v1.2.3@sha256:deadbeef",
        "registry.example.com", "acme", "widget", "v1.2.3", "deadbeef"]
    else []

/-- A compiled pattern with the five capture groups of the specification that
matches the one line `line` and captures the fields `ref` from it. -/
def exactRegexp (line : String) (ref : ImageReference) : Regexp where
  SubexpNames := ["", "registry", "org", "repo", "tag", "shasum"]
  FindStringSubmatch := fun l =>
    if l = line then [line, ref.registry, ref.org, ref.repo, ref.tag, ref.shasum] else []

/-- The fields of the reference of the specification's canonicalisation table. -/
def tableReference : ImageReference :=
  ⟨"registry.example.com", "acme", "widget", "v1.2.3", "deadbeef"⟩

/-! ## Orderings -/

/-- A three-way comparison with values -1, 0 and 1 that is a strict total order
on the inputs that satisfy `P`. -/
structure TotalCmp {α : Type} (P : α → Prop) (c : α → α → Int) : Prop where
  zero_iff : ∀ x y, P x → P y → (c x y = 0 ↔ x = y)
  range : ∀ x y, P x → P y → c x y = -1 ∨ c x y = 0 ∨ c x y = 1
  neg : ∀ x y, P x → P y → c y x = - c x y
  trans : ∀ x y z, P x → P y → P z → c x y = -1 → c y z = -1 → c x z = -1

/-- Two comparisons in sequence: the second decides when the first says equal. -/
def lexCmp {α β : Type} (c1 : α → α → Int) (c2 : β → β → Int) (a b : α × β) : Int :=
  if c1 a.1 b.1 ≠ 0 then c1 a.1 b.1 else c2 a.2 b.2

/-- Comparison of lists entry by entry; a proper initial part comes first. -/
def listCmp {α : Type} (c : α → α → Int) : List α → List α → Int
  | [], [] => 0
  | [], _ :: _ => -1
  | _ :: _, [] => 1
  | a :: as, b :: bs => if c a b ≠ 0 then c a b else listCmp c as bs

/-- Comparison with an extra greatest element `none`. -/
def topCmp {α : Type} (c : α → α → Int) : Option α → Option α → Int
  | none, none => 0
  | none, some _ => 1
  | some _, none => -1
  | some a, some b => c a b

/-- Comparison with an extra least element `none`. -/
def botCmp {α : Type} (c : α → α → Int) : Option α → Option α → Int
  | none, none => 0
  | none, some _ => -1
  | some _, none => 1
  | some a, some b => c a b

/-- The identifiers the loop of `comparePrerelease` walks through: each round
skips one separator and takes the text up to the next dot. -/
def semver.segs : Nat → List Char → List (List Char)
  | 0, _ => []
  | n + 1, x =>
    if x = [] then []
    else (semver.nextIdent x.tail).1 :: semver.segs n (semver.nextIdent x.tail).2

/-- The order of `comparePrerelease` on single identifiers. -/
def semver.identCmp (dx dy : List Char) : Int :=
  if dx = dy then 0 else semver.comparePrerelease.ident dx dy

/-- The ordering key of a pre-release string: `none`, the greatest, for the
empty string of a release, else its identifiers. -/
def semver.prereleaseKey (x : List Char) : Option (List (List Char)) :=
  if x = [] then none else some (semver.segs x.length x)

/-- The ordering key of a version string: `none` for an invalid version, else
major, minor, patch and pre-release. -/
def semver.key (v : String) : Option (List Char × List Char × List Char × List Char) :=
  (semver.parse v.data).map (fun p => (p.major, p.minor, p.patch, p.prerelease))

/-- The comparison `Compare` makes on the keys of two valid versions. -/
def semver.keyCmp : (List Char × List Char × List Char × List Char) →
    (List Char × List Char × List Char × List Char) → Int :=
  lexCmp semver.compareInt (lexCmp semver.compareInt
    (lexCmp semver.compareInt semver.comparePrerelease))

/-! ## Slices under sorting -/

/-- The entry at index `k` of a slice, with a filler entry for an index out of
range. -/
def el (l : List TalosVersion) (k : Nat) : TalosVersion :=
  l.getD k ⟨"", []⟩

/-- A pass over `data[a:b]` turned `l` into `l'`: the entries are rearranged, the
entries outside `a..b` stay in place and the entries inside stay inside. -/
structure Frame (a b : Nat) (l l' : List TalosVersion) : Prop where
  length : l'.length = l.length
  perm : l'.Perm l
  outside : ∀ k, k < a ∨ b ≤ k → l'[k]? = l[k]?
  inside : ∀ k, a ≤ k → k < b → ∃ k', a ≤ k' ∧ k' < b ∧ l'[k]? = l[k']?

/-- The slice is in ascending order on `a..b`: no entry is less than an earlier
one. -/
def SortedOn (l : List TalosVersion) (a b : Nat) : Prop :=
  ∀ i j, a ≤ i → i < j → j < b → (el l j).less (el l i) = false

/-- The heap order of `siftDown` on the nodes `lo..hi` of the heap that starts at
index `first`: no node from `lo` on is less than one of its two children. -/
def HeapOn (l : List TalosVersion) (first lo hi : Nat) : Prop :=
  ∀ p c, lo ≤ p → c < hi → (c = 2 * p + 1 ∨ c = 2 * p + 2) →
    (el l (first + p)).less (el l (first + c)) = false

/-- Every entry of `a..b` is at least the entry just before `a`, when there is
one: what `pdqsort` knows of the slice it is called on. -/
def Low (l : List TalosVersion) (a b : Nat) : Prop :=
  0 < a → ∀ k, a ≤ k → k < b → (el l k).less (el l (a - 1)) = false

/-! ## Properties -/

/-! ### Three-way comparisons -/

theorem TotalCmp.le_iff {α : Type} {P : α → Prop} {c : α → α → Int} (h : TotalCmp P c)
    {x y : α} (hx : P x) (hy : P y) : c x y ≤ 0 ↔ c x y = -1 ∨ x = y := by
  rw [← h.zero_iff x y hx hy]
  rcases h.range x y hx hy with h1 | h1 | h1 <;> rw [h1] <;> simp

theorem TotalCmp.trans_le {α : Type} {P : α → Prop} {c : α → α → Int} (h : TotalCmp P c)
    {x y z : α} (hx : P x) (hy : P y) (hz : P z) (h1 : c x y ≤ 0) (h2 : c y z ≤ 0) :
    c x z ≤ 0 := by
  rw [h.le_iff hx hy] at h1
  rw [h.le_iff hy hz] at h2
  rw [h.le_iff hx hz]
  rcases h1 with h1 | rfl
  · rcases h2 with h2 | rfl
    · exact Or.inl (h.trans x y z hx hy hz h1 h2)
    · exact Or.inl h1
  · exact h2

theorem TotalCmp.comap {α β : Type} {P : α → Prop} {Q : β → Prop} {c : β → β → Int}
    (h : TotalCmp Q c) (k : α → β) (c' : α → α → Int) (hk : ∀ x, P x → Q (k x))
    (hinj : ∀ x y, P x → P y → k x = k y → x = y)
    (heq : ∀ x y, P x → P y → c' x y = c (k x) (k y)) : TotalCmp P c' where
  zero_iff x y hx hy := by
    rw [heq x y hx hy, h.zero_iff _ _ (hk x hx) (hk y hy)]
    exact ⟨hinj x y hx hy, fun e => e ▸ rfl⟩
  range x y hx hy := by
    rw [heq x y hx hy]
    exact h.range _ _ (hk x hx) (hk y hy)
  neg x y hx hy := by
    rw [heq x y hx hy, heq y x hy hx]
    exact h.neg _ _ (hk x hx) (hk y hy)
  trans x y z hx hy hz := by
    rw [heq x y hx hy, heq y z hy hz, heq x z hx hz]
    exact h.trans _ _ _ (hk x hx) (hk y hy) (hk z hz)

theorem TotalCmp.lex {α β : Type} {P : α → Prop} {Q : β → Prop} {c1 : α → α → Int}
    {c2 : β → β → Int} (h1 : TotalCmp P c1) (h2 : TotalCmp Q c2) :
    TotalCmp (fun a : α × β => P a.1 ∧ Q a.2) (lexCmp c1 c2) where
  zero_iff := by
    rintro ⟨a1, a2⟩ ⟨b1, b2⟩ ⟨ha1, ha2⟩ ⟨hb1, hb2⟩
    unfold lexCmp
    by_cases hc : c1 a1 b1 = 0
    · have e := (h1.zero_iff a1 b1 ha1 hb1).1 hc
      subst e
      simp [hc, h2.zero_iff a2 b2 ha2 hb2]
    · have hne : a1 ≠ b1 := fun e => hc ((h1.zero_iff a1 b1 ha1 hb1).2 e)
      simp [hc, hne]
  range := by
    rintro ⟨a1, a2⟩ ⟨b1, b2⟩ ⟨ha1, ha2⟩ ⟨hb1, hb2⟩
    unfold lexCmp
    by_cases hc : c1 a1 b1 = 0
    · simpa [hc] using h2.range a2 b2 ha2 hb2
    · simpa [hc] using h1.range a1 b1 ha1 hb1
  neg := by
    rintro ⟨a1, a2⟩ ⟨b1, b2⟩ ⟨ha1, ha2⟩ ⟨hb1, hb2⟩
    unfold lexCmp
    have hn := h1.neg a1 b1 ha1 hb1
    by_cases hc : c1 a1 b1 = 0
    · have hc' : c1 b1 a1 = 0 := by rw [hn, hc]; rfl
      simpa [hc, hc'] using h2.neg a2 b2 ha2 hb2
    · have hc' : c1 b1 a1 ≠ 0 := by rw [hn]; simpa using hc
      simpa [hc, hc'] using hn
  trans := by
    rintro ⟨a1, a2⟩ ⟨b1, b2⟩ ⟨d1, d2⟩ ⟨ha1, ha2⟩ ⟨hb1, hb2⟩ ⟨hd1, hd2⟩
    unfold lexCmp
    dsimp only
    intro hab hbd
    by_cases hc : c1 a1 b1 = 0
    · have e := (h1.zero_iff a1 b1 ha1 hb1).1 hc
      subst e
      by_cases hc2 : c1 a1 d1 = 0
      · simp only [hc, hc2, ne_eq, not_true_eq_false, if_false] at hab hbd ⊢
        exact h2.trans _ _ _ ha2 hb2 hd2 hab hbd
      · simpa [hc2] using hbd
    · rw [if_pos hc] at hab
      by_cases hc2 : c1 b1 d1 = 0
      · have e := (h1.zero_iff b1 d1 hb1 hd1).1 hc2
        subst e
        rw [if_pos hc]
        exact hab
      · rw [if_pos hc2] at hbd
        have := h1.trans _ _ _ ha1 hb1 hd1 hab hbd
        rw [this]
        simp

theorem TotalCmp.list {α : Type} {c : α → α → Int} (h : TotalCmp (fun _ => True) c) :
    TotalCmp (fun _ => True) (listCmp c) where
  zero_iff := by
    intro x
    induction x with
    | nil => intro y _ _; cases y <;> simp [listCmp]
    | cons a as ih =>
      intro y _ _
      cases y with
      | nil => simp [listCmp]
      | cons b bs =>
        unfold listCmp
        by_cases hc : c a b = 0
        · have e := (h.zero_iff a b trivial trivial).1 hc
          subst e
          simp [hc, ih bs trivial trivial]
        · have hne : a ≠ b := fun e => hc ((h.zero_iff a b trivial trivial).2 e)
          simp [hc, hne]
  range := by
    intro x
    induction x with
    | nil => intro y _ _; cases y <;> simp [listCmp]
    | cons a as ih =>
      intro y _ _
      cases y with
      | nil => simp [listCmp]
      | cons b bs =>
        unfold listCmp
        by_cases hc : c a b = 0
        · simpa [hc] using ih bs trivial trivial
        · simpa [hc] using h.range a b trivial trivial
  neg := by
    intro x
    induction x with
    | nil => intro y _ _; cases y <;> simp [listCmp]
    | cons a as ih =>
      intro y _ _
      cases y with
      | nil => simp [listCmp]
      | cons b bs =>
        unfold listCmp
        have hn := h.neg a b trivial trivial
        by_cases hc : c a b = 0
        · have hc' : c b a = 0 := by rw [hn, hc]; rfl
          simpa [hc, hc'] using ih bs trivial trivial
        · have hc' : c b a ≠ 0 := by rw [hn]; simpa using hc
          simpa [hc, hc'] using hn
  trans := by
    intro x
    induction x with
    | nil =>
      intro y z _ _ _ hxy hyz
      cases y with
      | nil => simp [listCmp] at hxy
      | cons b bs =>
        cases z with
        | nil => simp [listCmp] at hyz
        | cons d ds => simp [listCmp]
    | cons a as ih =>
      intro y z _ _ _ hxy hyz
      cases y with
      | nil => simp [listCmp] at hxy
      | cons b bs =>
        cases z with
        | nil => simp [listCmp] at hyz
        | cons d ds =>
          unfold listCmp at hxy hyz ⊢
          by_cases hc : c a b = 0
          · have e := (h.zero_iff a b trivial trivial).1 hc
            subst e
            by_cases hc2 : c a d = 0
            · simp only [hc, hc2, ne_eq, not_true_eq_false, if_false] at hxy hyz ⊢
              exact ih bs ds trivial trivial trivial hxy hyz
            · simpa [hc2] using hyz
          · rw [if_pos hc] at hxy
            by_cases hc2 : c b d = 0
            · have e := (h.zero_iff b d trivial trivial).1 hc2
              subst e
              rw [if_pos hc]
              exact hxy
            · rw [if_pos hc2] at hyz
              have := h.trans _ _ _ trivial trivial trivial hxy hyz
              rw [this]
              simp

theorem TotalCmp.top {α : Type} {P : α → Prop} {c : α → α → Int} (h : TotalCmp P c) :
    TotalCmp (fun o : Option α => ∀ a, o = some a → P a) (topCmp c) where
  zero_iff := by
    intro x y hx hy
    cases x <;> cases y <;> simp [topCmp]
    exact h.zero_iff _ _ (hx _ rfl) (hy _ rfl)
  range := by
    intro x y hx hy
    cases x <;> cases y <;> simp [topCmp]
    exact h.range _ _ (hx _ rfl) (hy _ rfl)
  neg := by
    intro x y hx hy
    cases x <;> cases y <;> simp [topCmp]
    exact h.neg _ _ (hx _ rfl) (hy _ rfl)
  trans := by
    intro x y z hx hy hz
    cases x <;> cases y <;> cases z <;> simp [topCmp]
    exact h.trans _ _ _ (hx _ rfl) (hy _ rfl) (hz _ rfl)

/-! ### `semver.Compare` is a total preorder -/

theorem TotalCmp.ofKey {α κ : Type} [LinearOrder κ] (k : α → κ) (hk : Function.Injective k)
    (c : α → α → Int) (h0 : ∀ x, c x x = 0) (hlt : ∀ x y, k x < k y → c x y = -1)
    (hgt : ∀ x y, k y < k x → c x y = 1) : TotalCmp (fun _ => True) c where
  zero_iff x y _ _ := by
    constructor
    · intro h
      rcases lt_trichotomy (k x) (k y) with h1 | h1 | h1
      · rw [hlt x y h1] at h; exact absurd h (by decide)
      · exact hk h1
      · rw [hgt x y h1] at h; exact absurd h (by decide)
    · rintro rfl
      exact h0 x
  range x y _ _ := by
    rcases lt_trichotomy (k x) (k y) with h1 | h1 | h1
    · exact Or.inl (hlt x y h1)
    · rw [hk h1]; exact Or.inr (Or.inl (h0 y))
    · exact Or.inr (Or.inr (hgt x y h1))
  neg x y _ _ := by
    rcases lt_trichotomy (k x) (k y) with h1 | h1 | h1
    · rw [hlt x y h1, hgt y x h1]; rfl
    · rw [hk h1, h0 y]; rfl
    · rw [hgt x y h1, hlt y x h1]
  trans x y z _ _ _ hxy hyz := by
    have key : ∀ a b, c a b = -1 → k a < k b := by
      intro a b hab
      rcases lt_trichotomy (k a) (k b) with h1 | h1 | h1
      · exact h1
      · rw [hk h1, h0 b] at hab; exact absurd hab (by decide)
      · rw [hgt a b h1] at hab; exact absurd hab (by decide)
    exact hlt x z (lt_trans (key x y hxy) (key y z hyz))

theorem compareInt_total : TotalCmp (fun _ => True) semver.compareInt := by
  refine TotalCmp.ofKey (fun x : List Char => toLex (x.length, x)) ?_ _ ?_ ?_ ?_
  · intro x y h
    exact (Prod.mk.inj (toLex.injective h)).2
  · intro x
    simp [semver.compareInt]
  · intro x y h
    rw [Prod.Lex.lt_iff] at h
    simp only [ofLex_toLex] at h
    unfold semver.compareInt
    rcases h with h | ⟨h1, h2⟩
    · have hne : x ≠ y := fun e => by rw [e] at h; exact lt_irrefl _ h
      simp [hne, h]
    · have hne : x ≠ y := fun e => by rw [e] at h2; exact lt_irrefl _ h2
      simp [hne, h1, h2]
  · intro x y h
    rw [Prod.Lex.lt_iff] at h
    simp only [ofLex_toLex] at h
    unfold semver.compareInt
    rcases h with h | ⟨h1, h2⟩
    · have hne : x ≠ y := fun e => by rw [e] at h; exact lt_irrefl _ h
      have h3 : ¬ x.length < y.length := by omega
      simp [hne, h, h3]
    · have hne : x ≠ y := fun e => by rw [e] at h2; exact lt_irrefl _ h2
      have h3 : ¬ x < y := lt_asymm h2
      simp [hne, h1, h3]

theorem identCmp_total : TotalCmp (fun _ => True) semver.identCmp := by
  refine TotalCmp.ofKey (fun d : List Char =>
    toLex (!semver.isNum d, toLex ((if semver.isNum d then d.length else 0), d))) ?_ _ ?_ ?_ ?_
  · intro x y h
    exact (Prod.mk.inj (toLex.injective (Prod.mk.inj (toLex.injective h)).2)).2
  · intro x
    simp [semver.identCmp]
  · intro x y h
    rw [Prod.Lex.lt_iff] at h
    simp only [ofLex_toLex, Prod.Lex.lt_iff] at h
    unfold semver.identCmp semver.comparePrerelease.ident
    rcases h with h | ⟨h0, h | ⟨h1, h2⟩⟩
    · have hx : semver.isNum x = true := by
        cases hx : semver.isNum x <;> cases hy : semver.isNum y <;> rw [hx, hy] at h <;>
          first | rfl | exact absurd h (by decide)
      have hy : semver.isNum y = false := by
        cases hy : semver.isNum y with
        | false => rfl
        | true => rw [hx, hy] at h; exact absurd h (by decide)
      have hne : x ≠ y := fun e => by rw [e, hy] at hx; exact absurd hx (by decide)
      simp [hne, hx, hy]
    · have hxy : semver.isNum x = semver.isNum y := by simpa using h0
      have hne : x ≠ y := fun e => by rw [e] at h; exact lt_irrefl _ h
      cases hy : semver.isNum y
      · simp [hxy, hy] at h
      · simp only [hxy, hy, if_true] at h
        simp [hne, hxy, hy, h]
    · have hxy : semver.isNum x = semver.isNum y := by simpa using h0
      have hne : x ≠ y := fun e => by rw [e] at h2; exact lt_irrefl _ h2
      cases hy : semver.isNum y
      · simp [hne, hxy, hy, h2]
      · simp only [hxy, hy, if_true] at h1
        simp [hne, hxy, hy, h1, h2]
  · intro x y h
    rw [Prod.Lex.lt_iff] at h
    simp only [ofLex_toLex, Prod.Lex.lt_iff] at h
    unfold semver.identCmp semver.comparePrerelease.ident
    rcases h with h | ⟨h0, h | ⟨h1, h2⟩⟩
    · have hy : semver.isNum y = true := by
        cases hx : semver.isNum x <;> cases hy : semver.isNum y <;> rw [hx, hy] at h <;>
          first | rfl | exact absurd h (by decide)
      have hx : semver.isNum x = false := by
        cases hx : semver.isNum x with
        | false => rfl
        | true => rw [hx, hy] at h; exact absurd h (by decide)
      have hne : x ≠ y := fun e => by rw [e, hy] at hx; exact absurd hx (by decide)
      simp [hne, hx, hy]
    · have hxy : semver.isNum y = semver.isNum x := by simpa using h0
      have hne : x ≠ y := fun e => by rw [e] at h; exact lt_irrefl _ h
      cases hx : semver.isNum x
      · simp [hxy, hx] at h
      · simp only [hxy, hx, if_true] at h
        have h3 : ¬ x.length < y.length := by omega
        simp [hne, hxy, hx, h, h3]
    · have hxy : semver.isNum y = semver.isNum x := by simpa using h0
      have hne : x ≠ y := fun e => by rw [e] at h2; exact lt_irrefl _ h2
      have h3 : ¬ x < y := lt_asymm h2
      cases hx : semver.isNum x
      · simp [hne, hxy, hx, h3]
      · simp only [hxy, hx, if_true] at h1
        simp [hne, hxy, hx, h1, h3]

theorem segs_nil (n : Nat) : semver.segs n [] = [] := by
  cases n <;> simp [semver.segs]

theorem segs_cons (n : Nat) (x : List Char) (hx : x ≠ []) (hn : x.length ≤ n) :
    ∃ n', n = n' + 1 ∧ (semver.nextIdent x.tail).2.length ≤ n' ∧
      semver.segs n x
        = (semver.nextIdent x.tail).1 :: semver.segs n' (semver.nextIdent x.tail).2 := by
  cases n with
  | zero => exact absurd (List.length_eq_zero.1 (Nat.le_zero.1 hn)) hx
  | succ n' =>
    refine ⟨n', rfl, ?_, by simp [semver.segs, hx]⟩
    have h1 : (semver.nextIdent x.tail).2.length ≤ x.tail.length :=
      (List.dropWhile_sublist _).length_le
    have h2 : x.tail.length = x.length - 1 := List.length_tail x
    omega

theorem ident_ne_zero (dx dy : List Char) : semver.comparePrerelease.ident dx dy ≠ 0 := by
  unfold semver.comparePrerelease.ident
  dsimp only
  split_ifs <;> decide

theorem loop_eq_listCmp (fuel : Nat) :
    ∀ (x y : List Char) (n m : Nat), (x.length ≤ fuel ∨ y.length ≤ fuel) →
      x.length ≤ n → y.length ≤ m → semver.segs n x ≠ semver.segs m y →
      semver.comparePrerelease.loop fuel x y
        = listCmp semver.identCmp (semver.segs n x) (semver.segs m y) := by
  have base : ∀ (k : Nat) (x y : List Char) (n m : Nat), (x = [] ∨ y = []) →
      x.length ≤ n → y.length ≤ m → semver.segs n x ≠ semver.segs m y →
      semver.comparePrerelease.loop k x y = (if x = [] then -1 else 1) ∧
      listCmp semver.identCmp (semver.segs n x) (semver.segs m y)
        = (if x = [] then -1 else 1) := by
    intro k x y n m hxy hn hm hne
    have hl : semver.comparePrerelease.loop k x y = (if x = [] then -1 else 1) := by
      cases k with
      | zero => rfl
      | succ k =>
        unfold semver.comparePrerelease.loop
        have : ¬ (x ≠ [] ∧ y ≠ []) := by
          rintro ⟨h1, h2⟩
          exact hxy.elim h1 h2
        rw [if_neg this]
    refine ⟨hl, ?_⟩
    by_cases hx : x = []
    · subst hx
      rw [segs_nil] at hne ⊢
      cases hs : semver.segs m y with
      | nil => exact absurd hs.symm hne
      | cons d ds => simp [listCmp]
    · have hy : y = [] := hxy.resolve_left hx
      subst hy
      obtain ⟨n', _, _, hs⟩ := segs_cons n x hx hn
      rw [hs, segs_nil]
      simp [listCmp, hx]
  induction fuel with
  | zero =>
    intro x y n m hf hn hm hne
    have hxy : x = [] ∨ y = [] := by
      rcases hf with h | h
      · exact Or.inl (List.length_eq_zero.1 (Nat.le_zero.1 h))
      · exact Or.inr (List.length_eq_zero.1 (Nat.le_zero.1 h))
    obtain ⟨h1, h2⟩ := base 0 x y n m hxy hn hm hne
    rw [h1, h2]
  | succ fuel ih =>
    intro x y n m hf hn hm hne
    by_cases hxy : x = [] ∨ y = []
    · obtain ⟨h1, h2⟩ := base (fuel + 1) x y n m hxy hn hm hne
      rw [h1, h2]
    · have hx : x ≠ [] := fun h => hxy (Or.inl h)
      have hy : y ≠ [] := fun h => hxy (Or.inr h)
      obtain ⟨n', _, hn', hsx⟩ := segs_cons n x hx hn
      obtain ⟨m', _, hm', hsy⟩ := segs_cons m y hy hm
      rw [hsx, hsy] at hne ⊢
      unfold semver.comparePrerelease.loop listCmp
      rw [if_pos ⟨hx, hy⟩]
      by_cases hd : (semver.nextIdent x.tail).1 = (semver.nextIdent y.tail).1
      · have hne' : semver.segs n' (semver.nextIdent x.tail).2
            ≠ semver.segs m' (semver.nextIdent y.tail).2 := by
          intro h
          exact hne (by rw [hd, h])
        have h0 : semver.identCmp (semver.nextIdent x.tail).1 (semver.nextIdent y.tail).1 = 0 :=
          (identCmp_total.zero_iff _ _ trivial trivial).2 hd
        dsimp only
        rw [if_neg (not_not.2 hd), if_neg (not_not.2 h0)]
        refine ih _ _ n' m' ?_ hn' hm' hne'
        have h1 : (semver.nextIdent x.tail).2.length ≤ x.tail.length :=
          (List.dropWhile_sublist _).length_le
        have h2 : (semver.nextIdent y.tail).2.length ≤ y.tail.length :=
          (List.dropWhile_sublist _).length_le
        have h3 : x.tail.length = x.length - 1 := List.length_tail x
        have h4 : y.tail.length = y.length - 1 := List.length_tail y
        omega
      · have h1 : semver.identCmp (semver.nextIdent x.tail).1 (semver.nextIdent y.tail).1
            = semver.comparePrerelease.ident (semver.nextIdent x.tail).1
                (semver.nextIdent y.tail).1 := by
          unfold semver.identCmp
          rw [if_neg hd]
        dsimp only
        rw [if_pos hd, h1, if_pos (ident_ne_zero _ _)]

/-- The fuel of the loop of `comparePrerelease` is never used up: any fuel of at
least `len(x)` rounds gives the result of `len(x)` rounds. -/
theorem comparePrerelease_loop_fuel (fuel : Nat) :
    ∀ (x y : List Char), x.length ≤ fuel →
      semver.comparePrerelease.loop fuel x y = semver.comparePrerelease.loop x.length x y := by
  induction fuel using Nat.strong_induction_on with
  | _ fuel ih =>
    intro x y h
    cases fuel with
    | zero => rw [Nat.le_zero.1 h]
    | succ k =>
      cases x with
      | nil => simp [semver.comparePrerelease.loop]
      | cons a x' =>
        have h0 : x'.length ≤ k := by
          simp only [List.length_cons] at h
          omega
        have h1 : (semver.nextIdent x').2.length ≤ x'.length :=
          (List.dropWhile_sublist _).length_le
        simp only [List.length_cons, semver.comparePrerelease.loop, List.tail_cons]
        rw [ih k (Nat.lt_succ_self k) _ _ (le_trans h1 h0),
          ih x'.length (Nat.lt_succ_of_le h0) _ _ h1]

theorem dropWhile_dot (l : List Char) :
    l.dropWhile (fun c => c != '.') = [] ∨
      (l.dropWhile (fun c => c != '.')).head? = some '.' := by
  induction l with
  | nil => exact Or.inl rfl
  | cons a l ih =>
    by_cases h : a = '.'
    · subst h
      exact Or.inr (by simp [List.dropWhile])
    · have e : (a :: l).dropWhile (fun c => c != '.') = l.dropWhile (fun c => c != '.') := by
        simp [List.dropWhile_cons, h]
      rw [e]
      exact ih

theorem segs_injective (n : Nat) :
    ∀ (x : List Char) (m : Nat) (y : List Char), x.length ≤ n → y.length ≤ m →
      (x = [] ∨ y = [] ∨ x.head? = y.head?) →
      semver.segs n x = semver.segs m y → x = y := by
  induction n with
  | zero =>
    intro x m y hn hm _ hs
    have hx : x = [] := List.length_eq_zero.1 (Nat.le_zero.1 hn)
    subst hx
    by_contra hy
    obtain ⟨m', _, _, hsy⟩ := segs_cons m y (fun h => hy h.symm) hm
    rw [hsy, segs_nil] at hs
    cases hs
  | succ n ih =>
    intro x m y hn hm hsync hs
    by_cases hx : x = []
    · subst hx
      by_contra hy
      obtain ⟨m', _, _, hsy⟩ := segs_cons m y (fun h => hy h.symm) hm
      rw [hsy, segs_nil] at hs
      cases hs
    · obtain ⟨n', hnn, hn', hsx⟩ := segs_cons (n + 1) x hx hn
      have hnn : n = n' := by omega
      subst hnn
      by_cases hy : y = []
      · subst hy
        rw [hsx, segs_nil] at hs
        cases hs
      · obtain ⟨m', _, hm', hsy⟩ := segs_cons m y hy hm
        rw [hsx, hsy] at hs
        obtain ⟨hd, hr⟩ := List.cons.inj hs
        have hsync' : (semver.nextIdent x.tail).2 = [] ∨ (semver.nextIdent y.tail).2 = [] ∨
            (semver.nextIdent x.tail).2.head? = (semver.nextIdent y.tail).2.head? := by
          rcases dropWhile_dot x.tail with h1 | h1
          · exact Or.inl h1
          · rcases dropWhile_dot y.tail with h2 | h2
            · exact Or.inr (Or.inl h2)
            · exact Or.inr (Or.inr (by unfold semver.nextIdent; rw [h1, h2]))
        have hrest := ih _ m' _ hn' hm' hsync' hr
        have htail : x.tail = y.tail := by
          rw [← List.takeWhile_append_dropWhile (fun c => c != '.') x.tail,
            ← List.takeWhile_append_dropWhile (fun c => c != '.') y.tail]
          unfold semver.nextIdent at hd hrest
          dsimp only at hd hrest
          rw [hd, hrest]
        cases x with
        | nil => exact absurd rfl hx
        | cons a x' =>
          cases y with
          | nil => exact absurd rfl hy
          | cons b y' =>
            rcases hsync with h | h | h
            · exact absurd h hx
            · exact absurd h hy
            · simp only [List.head?_cons, Option.some.injEq] at h
              simp only [List.tail_cons] at htail
              rw [h, htail]

/-- On the pre-release strings that `parse` produces, empty or starting with a
hyphen, the ordering key determines the string. -/
theorem prereleaseKey_injective (x y : List Char)
    (hx : x = [] ∨ x.head? = some '-') (hy : y = [] ∨ y.head? = some '-')
    (h : semver.prereleaseKey x = semver.prereleaseKey y) : x = y := by
  unfold semver.prereleaseKey at h
  by_cases hx0 : x = []
  · by_cases hy0 : y = []
    · rw [hx0, hy0]
    · simp [hx0, hy0] at h
  · by_cases hy0 : y = []
    · simp [hx0, hy0] at h
    · rw [if_neg hx0, if_neg hy0] at h
      refine segs_injective _ x _ y le_rfl le_rfl ?_ (Option.some.inj h)
      exact Or.inr (Or.inr (by rw [hx.resolve_left hx0, hy.resolve_left hy0]))

theorem comparePrerelease_total :
    TotalCmp (fun x : List Char => x = [] ∨ x.head? = some '-') semver.comparePrerelease := by
  refine TotalCmp.comap (TotalCmp.top (TotalCmp.list identCmp_total)) semver.prereleaseKey _
    (fun _ _ _ _ => trivial) prereleaseKey_injective ?_
  intro x y hx hy
  unfold semver.comparePrerelease
  by_cases hxy : x = y
  · subst hxy
    rw [if_pos rfl]
    exact ((TotalCmp.top (TotalCmp.list identCmp_total)).zero_iff _ _
      (fun _ _ => trivial) (fun _ _ => trivial)).2 rfl |>.symm
  · rw [if_neg hxy]
    by_cases hx0 : x = []
    · have hy0 : y ≠ [] := fun h => hxy (hx0.trans h.symm)
      simp [semver.prereleaseKey, hx0, hy0, topCmp]
    · by_cases hy0 : y = []
      · simp [semver.prereleaseKey, hx0, hy0, topCmp]
      · rw [if_neg hx0, if_neg hy0]
        have hne : semver.segs x.length x ≠ semver.segs y.length y := by
          intro h
          refine hxy (segs_injective _ x _ y le_rfl le_rfl ?_ h)
          exact Or.inr (Or.inr (by rw [hx.resolve_left hx0, hy.resolve_left hy0]))
        rw [loop_eq_listCmp x.length x y x.length y.length (Or.inl le_rfl) le_rfl le_rfl hne]
        simp [semver.prereleaseKey, hx0, hy0, topCmp]

theorem parsePrerelease_loop_taken (rest : List Char) :
    ∀ (cur taken t r : List Char), semver.parsePrerelease.loop rest cur taken = some (t, r) →
      ∃ s, t = taken ++ s := by
  induction rest with
  | nil =>
    intro cur taken t r h
    unfold semver.parsePrerelease.loop at h
    split at h
    · cases h
    · cases h
      exact ⟨[], by simp⟩
  | cons c rest ih =>
    intro cur taken t r h
    unfold semver.parsePrerelease.loop at h
    split at h
    · split at h
      · cases h
      · cases h
        exact ⟨[], by simp⟩
    · split at h
      · cases h
      · split at h
        · split at h
          · cases h
          · obtain ⟨s, hs⟩ := ih _ _ _ _ h
            exact ⟨c :: s, by simp [hs]⟩
        · obtain ⟨s, hs⟩ := ih _ _ _ _ h
          exact ⟨c :: s, by simp [hs]⟩

theorem parsePrerelease_head (v t r : List Char) (h : semver.parsePrerelease v = some (t, r)) :
    t.head? = some '-' := by
  unfold semver.parsePrerelease at h
  cases v with
  | nil => cases h
  | cons c rest =>
    dsimp only at h
    split at h
    · cases h
    · rename_i hc
      obtain ⟨s, hs⟩ := parsePrerelease_loop_taken _ _ _ _ _ h
      have : c = '-' := by simpa using hc
      simp [hs, this]

theorem parse_suffix_prerelease (major minor patch v : List Char) (p : semver.parsed)
    (h : semver.parse.suffix major minor patch v = some p) :
    p.prerelease = [] ∨ p.prerelease.head? = some '-' := by
  unfold semver.parse.suffix at h
  dsimp only at h
  split at h
  · cases h
  · rename_i prerelease v1 hpre
    split at h
    · cases h
    · split at h
      · cases h
      · cases h
        dsimp only
        split at hpre
        · exact Or.inr (parsePrerelease_head _ _ _ hpre)
        · cases hpre
          exact Or.inl rfl

theorem parse_prerelease (v : List Char) (p : semver.parsed) (h : semver.parse v = some p) :
    p.prerelease = [] ∨ p.prerelease.head? = some '-' := by
  unfold semver.parse at h
  split at h
  · cases h
  · split at h
    · cases h
    · split at h
      · cases h
      · split at h
        · cases h
          exact Or.inl rfl
        · split at h
          · cases h
          · split at h
            · cases h
            · split at h
              · cases h
                exact Or.inl rfl
              · split at h
                · cases h
                · split at h
                  · cases h
                  · exact parse_suffix_prerelease _ _ _ _ _ h

theorem keyCmp_total :
    TotalCmp (fun a : List Char × List Char × List Char × List Char =>
      True ∧ True ∧ True ∧ (a.2.2.2 = [] ∨ a.2.2.2.head? = some '-')) semver.keyCmp :=
  TotalCmp.lex compareInt_total (TotalCmp.lex compareInt_total
    (TotalCmp.lex compareInt_total comparePrerelease_total))

theorem Compare_eq_botCmp (v w : String) :
    semver.Compare v w = botCmp semver.keyCmp (semver.key v) (semver.key w) := by
  unfold semver.Compare semver.key
  cases semver.parse v.data <;> cases semver.parse w.data <;> rfl

theorem key_carrier (v : String) (a : List Char × List Char × List Char × List Char)
    (h : semver.key v = some a) :
    True ∧ True ∧ True ∧ (a.2.2.2 = [] ∨ a.2.2.2.head? = some '-') := by
  unfold semver.key at h
  cases hp : semver.parse v.data with
  | none => rw [hp] at h; cases h
  | some p =>
    rw [hp] at h
    cases h
    exact ⟨trivial, trivial, trivial, parse_prerelease _ _ hp⟩

/-- Swapping the arguments of `Compare` negates the result. -/
theorem Compare_neg (v w : String) : semver.Compare w v = - semver.Compare v w := by
  rw [Compare_eq_botCmp, Compare_eq_botCmp]
  cases hv : semver.key v with
  | none => cases hw : semver.key w <;> rfl
  | some a =>
    cases hw : semver.key w with
    | none => rfl
    | some b => exact keyCmp_total.neg a b (key_carrier v a hv) (key_carrier w b hw)

/-- The relation "`Compare` is not greater" is transitive. -/
theorem Compare_trans_le (u v w : String) (h1 : semver.Compare u v ≤ 0)
    (h2 : semver.Compare v w ≤ 0) : semver.Compare u w ≤ 0 := by
  rw [Compare_eq_botCmp] at h1 h2 ⊢
  cases hu : semver.key u with
  | none => cases hw : semver.key w <;> simp [botCmp]
  | some a =>
    cases hv : semver.key v with
    | none => rw [hu, hv] at h1; simp [botCmp] at h1
    | some b =>
      cases hw : semver.key w with
      | none => rw [hv, hw] at h2; simp [botCmp] at h2
      | some d =>
        rw [hu, hv] at h1
        rw [hv, hw] at h2
        exact keyCmp_total.trans_le (key_carrier u a hu) (key_carrier v b hv)
          (key_carrier w d hw) h1 h2

/-- The ordering of method `Less` is one that `sort.Sort` is specified for. -/
theorem less_strictWeakOrder : StrictWeakOrder TalosVersion.less where
  irrefl a := by
    have h := Compare_neg a.Version a.Version
    unfold TalosVersion.less
    rw [decide_eq_false_iff_not]
    omega
  trans a b c hab hbc := by
    unfold TalosVersion.less at hab hbc ⊢
    rw [decide_eq_true_iff] at hab hbc ⊢
    have h1 := Compare_trans_le _ _ _ (le_of_lt hab) (le_of_lt hbc)
    by_contra hac
    have h2 : semver.Compare c.Version a.Version ≤ 0 := by
      rw [Compare_neg a.Version c.Version]; omega
    have h3 := Compare_trans_le _ _ _ h2 (le_of_lt hab)
    rw [Compare_neg b.Version c.Version] at h3
    omega
  incomp_trans a b c hab hbc := by
    unfold TalosVersion.less at hab hbc ⊢
    rw [decide_eq_false_iff_not] at hab hbc ⊢
    have h1 : semver.Compare b.Version a.Version ≤ 0 := by
      rw [Compare_neg a.Version b.Version]; omega
    have h2 : semver.Compare c.Version b.Version ≤ 0 := by
      rw [Compare_neg b.Version c.Version]; omega
    have h3 := Compare_trans_le _ _ _ h2 h1
    rw [Compare_neg a.Version c.Version] at h3
    omega

/-! ### The tag loop -/

theorem body_cachedTags (st : LoopVars) (tag : String) :
    (getMissingTags.body st tag).cachedTags = st.cachedTags := by
  unfold getMissingTags.body
  split
  · rfl
  · split <;> rfl

theorem foldl_body_cachedTags (tags : List String) (st : LoopVars) :
    (tags.foldl getMissingTags.body st).cachedTags = st.cachedTags := by
  induction tags generalizing st with
  | nil => rfl
  | cons t ts ih => rw [List.foldl_cons, ih, body_cachedTags]

theorem foldl_body_tagsToAppend (tags : List String) (st : LoopVars) :
    (tags.foldl getMissingTags.body st).tagsToAppend.Versions
      = st.tagsToAppend.Versions ++ missing st.cachedTags tags := by
  induction tags generalizing st with
  | nil => simp [missing]
  | cons t ts ih =>
    rw [List.foldl_cons, ih, body_cachedTags]
    unfold getMissingTags.body missing
    by_cases h1 : strings.HasPrefix t "v" = true
    · by_cases h2 : st.cachedTags.Contains t = true
      · simp [h1, h2]
      · simp [h1, h2]
    · simp [h1]

theorem getMissingTags_ok (sortImpl : SortImpl) (upstreamTags : List String)
    (cachedTags : TalosVersionTags) :
    getMissingTags sortImpl (upstreamTags, none) cachedTags
      = ⟨⟨sortImpl TalosVersion.less (missing cachedTags upstreamTags)⟩, none, cachedTags⟩ := by
  simp [getMissingTags, foldl_body_tagsToAppend, foldl_body_cachedTags]

theorem getMissingTags_err (sortImpl : SortImpl) (upstreamTags : List String) (err : Error)
    (cachedTags : TalosVersionTags) :
    getMissingTags sortImpl (upstreamTags, some err) cachedTags
      = ⟨cachedTags, some err, cachedTags⟩ := by
  simp [getMissingTags]

theorem Contains_loop_iff (l : List TalosVersion) (s : String) :
    TalosVersionTags.Contains.loop l s = true ↔ ∃ a ∈ l, a.Version = s := by
  induction l with
  | nil => simp [TalosVersionTags.Contains.loop]
  | cons a rest ih =>
    unfold TalosVersionTags.Contains.loop
    by_cases h : a.Version = s
    · simp [h]
    · simp [h, ih]

theorem mem_missing (cachedTags : TalosVersionTags) (upstreamTags : List String)
    (e : TalosVersion) :
    e ∈ missing cachedTags upstreamTags ↔
      e.SystemExtensions = [] ∧ e.Version ∈ upstreamTags ∧
        strings.HasPrefix e.Version "v" = true ∧ cachedTags.Contains e.Version = false := by
  unfold missing
  constructor
  · intro h
    obtain ⟨t, ht, rfl⟩ := List.mem_map.1 h
    simpa using List.mem_filter.1 ht
  · rintro ⟨h1, h2, h3, h4⟩
    refine List.mem_map.2 ⟨e.Version, List.mem_filter.2 ⟨h2, by simp [h3, h4]⟩, ?_⟩
    cases e
    simp_all

/-! ### Insertion sort meets the contract of `sort.Sort` -/

theorem sink_perm (less : TalosVersion → TalosVersion → Bool) (x : TalosVersion)
    (before : List TalosVersion) : (insertionSort.sink less x before).Perm (x :: before) := by
  induction before with
  | nil => exact List.Perm.refl _
  | cons p ps ih =>
    unfold insertionSort.sink
    split
    · exact (List.Perm.cons p ih).trans (List.Perm.swap x p ps)
    · exact List.Perm.refl _

theorem sink_sorted {less : TalosVersion → TalosVersion → Bool} (hless : StrictWeakOrder less)
    (x : TalosVersion) (before : List TalosVersion)
    (h : before.Pairwise (fun a b => less a b = false)) :
    (insertionSort.sink less x before).Pairwise (fun a b => less a b = false) := by
  induction before with
  | nil => simp [insertionSort.sink]
  | cons p ps ih =>
    obtain ⟨hp, hps⟩ := List.pairwise_cons.1 h
    unfold insertionSort.sink
    by_cases hx : less x p = true
    · rw [if_pos hx]
      refine List.pairwise_cons.2 ⟨?_, ih hps⟩
      intro b hb
      rcases List.mem_cons.1 ((sink_perm less x ps).subset hb) with rfl | hb
      · cases hpb : less p b with
        | false => rfl
        | true =>
          have := hless.trans _ _ _ hpb hx
          rw [hless.irrefl] at this
          exact absurd this (by simp)
      · exact hp b hb
    · rw [if_neg hx]
      have hx : less x p = false := by simpa using hx
      refine List.pairwise_cons.2 ⟨?_, h⟩
      intro b hb
      rcases List.mem_cons.1 hb with rfl | hb
      · exact hx
      · exact hless.incomp_trans _ _ _ hx (hp b hb)

theorem foldl_sink_perm (less : TalosVersion → TalosVersion → Bool) (l before : List TalosVersion) :
    (l.foldl (fun before x => insertionSort.sink less x before) before).Perm
      (l.reverse ++ before) := by
  induction l generalizing before with
  | nil => simp
  | cons x xs ih =>
    rw [List.foldl_cons]
    refine (ih _).trans ?_
    rw [List.reverse_cons, List.append_assoc]
    exact List.Perm.append_left _ (sink_perm less x before)

theorem foldl_sink_sorted {less : TalosVersion → TalosVersion → Bool}
    (hless : StrictWeakOrder less) (l before : List TalosVersion)
    (h : before.Pairwise (fun a b => less a b = false)) :
    (l.foldl (fun before x => insertionSort.sink less x before) before).Pairwise
      (fun a b => less a b = false) := by
  induction l generalizing before with
  | nil => simpa using h
  | cons x xs ih =>
    rw [List.foldl_cons]
    exact ih _ (sink_sorted hless x before h)

theorem insertionSort_contract : SortContract insertionSort where
  perm less l := by
    unfold insertionSort
    refine (List.reverse_perm _).trans ((foldl_sink_perm less l []).trans ?_)
    simp
  sorted less hless l := by
    unfold insertionSort
    rw [List.pairwise_reverse]
    exact foldl_sink_sorted hless l [] List.Pairwise.nil

/-! ### `sort.Sort` sorts a tag set -/

theorem el_congr {l l' : List TalosVersion} {k k' : Nat} (h : l'[k]? = l[k']?) :
    el l' k = el l k' := by
  unfold el
  rw [List.getD_eq_getElem?_getD, List.getD_eq_getElem?_getD, h]

theorem getElem?_el {l : List TalosVersion} {k : Nat} (h : k < l.length) :
    l[k]? = some (el l k) := by
  unfold el
  rw [List.getD_eq_getElem?_getD, List.getElem?_eq_getElem h]
  rfl

theorem Frame.refl (a b : Nat) (l : List TalosVersion) : Frame a b l l :=
  ⟨rfl, List.Perm.refl l, fun _ _ => rfl, fun k h1 h2 => ⟨k, h1, h2, rfl⟩⟩

theorem Frame.trans {a b : Nat} {l l' m : List TalosVersion} (h1 : Frame a b l l')
    (h2 : Frame a b l' m) : Frame a b l m where
  length := h2.length.trans h1.length
  perm := h2.perm.trans h1.perm
  outside k hk := (h2.outside k hk).trans (h1.outside k hk)
  inside k hk1 hk2 := by
    obtain ⟨k', h1', h2', e⟩ := h2.inside k hk1 hk2
    obtain ⟨n, hn1, hn2, e'⟩ := h1.inside k' h1' h2'
    exact ⟨n, hn1, hn2, e.trans e'⟩

theorem Frame.mono {a b a' b' : Nat} {l l' : List TalosVersion} (h : Frame a' b' l l')
    (ha : a ≤ a') (hb : b' ≤ b) : Frame a b l l' where
  length := h.length
  perm := h.perm
  outside k hk := h.outside k (by omega)
  inside k hk1 hk2 := by
    by_cases hin : a' ≤ k ∧ k < b'
    · obtain ⟨k', h1, h2, e⟩ := h.inside k hin.1 hin.2
      exact ⟨k', by omega, by omega, e⟩
    · exact ⟨k, hk1, hk2, h.outside k (by omega)⟩

theorem Frame.el_outside {a b : Nat} {l l' : List TalosVersion} (h : Frame a b l l') (k : Nat)
    (hk : k < a ∨ b ≤ k) : el l' k = el l k :=
  el_congr (h.outside k hk)

theorem Frame.el_inside {a b : Nat} {l l' : List TalosVersion} (h : Frame a b l l') (k : Nat)
    (hk1 : a ≤ k) (hk2 : k < b) : ∃ k', a ≤ k' ∧ k' < b ∧ el l' k = el l k' := by
  obtain ⟨k', h1, h2, e⟩ := h.inside k hk1 hk2
  exact ⟨k', h1, h2, el_congr e⟩

/-! ### The order of `Less` -/

theorem less_asymm {x y : TalosVersion} (h : x.less y = true) : y.less x = false := by
  cases hyx : y.less x with
  | false => rfl
  | true =>
    have := less_strictWeakOrder.trans _ _ _ h hyx
    rw [less_strictWeakOrder.irrefl] at this
    exact absurd this (by decide)

theorem le_trans_less {x y z : TalosVersion} (h1 : y.less x = false) (h2 : z.less y = false) :
    z.less x = false :=
  less_strictWeakOrder.incomp_trans _ _ _ h2 h1

theorem less_of_less_of_le {x y z : TalosVersion} (h1 : x.less y = true)
    (h2 : z.less y = false) : x.less z = true := by
  cases hxz : x.less z with
  | true => rfl
  | false =>
    have := less_strictWeakOrder.incomp_trans _ _ _ hxz h2
    rw [h1] at this
    exact absurd this (by decide)

theorem less_of_le_of_less {x y z : TalosVersion} (h1 : y.less x = false)
    (h2 : y.less z = true) : x.less z = true := by
  cases hxz : x.less z with
  | true => rfl
  | false =>
    have := less_strictWeakOrder.incomp_trans _ _ _ h1 hxz
    rw [h2] at this
    exact absurd this (by decide)

theorem less_irrefl (x : TalosVersion) : x.less x = false :=
  less_strictWeakOrder.irrefl x

/-! ### The methods `Less` and `Swap` on indices in range -/

theorem Less_eq (data : TalosVersionTags) (i j : Nat) (hi : i < data.Versions.length)
    (hj : j < data.Versions.length) :
    data.Less i j = some ((el data.Versions i).less (el data.Versions j)) := by
  unfold TalosVersionTags.Less
  rw [getElem?_el hi, getElem?_el hj]

theorem swap_perm (l : List TalosVersion) (i j : Nat) (hi : i < l.length) (hj : j < l.length) :
    ((l.set i l[j]).set j l[i]).Perm l := by
  rw [List.perm_iff_count]
  intro c
  rw [List.count_set _ _ _ _ (by simpa using hj), List.count_set _ _ _ _ hi]
  have hj2 : j < (l.set i l[j]).length := by simpa using hj
  have h1 : (l.set i l[j])[j] = l[j] := by
    rw [List.getElem_set]
    split
    · rfl
    · rfl
  rw [h1]
  have h2 : (if l[i] == c then 1 else 0) ≤ l.count c := by
    by_cases hc : l[i] == c
    · simp only [hc, if_true]
      have hmem : l[i] ∈ l := List.getElem_mem hi
      have : c ∈ l := by
        have := eq_of_beq hc
        rw [← this]; exact hmem
      exact List.count_pos_iff.2 this
    · simp [hc]
  omega

theorem Swap_spec (data : TalosVersionTags) (i j : Nat) (hi : i < data.Versions.length)
    (hj : j < data.Versions.length) :
    ∃ data', data.Swap i j = some data' ∧
      data'.Versions.length = data.Versions.length ∧
      data'.Versions.Perm data.Versions ∧
      el data'.Versions i = el data.Versions j ∧
      el data'.Versions j = el data.Versions i ∧
      (∀ k, k ≠ i → k ≠ j → data'.Versions[k]? = data.Versions[k]?) ∧
      (∀ a b, a ≤ i → i < b → a ≤ j → j < b → Frame a b data.Versions data'.Versions) := by
  have hgi : data.Versions[i]? = some data.Versions[i] := List.getElem?_eq_getElem hi
  have hgj : data.Versions[j]? = some data.Versions[j] := List.getElem?_eq_getElem hj
  have hk : ∀ k, ((data.Versions.set i data.Versions[j]).set j data.Versions[i])[k]?
      = if k = j then data.Versions[i]? else if k = i then data.Versions[j]?
        else data.Versions[k]? := by
    intro k
    rw [List.getElem?_set, List.getElem?_set]
    by_cases h1 : j = k
    · subst h1
      simp [hgi, hj]
    · by_cases h2 : i = k
      · subst h2
        simp [h1, hgj, hi, Ne.symm h1]
      · simp [h1, h2, Ne.symm h1, Ne.symm h2]
  refine ⟨⟨(data.Versions.set i data.Versions[j]).set j data.Versions[i]⟩, ?_, by simp,
    swap_perm _ i j hi hj, ?_, ?_, ?_, ?_⟩
  · unfold TalosVersionTags.Swap
    rw [hgi, hgj]
  · apply el_congr
    rw [hk]
    by_cases h : i = j
    · subst h; simp
    · simp [h]
  · apply el_congr
    rw [hk]
    simp
  · intro k h1 h2
    rw [hk]
    simp [h1, h2]
  · intro a b ha1 ha2 hb1 hb2
    refine ⟨by simp, swap_perm _ i j hi hj, ?_, ?_⟩
    · intro k hk'
      rw [hk]
      have h1 : k ≠ j := by omega
      have h2 : k ≠ i := by omega
      simp [h1, h2]
    · intro k hk1 hk2
      rw [hk]
      by_cases h1 : k = j
      · exact ⟨i, ha1, ha2, by simp [h1]⟩
      · by_cases h2 : k = i
        · exact ⟨j, hb1, hb2, by rw [if_neg h1, if_pos h2]⟩
        · exact ⟨k, hk1, hk2, by rw [if_neg h1, if_neg h2]⟩

/-! ### Insertion sort -/

theorem insertionSort_inner_spec (a0 a i : Nat) :
    ∀ (j : Nat) (data : TalosVersionTags), a0 ≤ a → a ≤ j → j ≤ i →
      i < data.Versions.length →
      (a0 < a → ∀ q, a ≤ q → q ≤ i →
        (el data.Versions q).less (el data.Versions (a - 1)) = false) →
      SortedOn data.Versions a j → SortedOn data.Versions j (i + 1) →
      (∀ p q, a ≤ p → p < j → j < q → q ≤ i →
        (el data.Versions q).less (el data.Versions p) = false) →
      ∃ data', sort.insertionSort.inner a0 j data = some data' ∧
        Frame a (i + 1) data.Versions data'.Versions ∧ SortedOn data'.Versions a (i + 1) := by
  intro j
  induction j with
  | zero =>
    intro data _ ha _ _ _ _ hs2 _
    have : a = 0 := by omega
    subst this
    exact ⟨data, rfl, Frame.refl _ _ _, hs2⟩
  | succ j ih =>
    intro data ha0 ha hji hlen hlow hs1 hs2 hcross
    -- the final argument, used when the loop stops at `j + 1`
    have stop : (j + 1 ≤ a ∨ (el data.Versions (j + 1)).less (el data.Versions j) = false) →
        SortedOn data.Versions a (i + 1) := by
      intro hstop p q hp hpq hq
      by_cases h1 : q < j + 1
      · exact hs1 p q hp hpq h1
      · by_cases h2 : j + 1 ≤ p
        · exact hs2 p q h2 hpq hq
        · by_cases h3 : q = j + 1
          · subst h3
            rcases hstop with h | h
            · omega
            · by_cases h4 : p = j
              · subst h4; exact h
              · exact le_trans_less (hs1 p j hp (by omega) (by omega)) h
          · exact hcross p q hp (by omega) (by omega) (by omega)
    unfold sort.insertionSort.inner
    by_cases hgt : j + 1 > a0
    · rw [if_pos hgt, Less_eq data (j + 1) j (by omega) (by omega)]
      cases hless : (el data.Versions (j + 1)).less (el data.Versions j) with
      | false => exact ⟨data, rfl, Frame.refl _ _ _, stop (Or.inr hless)⟩
      | true =>
        have hja : a ≤ j := by
          by_contra hcon
          have hja : j + 1 = a := by omega
          have := hlow (by omega) (j + 1) (by omega) hji
          rw [← hja] at this
          simp only [Nat.add_sub_cancel] at this
          rw [hless] at this
          exact absurd this (by decide)
        obtain ⟨d1, hsw, hlen1, _, he1, he2, hother, hframe⟩ :=
          Swap_spec data (j + 1) j (by omega) (by omega)
        have hfr := hframe a (i + 1) (by omega) (by omega) hja (by omega)
        have hel : ∀ k, k ≠ j + 1 → k ≠ j → el d1.Versions k = el data.Versions k :=
          fun k h1 h2 => el_congr (hother k h1 h2)
        obtain ⟨d2, hrec, hfr2, hsorted⟩ := ih d1 ha0 hja (by omega) (by omega)
          (by
            intro h q hq1 hq2
            have hm : el d1.Versions (a - 1) = el data.Versions (a - 1) :=
              hel _ (by omega) (by omega)
            rw [hm]
            by_cases h1 : q = j + 1
            · subst h1; rw [he1]; exact hlow h j hja (by omega)
            · by_cases h2 : q = j
              · subst h2; rw [he2]; exact hlow h (q + 1) (by omega) (by omega)
              · rw [hel q h1 h2]; exact hlow h q hq1 hq2)
          (by
            intro p q hp hpq hq
            rw [hel p (by omega) (by omega), hel q (by omega) (by omega)]
            exact hs1 p q hp hpq (by omega))
          (by
            intro p q hp hpq hq
            by_cases h1 : p = j
            · subst h1
              rw [he2]
              by_cases h2 : q = p + 1
              · subst h2; rw [he1]; exact less_asymm hless
              · rw [hel q h2 (by omega)]
                exact hs2 (p + 1) q (by omega) (by omega) hq
            · by_cases h2 : p = j + 1
              · subst h2
                rw [he1, hel q (by omega) (by omega)]
                exact hcross j q hja (by omega) (by omega) (by omega)
              · rw [hel p h2 h1, hel q (by omega) (by omega)]
                exact hs2 p q (by omega) hpq hq)
          (by
            intro p q hp hpj hjq hq
            rw [hel p (by omega) (by omega)]
            by_cases h1 : q = j + 1
            · subst h1; rw [he1]; exact hs1 p j hp hpj (by omega)
            · rw [hel q h1 (by omega)]
              exact hcross p q hp (by omega) (by omega) hq)
        refine ⟨d2, ?_, hfr.trans hfr2, hsorted⟩
        simp only [hsw]
        exact hrec
    · rw [if_neg hgt]
      exact ⟨data, rfl, Frame.refl _ _ _, stop (Or.inl (by omega))⟩

theorem insertionSort_outer_spec (a b : Nat) :
    ∀ (fuel i : Nat) (data : TalosVersionTags), a ≤ i → i + fuel = b ∨ (fuel = 0 ∧ b ≤ i) →
      b ≤ data.Versions.length → SortedOn data.Versions a i →
      ∃ data', sort.insertionSort.outer a b fuel i data = some data' ∧
        Frame a b data.Versions data'.Versions ∧ SortedOn data'.Versions a b := by
  intro fuel
  induction fuel with
  | zero =>
    intro i data _ hfuel _ hs
    refine ⟨data, rfl, Frame.refl _ _ _, ?_⟩
    intro p q hp hpq hq
    exact hs p q hp hpq (by omega)
  | succ fuel ih =>
    intro i data hai hfuel hlen hs
    have hib : i < b := by omega
    unfold sort.insertionSort.outer
    rw [if_pos hib]
    obtain ⟨d1, h1, hfr1, hs1⟩ := insertionSort_inner_spec a a i i data (le_refl a) hai
      (le_refl i) (by omega) (fun h => absurd h (lt_irrefl a)) hs
      (fun p q hp hpq hq => by omega) (fun p q _ hp hq hqi => by omega)
    obtain ⟨d2, h2, hfr2, hs2⟩ := ih (i + 1) d1 (by omega) (Or.inl (by omega))
      (by rw [hfr1.length]; exact hlen) hs1
    refine ⟨d2, ?_, (hfr1.mono (le_refl a) (by omega)).trans hfr2, hs2⟩
    simp only [h1]
    exact h2

theorem insertionSort_spec (data : TalosVersionTags) (a b : Nat)
    (hlen : b ≤ data.Versions.length) :
    ∃ data', sort.insertionSort data a b = some data' ∧
      Frame a b data.Versions data'.Versions ∧ SortedOn data'.Versions a b := by
  unfold sort.insertionSort
  by_cases hab : a + 1 ≤ b
  · exact insertionSort_outer_spec a b (b - (a + 1)) (a + 1) data (by omega)
      (Or.inl (by omega)) hlen (fun p q hp hpq hq => by omega)
  · have h0 : b - (a + 1) = 0 := by omega
    rw [h0]
    exact ⟨data, rfl, Frame.refl _ _ _, fun p q hp hpq hq => by omega⟩

/-! ### Heap sort -/

theorem siftDown_loop_spec (hi first lo : Nat) :
    ∀ (fuel root : Nat) (data : TalosVersionTags), lo ≤ root → hi ≤ root + fuel →
      first + hi ≤ data.Versions.length →
      (∀ p c, lo ≤ p → p ≠ root → c < hi → (c = 2 * p + 1 ∨ c = 2 * p + 2) →
        (el data.Versions (first + p)).less (el data.Versions (first + c)) = false) →
      (∀ p c, lo ≤ p → (root = 2 * p + 1 ∨ root = 2 * p + 2) → c < hi →
        (c = 2 * root + 1 ∨ c = 2 * root + 2) →
        (el data.Versions (first + p)).less (el data.Versions (first + c)) = false) →
      ∃ data', sort.siftDown.loop hi first fuel root data = some data' ∧
        Frame (first + root) (first + hi) data.Versions data'.Versions ∧
        HeapOn data'.Versions first lo hi := by
  intro fuel
  induction fuel with
  | zero =>
    intro root data hlo hfuel _ hex _
    unfold sort.siftDown.loop
    rw [if_pos (by omega)]
    refine ⟨data, rfl, Frame.refl _ _ _, ?_⟩
    intro p c hp hc hpc
    by_cases h : p = root
    · omega
    · exact hex p c hp h hc hpc
  | succ fuel ih =>
    intro root data hlo hfuel hlen hex hgrand
    unfold sort.siftDown.loop
    by_cases hchild : 2 * root + 1 ≥ hi
    · rw [if_pos hchild]
      refine ⟨data, rfl, Frame.refl _ _ _, ?_⟩
      intro p c hp hc hpc
      by_cases h : p = root
      · omega
      · exact hex p c hp h hc hpc
    · rw [if_neg hchild]
      simp only
      -- the larger child
      have hright : ∃ right : Bool,
          (if 2 * root + 1 + 1 < hi then
              data.Less (first + (2 * root + 1)) (first + (2 * root + 1) + 1)
            else some false) = some right ∧
          (right = true → 2 * root + 2 < hi ∧
            (el data.Versions (first + (2 * root + 1))).less
              (el data.Versions (first + (2 * root + 2))) = true) ∧
          (right = false → 2 * root + 2 < hi →
            (el data.Versions (first + (2 * root + 1))).less
              (el data.Versions (first + (2 * root + 2))) = false) := by
        by_cases h2 : 2 * root + 1 + 1 < hi
        · rw [if_pos h2, Less_eq data _ _ (by omega) (by omega)]
          refine ⟨_, rfl, ?_, ?_⟩
          · intro h; exact ⟨h2, h⟩
          · intro h _; exact h
        · rw [if_neg h2]
          exact ⟨false, rfl, fun h => absurd h (by decide), fun _ h => absurd h h2⟩
      obtain ⟨right, hr, hrt, hrf⟩ := hright
      rw [hr]
      simp only
      have hchild_lt : (if right = true then 2 * root + 1 + 1 else 2 * root + 1) < hi := by
        cases right with
        | true => have := (hrt rfl).1; simp; omega
        | false => simp; omega
      have hchild_eq : (if right = true then 2 * root + 1 + 1 else 2 * root + 1) = 2 * root + 1 ∨
          (if right = true then 2 * root + 1 + 1 else 2 * root + 1) = 2 * root + 2 := by
        cases right <;> simp
      -- the other child is not above the larger child
      have hother : ∀ c, c < hi → (c = 2 * root + 1 ∨ c = 2 * root + 2) →
          (el data.Versions (first + (if right = true then 2 * root + 1 + 1 else 2 * root + 1))).less
            (el data.Versions (first + c)) = false := by
        intro c hc hcc
        cases right with
        | true =>
          simp only [if_true]
          rcases hcc with h | h
          · subst h
            exact less_asymm (hrt rfl).2
          · subst h
            exact less_irrefl _
        | false =>
          simp only [Bool.false_eq_true, if_false]
          rcases hcc with h | h
          · subst h
            exact less_irrefl _
          · subst h
            exact hrf rfl hc
      generalize hch : (if right = true then 2 * root + 1 + 1 else 2 * root + 1) = child
        at hchild_lt hchild_eq hother
      rw [Less_eq data _ _ (by omega) (by omega)]
      cases hless : (el data.Versions (first + root)).less (el data.Versions (first + child)) with
      | false =>
        refine ⟨data, rfl, Frame.refl _ _ _, ?_⟩
        intro p c hp hc hpc
        by_cases h : p = root
        · subst h
          exact le_trans_less (hother c hc hpc) hless
        · exact hex p c hp h hc hpc
      | true =>
        obtain ⟨d1, hsw, hlen1, _, he1, he2, hoth, hframe⟩ :=
          Swap_spec data (first + root) (first + child) (by omega) (by omega)
        have hfr := hframe (first + root) (first + hi) (le_refl _) (by omega) (by omega)
          (by omega)
        have hel : ∀ k, k ≠ root → k ≠ child →
            el d1.Versions (first + k) = el data.Versions (first + k) :=
          fun k h1 h2 => el_congr (hoth _ (by omega) (by omega))
        obtain ⟨d2, hrec, hfr2, hheap⟩ := ih child d1 (by omega) (by omega)
          (by rw [hlen1]; exact hlen)
          (by
            intro p c hp hpne hc hpc
            by_cases hproot : p = root
            · subst hproot
              rw [he1]
              by_cases hcc : c = child
              · subst hcc
                rw [he2]
                exact less_asymm hless
              · rw [hel c (by omega) hcc]
                exact hother c hc hpc
            · by_cases hcroot : c = root
              · subst hcroot
                rw [he1, hel p hproot hpne]
                exact hgrand p child hp hpc hchild_lt hchild_eq
              · have hcne : c ≠ child := by omega
                rw [hel p hproot hpne, hel c hcroot hcne]
                exact hex p c hp hproot hc hpc)
          (by
            intro p c hp hpc hc hcc
            have hp' : p = root := by omega
            subst hp'
            rw [he1, hel c (by omega) (by omega)]
            exact hex child c (by omega) (by omega) hc hcc)
        refine ⟨d2, ?_, hfr.trans (hfr2.mono (by omega) (le_refl _)), hheap⟩
        simp only [hsw]
        exact hrec

theorem siftDown_spec (data : TalosVersionTags) (lo hi first : Nat)
    (hlen : first + hi ≤ data.Versions.length)
    (hheap : HeapOn data.Versions first (lo + 1) hi) :
    ∃ data', sort.siftDown data lo hi first = some data' ∧
      Frame (first + lo) (first + hi) data.Versions data'.Versions ∧
      HeapOn data'.Versions first lo hi := by
  unfold sort.siftDown
  exact siftDown_loop_spec hi first lo hi lo data (le_refl _) (by omega) hlen
    (fun p c hp hne hc hpc => hheap p c (by omega) hc hpc)
    (fun p c hp hpc _ _ => by omega)

theorem heapSort_build_spec (hi first : Nat) :
    ∀ (i : Nat) (data : TalosVersionTags), first + hi ≤ data.Versions.length →
      HeapOn data.Versions first (i + 1) hi →
      ∃ data', sort.heapSort.build hi first i data = some data' ∧
        Frame first (first + hi) data.Versions data'.Versions ∧
        HeapOn data'.Versions first 0 hi := by
  intro i
  induction i with
  | zero =>
    intro data hlen hheap
    unfold sort.heapSort.build
    obtain ⟨d1, h1, hfr, hh⟩ := siftDown_spec data 0 hi first hlen hheap
    exact ⟨d1, h1, hfr.mono (by omega) (le_refl _), hh⟩
  | succ i ih =>
    intro data hlen hheap
    unfold sort.heapSort.build
    obtain ⟨d1, h1, hfr, hh⟩ := siftDown_spec data (i + 1) hi first hlen hheap
    obtain ⟨d2, h2, hfr2, hh2⟩ := ih d1 (by rw [hfr.length]; exact hlen) hh
    refine ⟨d2, ?_, (hfr.mono (by omega) (le_refl _)).trans hfr2, hh2⟩
    simp only [h1]
    exact h2

theorem heap_root_max (l : List TalosVersion) (first n : Nat) (hheap : HeapOn l first 0 n) :
    ∀ p, p < n → (el l first).less (el l (first + p)) = false := by
  intro p
  induction p using Nat.strong_induction_on with
  | _ p ih =>
    intro hp
    by_cases h0 : p = 0
    · subst h0; exact less_irrefl _
    · obtain ⟨q, hq⟩ : ∃ q, p = 2 * q + 1 ∨ p = 2 * q + 2 := ⟨(p - 1) / 2, by omega⟩
      have hpar : (el l (first + q)).less (el l (first + p)) = false :=
        hheap q p (Nat.zero_le _) hp hq
      exact le_trans_less hpar (ih q (by omega) (by omega))

theorem heapSort_pop_spec (first hi : Nat) :
    ∀ (i : Nat) (data : TalosVersionTags), i < hi → first + hi ≤ data.Versions.length →
      HeapOn data.Versions first 0 (i + 1) →
      SortedOn data.Versions (first + i + 1) (first + hi) →
      (∀ p q, first ≤ p → p ≤ first + i → first + i < q → q < first + hi →
        (el data.Versions q).less (el data.Versions p) = false) →
      ∃ data', sort.heapSort.pop first i data = some data' ∧
        Frame first (first + hi) data.Versions data'.Versions ∧
        SortedOn data'.Versions first (first + hi) := by
  intro i
  induction i with
  | zero =>
    intro data hi0 hlen _ hs hcross
    unfold sort.heapSort.pop
    obtain ⟨d1, hsw, hlen1, _, he1, _, hoth, hframe⟩ := Swap_spec data first (first + 0)
      (by omega) (by omega)
    have hfr := hframe first (first + hi) (le_refl _) (by omega) (by omega) (by omega)
    have hel : ∀ k, el d1.Versions k = el data.Versions k := by
      intro k
      by_cases h : k = first
      · subst h; rw [he1]; rfl
      · exact el_congr (hoth k h (by omega))
    refine ⟨d1, ?_, hfr, ?_⟩
    · simp only [hsw]
      unfold sort.siftDown sort.siftDown.loop
      simp
    · intro p q hp hpq hq
      rw [hel p, hel q]
      by_cases h : p = first
      · subst h
        exact hcross p q (le_refl _) (by omega) (by omega) hq
      · exact hs p q (by omega) hpq hq
  | succ i ih =>
    intro data hihi hlen hheap hs hcross
    unfold sort.heapSort.pop
    obtain ⟨d1, hsw, hlen1, _, he1, he2, hoth, hframe⟩ := Swap_spec data first (first + (i + 1))
      (by omega) (by omega)
    have hfr1 := hframe first (first + hi) (le_refl _) (by omega) (by omega) (by omega)
    have hel : ∀ k, k ≠ first → k ≠ first + (i + 1) → el d1.Versions k = el data.Versions k :=
      fun k h1 h2 => el_congr (hoth k h1 h2)
    have hmax := heap_root_max data.Versions first (i + 1 + 1) hheap
    obtain ⟨d2, hsd, hfr2, hheap2⟩ := siftDown_spec d1 0 (i + 1) first
      (by rw [hlen1]; omega)
      (by
        intro p c hp hc hpc
        rw [hel (first + p) (by omega) (by omega), hel (first + c) (by omega) (by omega)]
        exact hheap p c (by omega) (by omega) hpc)
    -- every entry of the new heap is an entry of the old heap
    have hin : ∀ p, first ≤ p → p ≤ first + i → ∃ p', p' ≤ i + 1 ∧
        el d2.Versions p = el data.Versions (first + p') := by
      intro p hp1 hp2
      obtain ⟨k', hk1, hk2, hk⟩ := hfr2.el_inside p (by omega) (by omega)
      by_cases h0 : k' = first
      · refine ⟨i + 1, le_refl _, ?_⟩
        rw [hk, h0, he1]
      · refine ⟨k' - first, by omega, ?_⟩
        have e : first + (k' - first) = k' := by omega
        rw [hk, e]
        exact hel k' h0 (by omega)
    have hout : ∀ q, first + i < q → el d2.Versions q = el d1.Versions q :=
      fun q hq => hfr2.el_outside _ (Or.inr (by omega))
    obtain ⟨d3, hrec, hfr3, hsorted⟩ := ih d2 (by omega)
      (by rw [hfr2.length, hlen1]; exact hlen) hheap2
      (by
        intro p q hp hpq hq
        rw [hout p (by omega), hout q (by omega)]
        by_cases h : p = first + (i + 1)
        · subst h
          rw [he2, hel q (by omega) (by omega)]
          exact hcross first q (le_refl _) (by omega) (by omega) hq
        · rw [hel p (by omega) h, hel q (by omega) (by omega)]
          exact hs p q (by omega) hpq hq)
      (by
        intro p q hp1 hp2 hq1 hq2
        obtain ⟨p', hp', hpe⟩ := hin p hp1 hp2
        rw [hpe, hout q hq1]
        by_cases h : q = first + (i + 1)
        · subst h
          rw [he2]
          exact hmax p' (by omega)
        · rw [hel q (by omega) h]
          exact hcross (first + p') q (by omega) (by omega) (by omega) hq2)
    refine ⟨d3, ?_, hfr1.trans ((hfr2.mono (by omega) (by omega)).trans hfr3), hsorted⟩
    simp only [hsw, hsd]
    exact hrec

theorem heapSort_spec (data : TalosVersionTags) (a b : Nat) (hab : a ≤ b)
    (hlen : b ≤ data.Versions.length) :
    ∃ data', sort.heapSort data a b = some data' ∧
      Frame a b data.Versions data'.Versions ∧ SortedOn data'.Versions a b := by
  unfold sort.heapSort
  simp only
  obtain ⟨d1, h1, hfr1, hheap⟩ := heapSort_build_spec (b - a) a ((b - a - 1) / 2) data
    (by omega) (fun p c hp hc hpc => by omega)
  rw [h1]
  simp only
  by_cases h0 : b - a = 0
  · rw [if_pos h0]
    refine ⟨d1, rfl, ?_, fun p q hp hpq hq => by omega⟩
    rw [show b = a + (b - a) by omega]
    exact hfr1
  · rw [if_neg h0]
    obtain ⟨d2, h2, hfr2, hs⟩ := heapSort_pop_spec a (b - a) (b - a - 1) d1 (by omega)
      (by rw [hfr1.length]; omega)
      (by rw [show b - a - 1 + 1 = b - a by omega]; exact hheap)
      (fun p q hp hpq hq => by omega) (fun p q hp hpq hq => by omega)
    rw [show a + (b - a) = b by omega] at hfr1 hfr2 hs
    exact ⟨d2, h2, hfr1.trans hfr2, hs⟩

/-! ### Partitioning -/

theorem partition_up_spec (data : TalosVersionTags) (a j : Nat)
    (hj : j < data.Versions.length) (ha : a < data.Versions.length) :
    ∀ (fuel i : Nat), j + 1 ≤ i + fuel →
      ∃ i', sort.partition.up data a j fuel i = some i' ∧ i ≤ i' ∧ (i ≤ j + 1 → i' ≤ j + 1) ∧
        (∀ k, i ≤ k → k < i' → (el data.Versions k).less (el data.Versions a) = true) ∧
        (i' ≤ j → (el data.Versions i').less (el data.Versions a) = false) := by
  intro fuel
  induction fuel with
  | zero =>
    intro i hf
    exact ⟨i, rfl, le_refl _, fun h => h, fun k h1 h2 => by omega, fun h => by omega⟩
  | succ fuel ih =>
    intro i hf
    unfold sort.partition.up
    by_cases hij : i ≤ j
    · rw [if_pos hij, Less_eq data i a (by omega) ha]
      cases hless : (el data.Versions i).less (el data.Versions a) with
      | false => exact ⟨i, rfl, le_refl _, fun h => h, fun k h1 h2 => by omega, fun _ => hless⟩
      | true =>
        obtain ⟨i', h1, h2, h3, h4, h5⟩ := ih (i + 1) (by omega)
        refine ⟨i', h1, by omega, fun _ => h3 (by omega), ?_, h5⟩
        intro k hk1 hk2
        by_cases hk : k = i
        · subst hk; exact hless
        · exact h4 k (by omega) hk2
    · rw [if_neg hij]
      exact ⟨i, rfl, le_refl _, fun h => h, fun k h1 h2 => by omega, fun h => by omega⟩

theorem partition_down_spec (data : TalosVersionTags) (a i : Nat) (hi : 1 ≤ i)
    (ha : a < data.Versions.length) :
    ∀ (j : Nat), j < data.Versions.length →
      ∃ j', sort.partition.down data a i j = some j' ∧ j' ≤ j ∧ (i ≤ j + 1 → i ≤ j' + 1) ∧
        (∀ k, j' < k → k ≤ j → (el data.Versions k).less (el data.Versions a) = false) ∧
        (i ≤ j' → (el data.Versions j').less (el data.Versions a) = true) := by
  intro j
  induction j with
  | zero =>
    intro _
    unfold sort.partition.down
    rw [if_neg (by omega)]
    exact ⟨0, rfl, le_refl _, fun h => h, fun k h1 h2 => by omega, fun h => by omega⟩
  | succ j ih =>
    intro hj
    unfold sort.partition.down
    by_cases hij : i ≤ j + 1
    · rw [if_pos hij, Less_eq data (j + 1) a hj ha]
      cases hless : (el data.Versions (j + 1)).less (el data.Versions a) with
      | true =>
        exact ⟨j + 1, rfl, le_refl _, fun h => h, fun k h1 h2 => by omega, fun _ => hless⟩
      | false =>
        obtain ⟨j', h1, h2, h3, h4, h5⟩ := ih (by omega)
        refine ⟨j', h1, by omega, ?_, ?_, h5⟩
        · intro _
          by_cases h : i ≤ j + 0
          · exact h3 (by omega)
          · have hij' : ¬ i ≤ j := by omega
            -- the loop below stops at once
            have : sort.partition.down data a i j = some j := by
              cases j with
              | zero => unfold sort.partition.down; rw [if_neg (by omega)]
              | succ j => unfold sort.partition.down; rw [if_neg (by omega)]
            rw [this] at h1
            have := Option.some.inj h1
            omega
        · intro k hk1 hk2
          by_cases hk : k = j + 1
          · subst hk; exact hless
          · exact h4 k hk1 (by omega)
    · rw [if_neg hij]
      exact ⟨j + 1, rfl, le_refl _, fun h => h, fun k h1 h2 => by omega,
        fun h => by omega⟩

theorem partition_loop_spec (a b : Nat) :
    ∀ (fuel i j : Nat) (data : TalosVersionTags), a + 1 ≤ i → i ≤ j + 1 → j < b →
      b ≤ data.Versions.length → j + 2 ≤ i + fuel →
      (∀ k, a < k → k < i → (el data.Versions k).less (el data.Versions a) = true) →
      (∀ k, j < k → k < b → (el data.Versions k).less (el data.Versions a) = false) →
      ∃ data' mid, sort.partition.loop a fuel i j data = some (data', mid) ∧
        Frame a b data.Versions data'.Versions ∧ a ≤ mid ∧ mid < b ∧
        el data'.Versions mid = el data.Versions a ∧
        (∀ k, a ≤ k → k < mid → (el data'.Versions k).less (el data'.Versions mid) = true) ∧
        (∀ k, mid < k → k < b → (el data'.Versions k).less (el data'.Versions mid) = false) := by
  intro fuel
  induction fuel with
  | zero => intro i j data h1 h2 h3 h4 h5; omega
  | succ fuel ih =>
    intro i j data hai hij hjb hlen hfuel hlow hhigh
    unfold sort.partition.loop
    obtain ⟨i', hu, hii', hi'j, hup, hupstop⟩ :=
      partition_up_spec data a j (by omega) (by omega) (j + 1 - i) i (by omega)
    obtain ⟨j', hd, hj'j, hj'i, hdown, hdownstop⟩ :=
      partition_down_spec data a i' (by omega) (by omega) j (by omega)
    have hi'j := hi'j hij
    have hj'i := hj'i hi'j
    simp only [hu, hd]
    by_cases hbreak : i' > j'
    · rw [if_pos hbreak]
      have hj'eq : i' = j' + 1 := by omega
      obtain ⟨d1, hsw, hlen1, _, he1, he2, hoth, hframe⟩ :=
        Swap_spec data j' a (by omega) (by omega)
      have hel : ∀ k, k ≠ j' → k ≠ a → el d1.Versions k = el data.Versions k :=
        fun k h1 h2 => el_congr (hoth k h1 h2)
      refine ⟨d1, j', by simp only [hsw], hframe a b (by omega) (by omega) (le_refl _)
        (by omega), by omega, by omega, he1, ?_, ?_⟩
      · intro k hk1 hk2
        rw [he1]
        by_cases hka : k = a
        · subst hka
          rw [he2]
          by_cases h : j' < i
          · exact hlow j' (by omega) h
          · exact hup j' (by omega) (by omega)
        · rw [hel k (by omega) hka]
          by_cases h : k < i
          · exact hlow k (by omega) h
          · exact hup k (by omega) (by omega)
      · intro k hk1 hk2
        rw [he1, hel k (by omega) (by omega)]
        by_cases h : k ≤ j
        · exact hdown k hk1 h
        · exact hhigh k (by omega) hk2
    · rw [if_neg hbreak]
      have hle : i' ≤ j' := by omega
      have h1 := hupstop (by omega)
      have h2 := hdownstop hle
      have hne : i' ≠ j' := by
        intro h
        rw [h, h2] at h1
        exact absurd h1 (by decide)
      obtain ⟨d1, hsw, hlen1, _, he1, he2, hoth, hframe⟩ :=
        Swap_spec data i' j' (by omega) (by omega)
      have hel : ∀ k, k ≠ i' → k ≠ j' → el d1.Versions k = el data.Versions k :=
        fun k h1 h2 => el_congr (hoth k h1 h2)
      have hfr := hframe a b (by omega) (by omega) (by omega) (by omega)
      have hea : el d1.Versions a = el data.Versions a := hel a (by omega) (by omega)
      obtain ⟨d2, mid, hrec, hfr2, hm1, hm2, hm3, hm4, hm5⟩ :=
        ih (i' + 1) (j' - 1) d1 (by omega) (by omega) (by omega)
          (by rw [hlen1]; exact hlen) (by omega)
          (by
            intro k hk1 hk2
            rw [hea]
            by_cases hk : k = i'
            · subst hk; rw [he1]; exact h2
            · rw [hel k hk (by omega)]
              by_cases h : k < i
              · exact hlow k hk1 h
              · exact hup k (by omega) (by omega))
          (by
            intro k hk1 hk2
            rw [hea]
            by_cases hk : k = j'
            · subst hk; rw [he2]; exact h1
            · rw [hel k (by omega) hk]
              by_cases h : k ≤ j
              · exact hdown k (by omega) h
              · exact hhigh k (by omega) hk2)
      refine ⟨d2, mid, by simp only [hsw]; exact hrec, hfr.trans hfr2, hm1, hm2,
        hm3.trans hea, hm4, hm5⟩

theorem partition_loop_succ (a fuel i j : Nat) (data : TalosVersionTags) :
    sort.partition.loop a (fuel + 1) i j data
      = match sort.partition.up data a j (j + 1 - i) i with
        | none => none
        | some i =>
          match sort.partition.down data a i j with
          | none => none
          | some j =>
            if i > j then
              match data.Swap j a with
              | none => none
              | some data => some (data, j)
            else
              match data.Swap i j with
              | none => none
              | some data => sort.partition.loop a fuel (i + 1) (j - 1) data := by
  rfl

theorem partition_eq_loop (data : TalosVersionTags) (a b pivot : Nat) :
    (sort.partition data a b pivot).map (fun r => (r.1, r.2.1))
      = (data.Swap a pivot).bind
          (fun d1 => sort.partition.loop a (b - a + 1) (a + 1) (b - 1) d1) := by
  unfold sort.partition
  cases h1 : data.Swap a pivot with
  | none => rfl
  | some d1 =>
    simp only [Option.bind]
    rw [partition_loop_succ]
    cases h2 : sort.partition.up d1 a (b - 1) (b - 1 + 1 - (a + 1)) (a + 1) with
    | none => rfl
    | some i =>
      simp only
      cases h3 : sort.partition.down d1 a i (b - 1) with
      | none => rfl
      | some j =>
        simp only
        by_cases hij : i > j
        · simp only [if_pos hij]
          cases d1.Swap j a <;> rfl
        · simp only [if_neg hij]
          cases h4 : d1.Swap i j with
          | none => rfl
          | some d2 =>
            simp only
            cases sort.partition.loop a (b - a) (i + 1) (j - 1) d2 with
            | none => rfl
            | some r => rfl

theorem partition_spec (data : TalosVersionTags) (a b pivot : Nat) (hap : a ≤ pivot)
    (hpb : pivot < b) (hlen : b ≤ data.Versions.length) :
    ∃ data' mid already, sort.partition data a b pivot = some (data', mid, already) ∧
      Frame a b data.Versions data'.Versions ∧ a ≤ mid ∧ mid < b ∧
      (∀ k, a ≤ k → k < mid → (el data'.Versions k).less (el data'.Versions mid) = true) ∧
      (∀ k, mid < k → k < b → (el data'.Versions k).less (el data'.Versions mid) = false) := by
  obtain ⟨d1, hsw, hlen1, _, _, _, _, hframe⟩ := Swap_spec data a pivot (by omega) (by omega)
  have hfr := hframe a b (le_refl _) (by omega) hap hpb
  obtain ⟨d2, mid, hloop, hfr2, h1, h2, _, h4, h5⟩ :=
    partition_loop_spec a b (b - a + 1) (a + 1) (b - 1) d1 (le_refl _) (by omega) (by omega)
      (by rw [hlen1]; exact hlen) (by omega) (fun k hk1 hk2 => by omega)
      (fun k hk1 hk2 => by omega)
  have heq := partition_eq_loop data a b pivot
  rw [hsw] at heq
  simp only [Option.bind, hloop] at heq
  cases hp : sort.partition data a b pivot with
  | none => rw [hp] at heq; simp at heq
  | some r =>
    rw [hp] at heq
    simp only [Option.map, Option.some.injEq, Prod.mk.injEq] at heq
    obtain ⟨r1, r2, r3⟩ := r
    simp only at heq
    obtain ⟨e1, e2⟩ := heq
    subst e1 e2
    exact ⟨r1, r2, r3, rfl, hfr.trans hfr2, h1, h2, h4, h5⟩

theorem partitionEqual_up_spec (data : TalosVersionTags) (a j : Nat)
    (hj : j < data.Versions.length) (ha : a < data.Versions.length) :
    ∀ (fuel i : Nat), j + 1 ≤ i + fuel →
      ∃ i', sort.partitionEqual.up data a j fuel i = some i' ∧ i ≤ i' ∧
        (i ≤ j + 1 → i' ≤ j + 1) ∧
        (∀ k, i ≤ k → k < i' → (el data.Versions a).less (el data.Versions k) = false) ∧
        (i' ≤ j → (el data.Versions a).less (el data.Versions i') = true) := by
  intro fuel
  induction fuel with
  | zero =>
    intro i hf
    exact ⟨i, rfl, le_refl _, fun h => h, fun k h1 h2 => by omega, fun h => by omega⟩
  | succ fuel ih =>
    intro i hf
    unfold sort.partitionEqual.up
    by_cases hij : i ≤ j
    · rw [if_pos hij, Less_eq data a i ha (by omega)]
      cases hless : (el data.Versions a).less (el data.Versions i) with
      | true => exact ⟨i, rfl, le_refl _, fun h => h, fun k h1 h2 => by omega, fun _ => hless⟩
      | false =>
        obtain ⟨i', h1, h2, h3, h4, h5⟩ := ih (i + 1) (by omega)
        refine ⟨i', h1, by omega, fun _ => h3 (by omega), ?_, h5⟩
        intro k hk1 hk2
        by_cases hk : k = i
        · subst hk; exact hless
        · exact h4 k (by omega) hk2
    · rw [if_neg hij]
      exact ⟨i, rfl, le_refl _, fun h => h, fun k h1 h2 => by omega, fun h => by omega⟩

theorem partitionEqual_down_spec (data : TalosVersionTags) (a i : Nat) (hi : 1 ≤ i)
    (ha : a < data.Versions.length) :
    ∀ (j : Nat), j < data.Versions.length →
      ∃ j', sort.partitionEqual.down data a i j = some (some j') ∧ j' ≤ j ∧
        (i ≤ j + 1 → i ≤ j' + 1) ∧
        (∀ k, j' < k → k ≤ j → (el data.Versions a).less (el data.Versions k) = true) ∧
        (i ≤ j' → (el data.Versions a).less (el data.Versions j') = false) := by
  intro j
  induction j with
  | zero =>
    intro _
    unfold sort.partitionEqual.down
    rw [if_neg (by omega)]
    exact ⟨0, rfl, le_refl _, fun h => h, fun k h1 h2 => by omega, fun h => by omega⟩
  | succ j ih =>
    intro hj
    unfold sort.partitionEqual.down
    by_cases hij : i ≤ j + 1
    · rw [if_pos hij, Less_eq data a (j + 1) ha hj]
      cases hless : (el data.Versions a).less (el data.Versions (j + 1)) with
      | false =>
        exact ⟨j + 1, rfl, le_refl _, fun h => h, fun k h1 h2 => by omega, fun _ => hless⟩
      | true =>
        obtain ⟨j', h1, h2, h3, h4, h5⟩ := ih (by omega)
        refine ⟨j', h1, by omega, ?_, ?_, h5⟩
        · intro _
          by_cases h : i ≤ j
          · exact h3 (by omega)
          · -- the loop below stops at once
            have : sort.partitionEqual.down data a i j = some (some j) := by
              cases j with
              | zero => unfold sort.partitionEqual.down; rw [if_neg (by omega)]
              | succ j => unfold sort.partitionEqual.down; rw [if_neg (by omega)]
            rw [this] at h1
            have := Option.some.inj (Option.some.inj h1)
            omega
        · intro k hk1 hk2
          by_cases hk : k = j + 1
          · subst hk; exact hless
          · exact h4 k hk1 (by omega)
    · rw [if_neg hij]
      exact ⟨j + 1, rfl, le_refl _, fun h => h, fun k h1 h2 => by omega, fun h => by omega⟩

theorem partitionEqual_loop_spec (a b : Nat) :
    ∀ (fuel i j : Nat) (data : TalosVersionTags), a + 1 ≤ i → i ≤ j + 1 → j < b →
      b ≤ data.Versions.length → j + 2 ≤ i + fuel →
      (∀ k, a < k → k < i → (el data.Versions a).less (el data.Versions k) = false) →
      (∀ k, j < k → k < b → (el data.Versions a).less (el data.Versions k) = true) →
      ∃ data' mid, sort.partitionEqual.loop a fuel i j data = some (data', mid) ∧
        Frame (a + 1) b data.Versions data'.Versions ∧ a + 1 ≤ mid ∧ mid ≤ b ∧
        (∀ k, a < k → k < mid → (el data.Versions a).less (el data'.Versions k) = false) ∧
        (∀ k, mid ≤ k → k < b → (el data.Versions a).less (el data'.Versions k) = true) := by
  intro fuel
  induction fuel with
  | zero => intro i j data h1 h2 h3 h4 h5; omega
  | succ fuel ih =>
    intro i j data hai hij hjb hlen hfuel hlow hhigh
    unfold sort.partitionEqual.loop
    obtain ⟨i', hu, hii', hi'j, hup, hupstop⟩ :=
      partitionEqual_up_spec data a j (by omega) (by omega) (j + 1 - i) i (by omega)
    obtain ⟨j', hd, hj'j, hj'i, hdown, hdownstop⟩ :=
      partitionEqual_down_spec data a i' (by omega) (by omega) j (by omega)
    have hi'j := hi'j hij
    have hj'i := hj'i hi'j
    simp only [hu, hd]
    by_cases hbreak : i' > j'
    · rw [if_pos hbreak]
      refine ⟨data, i', rfl, Frame.refl _ _ _, by omega, by omega, ?_, ?_⟩
      · intro k hk1 hk2
        by_cases h : k < i
        · exact hlow k hk1 h
        · exact hup k (by omega) hk2
      · intro k hk1 hk2
        by_cases h : k ≤ j
        · exact hdown k (by omega) h
        · exact hhigh k (by omega) hk2
    · rw [if_neg hbreak]
      have hle : i' ≤ j' := by omega
      have h1 := hupstop (by omega)
      have h2 := hdownstop hle
      have hne : i' ≠ j' := by
        intro h
        rw [h, h2] at h1
        exact absurd h1 (by decide)
      obtain ⟨d1, hsw, hlen1, _, he1, he2, hoth, hframe⟩ :=
        Swap_spec data i' j' (by omega) (by omega)
      have hel : ∀ k, k ≠ i' → k ≠ j' → el d1.Versions k = el data.Versions k :=
        fun k h1 h2 => el_congr (hoth k h1 h2)
      have hfr := hframe (a + 1) b (by omega) (by omega) (by omega) (by omega)
      have hea : el d1.Versions a = el data.Versions a := hel a (by omega) (by omega)
      obtain ⟨d2, mid, hrec, hfr2, hm1, hm2, hm4, hm5⟩ :=
        ih (i' + 1) (j' - 1) d1 (by omega) (by omega) (by omega)
          (by rw [hlen1]; exact hlen) (by omega)
          (by
            intro k hk1 hk2
            rw [hea]
            by_cases hk : k = i'
            · subst hk; rw [he1]; exact h2
            · rw [hel k hk (by omega)]
              by_cases h : k < i
              · exact hlow k hk1 h
              · exact hup k (by omega) (by omega))
          (by
            intro k hk1 hk2
            rw [hea]
            by_cases hk : k = j'
            · subst hk; rw [he2]; exact h1
            · rw [hel k (by omega) hk]
              by_cases h : k ≤ j
              · exact hdown k (by omega) h
              · exact hhigh k (by omega) hk2)
      rw [hea] at hm4 hm5
      exact ⟨d2, mid, by simp only [hsw]; exact hrec, hfr.trans hfr2, hm1, hm2, hm4, hm5⟩

theorem partitionEqual_spec (data : TalosVersionTags) (a b pivot : Nat) (hap : a ≤ pivot)
    (hpb : pivot < b) (hlen : b ≤ data.Versions.length) :
    ∃ data' mid, sort.partitionEqual data a b pivot = some (data', mid) ∧
      Frame a b data.Versions data'.Versions ∧ a + 1 ≤ mid ∧ mid ≤ b ∧
      (∀ k, a ≤ k → k < mid →
        (el data.Versions pivot).less (el data'.Versions k) = false) ∧
      (∀ k, mid ≤ k → k < b →
        (el data.Versions pivot).less (el data'.Versions k) = true) := by
  obtain ⟨d1, hsw, hlen1, _, he1, _, _, hframe⟩ :=
    Swap_spec data a pivot (by omega) (by omega)
  have hfr := hframe a b (le_refl _) (by omega) hap hpb
  obtain ⟨d2, mid, hloop, hfr2, h1, h2, h4, h5⟩ :=
    partitionEqual_loop_spec a b (b - a + 1) (a + 1) (b - 1) d1 (le_refl _) (by omega)
      (by omega) (by rw [hlen1]; exact hlen) (by omega) (fun k hk1 hk2 => by omega)
      (fun k hk1 hk2 => by omega)
  rw [he1] at h4 h5
  refine ⟨d2, mid, ?_, hfr.trans (hfr2.mono (by omega) (le_refl _)), h1, h2, ?_, h5⟩
  · unfold sort.partitionEqual
    simp only [hsw]
    exact hloop
  · intro k hk1 hk2
    by_cases hka : k = a
    · subst hka
      rw [hfr2.el_outside k (Or.inl (by omega)), he1]
      exact less_irrefl _
    · exact h4 k (by omega) hk2

theorem Low.frame {a b : Nat} {l l' : List TalosVersion} (h : Low l a b) (hf : Frame a b l l') :
    Low l' a b := by
  intro ha k hk1 hk2
  obtain ⟨k', h1, h2, e⟩ := hf.el_inside k hk1 hk2
  rw [e, hf.el_outside (a - 1) (Or.inl (by omega))]
  exact h ha k' h1 h2

theorem SortedOn.extend {l : List TalosVersion} {a i : Nat} (h : SortedOn l a i) :
    ∀ (n : Nat), (∀ k, i ≤ k → k < i + n → (el l k).less (el l (k - 1)) = false) →
      SortedOn l a (i + n) := by
  intro n
  induction n with
  | zero => intro _; exact h
  | succ n ih =>
    intro hadj
    have hs := ih (fun k h1 h2 => hadj k h1 (by omega))
    intro p q hp hpq hq
    by_cases hlast : q < i + n
    · exact hs p q hp hpq hlast
    · have hq' : q = i + n := by omega
      by_cases hi : q < i
      · exact h p q hp hpq hi
      · have hstep := hadj q (by omega) (by omega)
        by_cases hp' : p = q - 1
        · rw [hp']; exact hstep
        · have := hs p (q - 1) hp (by omega) (by omega)
          exact le_trans_less this hstep

/-! ### `reverseRange` -/

theorem reverseRange_loop_spec (a b : Nat) :
    ∀ (fuel i j : Nat) (data : TalosVersionTags), a ≤ i → j < b → b ≤ data.Versions.length →
      ∃ data', sort.reverseRange.loop fuel i j data = some data' ∧
        Frame a b data.Versions data'.Versions := by
  intro fuel
  induction fuel with
  | zero => intro i j data _ _ _; exact ⟨data, rfl, Frame.refl _ _ _⟩
  | succ fuel ih =>
    intro i j data hi hj hlen
    unfold sort.reverseRange.loop
    by_cases hij : i < j
    · rw [if_pos hij]
      obtain ⟨d1, hsw, hlen1, _, _, _, _, hframe⟩ := Swap_spec data i j (by omega) (by omega)
      obtain ⟨d2, hrec, hfr⟩ := ih (i + 1) (j - 1) d1 (by omega) (by omega)
        (by rw [hlen1]; exact hlen)
      exact ⟨d2, by simp only [hsw]; exact hrec,
        (hframe a b hi (by omega) (by omega) hj).trans hfr⟩
    · rw [if_neg hij]
      exact ⟨data, rfl, Frame.refl _ _ _⟩

theorem reverseRange_spec (data : TalosVersionTags) (a b : Nat)
    (hlen : b ≤ data.Versions.length) :
    ∃ data', sort.reverseRange data a b = some data' ∧
      Frame a b data.Versions data'.Versions := by
  unfold sort.reverseRange
  by_cases hab : a < b
  · exact reverseRange_loop_spec a b (b - a) a (b - 1) data (le_refl _) (by omega) hlen
  · have h0 : b - a = 0 := by omega
    rw [h0]
    exact ⟨data, rfl, Frame.refl _ _ _⟩

/-! ### `breakPatterns` -/

theorem bits_Len_loop_le : ∀ (fuel n : Nat), 0 < n → n ≤ fuel →
    2 ^ bits.Len.loop fuel n ≤ 2 * n := by
  intro fuel
  induction fuel with
  | zero => intro n h1 h2; omega
  | succ fuel ih =>
    intro n h1 h2
    unfold bits.Len.loop
    rw [if_neg (by omega)]
    by_cases hn : n / 2 = 0
    · have h0 : bits.Len.loop fuel (n / 2) = 0 := by
        rw [hn]
        cases fuel with
        | zero => rfl
        | succ fuel => unfold bits.Len.loop; rfl
      rw [h0]
      simp
      omega
    · have := ih (n / 2) (by omega) (by omega)
      rw [pow_add]
      omega

theorem bits_Len_le (n : Nat) (h : 0 < n) : 2 ^ bits.Len n ≤ 2 * n :=
  bits_Len_loop_le n n h (le_refl _)

theorem breakPatterns_loop_spec (random : Nat → Nat) (a length modulus idx : Nat)
    (hl : 8 ≤ length) (hm : modulus ≤ 2 * length) (hidx : idx = a + (length / 4) * 2 - 1) :
    ∀ (fuel i : Nat) (data : TalosVersionTags), i + fuel ≤ 3 →
      a + length ≤ data.Versions.length →
      ∃ data', sort.breakPatterns.loop random a length modulus idx fuel i data = some data' ∧
        Frame a (a + length) data.Versions data'.Versions := by
  intro fuel
  induction fuel with
  | zero => intro i data _ _; exact ⟨data, rfl, Frame.refl _ _ _⟩
  | succ fuel ih =>
    intro i data hi hlen
    unfold sort.breakPatterns.loop
    dsimp only
    have hand : random i &&& (modulus - 1) ≤ modulus - 1 := Nat.and_le_right
    generalize random i &&& (modulus - 1) = other0 at hand
    have hother : (if other0 ≥ length then other0 - length else other0) < length := by
      split <;> omega
    generalize (if other0 ≥ length then other0 - length else other0) = other at hother
    obtain ⟨d1, hsw, hlen1, _, _, _, _, hframe⟩ :=
      Swap_spec data (idx - 1 + i) (a + other) (by omega) (by omega)
    obtain ⟨d2, hrec, hfr⟩ := ih (i + 1) d1 (by omega) (by rw [hlen1]; exact hlen)
    refine ⟨d2, ?_, (hframe a (a + length) (by omega) (by omega) (by omega) (by omega)).trans hfr⟩
    simp only [hsw]
    exact hrec

theorem breakPatterns_spec (random : Nat → Nat → Nat) (data : TalosVersionTags) (a b : Nat)
    (hab : a ≤ b) (hlen : b ≤ data.Versions.length) :
    ∃ data', sort.breakPatterns random data a b = some data' ∧
      Frame a b data.Versions data'.Versions := by
  unfold sort.breakPatterns
  by_cases hl : b - a ≥ 8
  · simp only [if_pos hl]
    obtain ⟨d, h, hfr⟩ := breakPatterns_loop_spec (random (b - a)) a (b - a)
      (2 ^ bits.Len (b - a)) (a + (b - a) / 4 * 2 - 1) hl (bits_Len_le _ (by omega)) rfl 3 0
      data (by omega) (by omega)
    have e : a + (b - a) = b := by omega
    rw [e] at hfr
    exact ⟨d, h, hfr⟩
  · simp only [if_neg hl]
    exact ⟨data, rfl, Frame.refl _ _ _⟩

/-! ### `choosePivot` -/

theorem order2_spec (data : TalosVersionTags) (a b swaps : Nat) (ha : a < data.Versions.length)
    (hb : b < data.Versions.length) :
    ∃ x y s, sort.order2 data a b swaps = some (x, y, s) ∧
      ((x = a ∧ y = b) ∨ (x = b ∧ y = a)) := by
  unfold sort.order2
  rw [Less_eq data b a hb ha]
  cases (el data.Versions b).less (el data.Versions a) with
  | true => exact ⟨b, a, swaps + 1, rfl, Or.inr ⟨rfl, rfl⟩⟩
  | false => exact ⟨a, b, swaps, rfl, Or.inl ⟨rfl, rfl⟩⟩

theorem median_spec (data : TalosVersionTags) (a b c swaps : Nat)
    (ha : a < data.Versions.length) (hb : b < data.Versions.length)
    (hc : c < data.Versions.length) :
    ∃ m s, sort.median data a b c swaps = some (m, s) ∧ (m = a ∨ m = b ∨ m = c) := by
  unfold sort.median
  obtain ⟨x1, y1, s1, h1, e1⟩ := order2_spec data a b swaps ha hb
  have hx1 : x1 < data.Versions.length := by omega
  have hy1 : y1 < data.Versions.length := by omega
  obtain ⟨x2, y2, s2, h2, e2⟩ := order2_spec data y1 c s1 hy1 hc
  have hx2 : x2 < data.Versions.length := by omega
  obtain ⟨x3, y3, s3, h3, e3⟩ := order2_spec data x1 x2 s2 hx1 hx2
  simp only [h1, h2, h3]
  exact ⟨y3, s3, rfl, by omega⟩

theorem medianAdjacent_spec (data : TalosVersionTags) (a swaps : Nat) (ha : 1 ≤ a)
    (hlen : a + 1 < data.Versions.length) :
    ∃ m s, sort.medianAdjacent data a swaps = some (m, s) ∧ a - 1 ≤ m ∧ m ≤ a + 1 := by
  unfold sort.medianAdjacent
  obtain ⟨m, s, h, e⟩ := median_spec data (a - 1) a (a + 1) swaps (by omega) (by omega) hlen
  exact ⟨m, s, h, by omega⟩

theorem choosePivot_spec (data : TalosVersionTags) (a b : Nat) (hab : a < b)
    (hlen : b ≤ data.Versions.length) :
    ∃ pivot hint, sort.choosePivot data a b = some (pivot, hint) ∧ a ≤ pivot ∧ pivot < b := by
  have hfin : ∀ (j swaps : Nat), a ≤ j → j < b →
      ∃ pivot hint, (if swaps = 0 then some (j, sort.sortedHint.increasingHint)
        else if swaps = 4 * 3 then some (j, sort.sortedHint.decreasingHint)
        else some (j, sort.sortedHint.unknownHint)) = some (pivot, hint) ∧
        a ≤ pivot ∧ pivot < b := by
    intro j swaps h1 h2
    split
    · exact ⟨j, _, rfl, h1, h2⟩
    · split
      · exact ⟨j, _, rfl, h1, h2⟩
      · exact ⟨j, _, rfl, h1, h2⟩
  unfold sort.choosePivot
  by_cases h8 : b - a ≥ 8
  · by_cases h50 : b - a ≥ 50
    · obtain ⟨i1, s1, e1, hi1, hi1'⟩ := medianAdjacent_spec data (a + (b - a) / 4 * 1) 0
        (by omega) (by omega)
      obtain ⟨j1, s2, e2, hj1, hj1'⟩ := medianAdjacent_spec data (a + (b - a) / 4 * 2) s1
        (by omega) (by omega)
      obtain ⟨k1, s3, e3, hk1, hk1'⟩ := medianAdjacent_spec data (a + (b - a) / 4 * 3) s2
        (by omega) (by omega)
      obtain ⟨m, s, e, hm⟩ := median_spec data i1 j1 k1 s3 (by omega) (by omega) (by omega)
      simp only [if_pos h8, if_pos h50, e1, e2, e3, e]
      exact hfin m s (by omega) (by omega)
    · obtain ⟨m, s, e, hm⟩ := median_spec data (a + (b - a) / 4 * 1) (a + (b - a) / 4 * 2)
        (a + (b - a) / 4 * 3) 0 (by omega) (by omega) (by omega)
      simp only [if_pos h8, if_neg h50, e]
      exact hfin m s (by omega) (by omega)
  · simp only [if_neg h8]
    exact hfin _ 0 (by omega) (by omega)

/-! ### `partialInsertionSort` -/

theorem partialInsertionSort_scan_spec (data : TalosVersionTags) (b : Nat)
    (hlen : b ≤ data.Versions.length) :
    ∀ (fuel i : Nat), b ≤ i + fuel → i ≤ b →
      ∃ i', sort.partialInsertionSort.scan data b fuel i = some i' ∧ i ≤ i' ∧ i' ≤ b ∧
        (∀ k, i ≤ k → k < i' → (el data.Versions k).less (el data.Versions (k - 1)) = false) ∧
        (i' < b → (el data.Versions i').less (el data.Versions (i' - 1)) = true) := by
  intro fuel
  induction fuel with
  | zero =>
    intro i hf hi
    exact ⟨i, rfl, le_refl _, hi, fun k h1 h2 => by omega, fun h => by omega⟩
  | succ fuel ih =>
    intro i hf hi
    unfold sort.partialInsertionSort.scan
    by_cases hib : i < b
    · rw [if_pos hib, Less_eq data i (i - 1) (by omega) (by omega)]
      cases hless : (el data.Versions i).less (el data.Versions (i - 1)) with
      | true => exact ⟨i, rfl, le_refl _, hi, fun k h1 h2 => by omega, fun _ => hless⟩
      | false =>
        obtain ⟨i', h1, h2, h3, h4, h5⟩ := ih (i + 1) (by omega) (by omega)
        refine ⟨i', h1, by omega, h3, ?_, h5⟩
        intro k hk1 hk2
        by_cases hk : k = i
        · subst hk; exact hless
        · exact h4 k (by omega) hk2
    · rw [if_neg hib]
      exact ⟨i, rfl, le_refl _, hi, fun k h1 h2 => by omega, fun h => by omega⟩

theorem partialInsertionSort_left_eq :
    ∀ (j : Nat) (data : TalosVersionTags),
      sort.partialInsertionSort.left j data = sort.insertionSort.inner 0 j data := by
  intro j
  induction j with
  | zero => intro data; rfl
  | succ j ih =>
    intro data
    unfold sort.partialInsertionSort.left sort.insertionSort.inner
    rw [if_pos (by omega)]
    cases data.Less (j + 1) j with
    | none => rfl
    | some lt =>
      cases lt with
      | false => rfl
      | true =>
        cases data.Swap (j + 1) j with
        | none => rfl
        | some d => exact ih d

theorem partialInsertionSort_right_spec (b : Nat) :
    ∀ (fuel j : Nat) (data : TalosVersionTags), 1 ≤ j → b ≤ data.Versions.length →
      ∃ data', sort.partialInsertionSort.right b fuel j data = some data' ∧
        Frame (j - 1) b data.Versions data'.Versions := by
  intro fuel
  induction fuel with
  | zero => intro j data _ _; exact ⟨data, rfl, Frame.refl _ _ _⟩
  | succ fuel ih =>
    intro j data hj hlen
    unfold sort.partialInsertionSort.right
    by_cases hjb : j < b
    · rw [if_pos hjb, Less_eq data j (j - 1) (by omega) (by omega)]
      cases (el data.Versions j).less (el data.Versions (j - 1)) with
      | false => exact ⟨data, rfl, Frame.refl _ _ _⟩
      | true =>
        obtain ⟨d1, hsw, hlen1, _, _, _, _, hframe⟩ :=
          Swap_spec data j (j - 1) (by omega) (by omega)
        obtain ⟨d2, hrec, hfr⟩ := ih (j + 1) d1 (by omega) (by rw [hlen1]; exact hlen)
        refine ⟨d2, by simp only [hsw]; exact hrec, ?_⟩
        exact (hframe (j - 1) b (by omega) hjb (le_refl _) (by omega)).trans
          (hfr.mono (by omega) (le_refl _))
    · rw [if_neg hjb]
      exact ⟨data, rfl, Frame.refl _ _ _⟩

theorem partialInsertionSort_steps_spec (a b : Nat) :
    ∀ (steps i : Nat) (data : TalosVersionTags), a + 1 ≤ i → i ≤ b →
      b ≤ data.Versions.length → Low data.Versions a b → SortedOn data.Versions a i →
      ∃ data' flag, sort.partialInsertionSort.steps a b steps i data = some (data', flag) ∧
        Frame a b data.Versions data'.Versions ∧
        (flag = true → SortedOn data'.Versions a b) := by
  intro steps
  induction steps with
  | zero =>
    intro i data _ _ _ _ _
    exact ⟨data, false, rfl, Frame.refl _ _ _, fun h => absurd h (by decide)⟩
  | succ steps ih =>
    intro i data hai hib hlen hlow hsorted
    unfold sort.partialInsertionSort.steps
    obtain ⟨i', hscan, hii', hi'b, hadj, hstop⟩ :=
      partialInsertionSort_scan_spec data b hlen (b - i) i (by omega) hib
    simp only [hscan]
    have hsorted' : SortedOn data.Versions a i' := by
      have := hsorted.extend (i' - i) (fun k h1 h2 => hadj k h1 (by omega))
      have e : i + (i' - i) = i' := by omega
      rw [e] at this
      exact this
    by_cases hend : i' = b
    · rw [if_pos hend]
      exact ⟨data, true, rfl, Frame.refl _ _ _, fun _ => hend ▸ hsorted'⟩
    · rw [if_neg hend]
      by_cases hshort : b - a < 50
      · rw [if_pos hshort]
        exact ⟨data, false, rfl, Frame.refl _ _ _, fun h => absurd h (by decide)⟩
      · rw [if_neg hshort]
        obtain ⟨d1, hsw, hlen1, _, _, _, hoth, hframe⟩ :=
          Swap_spec data i' (i' - 1) (by omega) (by omega)
        have hfr1 : Frame a b data.Versions d1.Versions :=
          hframe a b (by omega) (by omega) (by omega) (by omega)
        have hlow1 := hlow.frame hfr1
        have hs1 : SortedOn d1.Versions a (i' - 1) := by
          intro p q hp hpq hq
          rw [el_congr (hoth p (by omega) (by omega)), el_congr (hoth q (by omega) (by omega))]
          exact hsorted' p q hp hpq (by omega)
        simp only [hsw]
        -- the shift to the left
        have hleft : ∃ d2, (if i' - a ≥ 2 then sort.partialInsertionSort.left (i' - 1) d1
              else some d1) = some d2 ∧ Frame a b d1.Versions d2.Versions ∧
            SortedOn d2.Versions a i' := by
          by_cases h2 : i' - a ≥ 2
          · rw [if_pos h2, partialInsertionSort_left_eq]
            obtain ⟨d2, hin, hfr, hs⟩ := insertionSort_inner_spec 0 a (i' - 1) (i' - 1) d1
              (Nat.zero_le _) (by omega) (le_refl _) (by omega)
              (fun ha q hq1 hq2 => hlow1 ha q hq1 (by omega)) hs1
              (fun p q hp hpq hq => by omega) (fun p q hp hpq hq hq' => by omega)
            have e : i' - 1 + 1 = i' := by omega
            rw [e] at hfr hs
            exact ⟨d2, hin, hfr.mono (le_refl _) (by omega), hs⟩
          · rw [if_neg h2]
            exact ⟨d1, rfl, Frame.refl _ _ _, fun p q hp hpq hq => by omega⟩
        obtain ⟨d2, hl, hfr2, hs2⟩ := hleft
        simp only [hl]
        have hlen2 : b ≤ d2.Versions.length := by rw [hfr2.length, hlen1]; exact hlen
        have hright : ∃ d3, (if b - i' ≥ 2 then
              sort.partialInsertionSort.right b (b - (i' + 1)) (i' + 1) d2
              else some d2) = some d3 ∧ Frame i' b d2.Versions d3.Versions := by
          by_cases h2 : b - i' ≥ 2
          · rw [if_pos h2]
            obtain ⟨d3, hr, hfr⟩ := partialInsertionSort_right_spec b (b - (i' + 1)) (i' + 1) d2
              (by omega) hlen2
            exact ⟨d3, hr, hfr⟩
          · rw [if_neg h2]
            exact ⟨d2, rfl, Frame.refl _ _ _⟩
        obtain ⟨d3, hr, hfr3⟩ := hright
        simp only [hr]
        have hfr3' : Frame a b d2.Versions d3.Versions := hfr3.mono (by omega) (le_refl _)
        have hfrall : Frame a b data.Versions d3.Versions := (hfr1.trans hfr2).trans hfr3'
        have hs3 : SortedOn d3.Versions a i' := by
          intro p q hp hpq hq
          rw [hfr3.el_outside p (Or.inl (by omega)), hfr3.el_outside q (Or.inl (by omega))]
          exact hs2 p q hp hpq hq
        obtain ⟨d4, flag, hrec, hfr4, hflag⟩ := ih i' d3 (by omega) hi'b
          (by rw [hfrall.length]; exact hlen) (hlow.frame hfrall) hs3
        exact ⟨d4, flag, hrec, hfrall.trans hfr4, hflag⟩

theorem partialInsertionSort_spec (data : TalosVersionTags) (a b : Nat) (hab : a < b)
    (hlen : b ≤ data.Versions.length) (hlow : Low data.Versions a b) :
    ∃ data' flag, sort.partialInsertionSort data a b = some (data', flag) ∧
      Frame a b data.Versions data'.Versions ∧
      (flag = true → SortedOn data'.Versions a b) :=
  partialInsertionSort_steps_spec a b 5 (a + 1) data (le_refl _) hab hlen hlow
    (fun p q hp hpq hq => by omega)

theorem SortedOn.frame_outside {l l' : List TalosVersion} {a b c d : Nat}
    (h : SortedOn l a b) (hf : Frame c d l l') (hd : b ≤ c ∨ d ≤ a) : SortedOn l' a b := by
  intro p q hp hpq hq
  rw [hf.el_outside p (by omega), hf.el_outside q (by omega)]
  exact h p q hp hpq hq

theorem SortedOn.join {l : List TalosVersion} {a mid b : Nat} (h1 : SortedOn l a mid)
    (h2 : SortedOn l (mid + 1) b)
    (hleft : ∀ k, a ≤ k → k < mid → (el l k).less (el l mid) = true)
    (hright : ∀ k, mid < k → k < b → (el l k).less (el l mid) = false) : SortedOn l a b := by
  intro p q hp hpq hq
  by_cases hqm : q < mid
  · exact h1 p q hp hpq hqm
  · by_cases hpm : mid < p
    · exact h2 p q (by omega) hpq hq
    · by_cases hq' : q = mid
      · subst hq'
        exact less_asymm (hleft p hp (by omega))
      · have hqr := hright q (by omega) hq
        by_cases hp' : p = mid
        · subst hp'; exact hqr
        · exact le_trans_less (less_asymm (hleft p hp (by omega))) hqr

theorem pdqsort_spec (random : Nat → Nat → Nat) :
    ∀ (fuel : Nat) (data : TalosVersionTags) (a b limit : Nat) (wasBalanced wasPartitioned : Bool),
      a ≤ b → b ≤ data.Versions.length → b - a ≤ fuel → Low data.Versions a b →
      ∃ data', sort.pdqsort random fuel data a b limit wasBalanced wasPartitioned = some data' ∧
        Frame a b data.Versions data'.Versions ∧ SortedOn data'.Versions a b := by
  intro fuel
  induction fuel with
  | zero =>
    intro data a b limit wb wp hab hlen hfuel _
    unfold sort.pdqsort
    rw [if_pos (by omega)]
    exact insertionSort_spec data a b hlen
  | succ fuel ih =>
    intro data a b limit wb wp hab hlen hfuel hlow
    unfold sort.pdqsort
    by_cases h12 : b - a ≤ 12
    · rw [if_pos h12]
      exact insertionSort_spec data a b hlen
    rw [if_neg h12]
    by_cases hlim : limit = 0
    · rw [if_pos hlim]
      exact heapSort_spec data a b hab hlen
    rw [if_neg hlim]
    -- breakPatterns
    have hA : ∃ dA limA, (if (!wb) = true then
          (sort.breakPatterns random data a b).map (fun data => (data, limit - 1))
          else some (data, limit)) = some (dA, limA) ∧ Frame a b data.Versions dA.Versions := by
      by_cases hwb : (!wb) = true
      · rw [if_pos hwb]
        obtain ⟨d, h, hfr⟩ := breakPatterns_spec random data a b hab hlen
        exact ⟨d, limit - 1, by rw [h]; rfl, hfr⟩
      · rw [if_neg hwb]
        exact ⟨data, limit, rfl, Frame.refl _ _ _⟩
    obtain ⟨dA, limA, hAeq, hfrA⟩ := hA
    simp only [hAeq]
    have hlenA : b ≤ dA.Versions.length := by rw [hfrA.length]; exact hlen
    -- choosePivot
    obtain ⟨pivot, hint, hB, hp1, hp2⟩ := choosePivot_spec dA a b (by omega) hlenA
    simp only [hB]
    -- reverseRange
    have hC : ∃ dC pC hintC, (if hint = sort.sortedHint.decreasingHint then
          (sort.reverseRange dA a b).map
            (fun data => (data, (b - 1) - (pivot - a), sort.sortedHint.increasingHint))
          else some (dA, pivot, hint)) = some (dC, pC, hintC) ∧
        Frame a b dA.Versions dC.Versions ∧ a ≤ pC ∧ pC < b := by
      by_cases hh : hint = sort.sortedHint.decreasingHint
      · rw [if_pos hh]
        obtain ⟨d, h, hfr⟩ := reverseRange_spec dA a b hlenA
        exact ⟨d, _, _, by rw [h]; rfl, hfr, by omega, by omega⟩
      · rw [if_neg hh]
        exact ⟨dA, pivot, hint, rfl, Frame.refl _ _ _, hp1, hp2⟩
    obtain ⟨dC, pC, hintC, hCeq, hfrC, hpc1, hpc2⟩ := hC
    simp only [hCeq]
    have hfrAC : Frame a b data.Versions dC.Versions := hfrA.trans hfrC
    have hlenC : b ≤ dC.Versions.length := by rw [hfrAC.length]; exact hlen
    -- partialInsertionSort
    have hD : ∃ dD flag, (if (wb && wp && decide (hintC = sort.sortedHint.increasingHint)) = true
          then sort.partialInsertionSort dC a b else some (dC, false)) = some (dD, flag) ∧
        Frame a b dC.Versions dD.Versions ∧ (flag = true → SortedOn dD.Versions a b) := by
      by_cases hc : (wb && wp && decide (hintC = sort.sortedHint.increasingHint)) = true
      · rw [if_pos hc]
        exact partialInsertionSort_spec dC a b (by omega) hlenC (hlow.frame hfrAC)
      · rw [if_neg hc]
        exact ⟨dC, false, rfl, Frame.refl _ _ _, fun h => absurd h (by decide)⟩
    obtain ⟨dD, flag, hDeq, hfrD, hflag⟩ := hD
    simp only [hDeq]
    have hfrAD : Frame a b data.Versions dD.Versions := hfrAC.trans hfrD
    have hlenD : b ≤ dD.Versions.length := by rw [hfrAD.length]; exact hlen
    have hlowD : Low dD.Versions a b := hlow.frame hfrAD
    cases flag with
    | true => exact ⟨dD, rfl, hfrAD, hflag rfl⟩
    | false =>
      dsimp only
      -- the test `a > 0 && !data.Less(a-1, pivot)`
      have hE : ∃ e, (if a > 0 then (dD.Less (a - 1) pC).map (fun lt => !lt) else some false)
            = some e ∧
          (e = true → 0 < a ∧ (el dD.Versions (a - 1)).less (el dD.Versions pC) = false) := by
        by_cases ha : a > 0
        · rw [if_pos ha, Less_eq dD (a - 1) pC (by omega) (by omega)]
          refine ⟨_, rfl, ?_⟩
          intro h
          refine ⟨ha, ?_⟩
          cases hx : (el dD.Versions (a - 1)).less (el dD.Versions pC) with
          | false => rfl
          | true => rw [hx] at h; exact absurd h (by decide)
        · rw [if_neg ha]
          exact ⟨false, rfl, fun h => absurd h (by decide)⟩
      obtain ⟨e, hEeq, he⟩ := hE
      simp only [hEeq]
      cases e with
      | true =>
        dsimp only
        obtain ⟨ha, hpl⟩ := he rfl
        obtain ⟨dE, mid, hpe, hfrE, hm1, hm2, hle, hgt⟩ :=
          partitionEqual_spec dD a b pC hpc1 hpc2 hlenD
        simp only [hpe]
        have hfrAE : Frame a b data.Versions dE.Versions := hfrAD.trans hfrE
        have hlenE : b ≤ dE.Versions.length := by rw [hfrAE.length]; exact hlen
        have hlowE : Low dE.Versions a b := hlow.frame hfrAE
        have hlowmid : Low dE.Versions mid b := by
          intro _ k hk1 hk2
          cases hx : (el dE.Versions k).less (el dE.Versions (mid - 1)) with
          | false => rfl
          | true =>
            have h1 := less_of_less_of_le hx (hle (mid - 1) (by omega) (by omega))
            have h2 := less_asymm (hgt k hk1 hk2)
            rw [h1] at h2
            exact absurd h2 (by decide)
        obtain ⟨d', hrec, hfr', hs'⟩ := ih dE mid b limA wb wp hm2 hlenE (by omega) hlowmid
        refine ⟨d', hrec, hfrAE.trans (hfr'.mono (by omega) (le_refl _)), ?_⟩
        intro p q hp hpq hq
        by_cases hpm : mid ≤ p
        · exact hs' p q hpm hpq hq
        · rw [hfr'.el_outside p (Or.inl (by omega))]
          have hpv := hle p hp (by omega)
          by_cases hqm : mid ≤ q
          · obtain ⟨q', hq1, hq2, eq⟩ := hfr'.el_inside q hqm hq
            rw [eq]
            cases hx : (el dE.Versions q').less (el dE.Versions p) with
            | false => rfl
            | true =>
              have h1 := less_of_less_of_le hx hpv
              have h2 := less_asymm (hgt q' hq1 hq2)
              rw [h1] at h2
              exact absurd h2 (by decide)
          · rw [hfr'.el_outside q (Or.inl (by omega))]
            have hlo : el dE.Versions (a - 1) = el dD.Versions (a - 1) :=
              hfrE.el_outside (a - 1) (Or.inl (by omega))
            have hqlo := hlowE ha q (by omega) (by omega)
            rw [hlo] at hqlo
            exact le_trans_less (le_trans_less hpv hpl) hqlo
      | false =>
        dsimp only
        obtain ⟨dE, mid, already, hpe, hfrE, hm1, hm2, hleft, hright⟩ :=
          partition_spec dD a b pC hpc1 hpc2 hlenD
        simp only [hpe]
        have hfrAE : Frame a b data.Versions dE.Versions := hfrAD.trans hfrE
        have hlenE : b ≤ dE.Versions.length := by rw [hfrAE.length]; exact hlen
        have hlowE : Low dE.Versions a b := hlow.frame hfrAE
        by_cases horder : mid - a < b - mid
        · rw [if_pos horder]
          obtain ⟨d1, hrec1, hfr1, hs1⟩ := ih dE a mid limA true true hm1 (by omega) (by omega)
            (fun ha k hk1 hk2 => hlowE ha k hk1 (by omega))
          simp only [hrec1]
          have hlen1 : b ≤ d1.Versions.length := by rw [hfr1.length]; exact hlenE
          have hleft1 : ∀ k, a ≤ k → k < mid →
              (el d1.Versions k).less (el d1.Versions mid) = true := by
            intro k hk1 hk2
            obtain ⟨k', h1, h2, eq⟩ := hfr1.el_inside k hk1 hk2
            rw [eq, hfr1.el_outside mid (Or.inr (le_refl _))]
            exact hleft k' h1 h2
          have hright1 : ∀ k, mid < k → k < b →
              (el d1.Versions k).less (el d1.Versions mid) = false := by
            intro k hk1 hk2
            rw [hfr1.el_outside k (Or.inr (by omega)), hfr1.el_outside mid (Or.inr (le_refl _))]
            exact hright k hk1 hk2
          obtain ⟨d2, hrec2, hfr2, hs2⟩ := ih d1 (mid + 1) b limA
            (decide (mid - a ≥ (b - a) / 8)) already (by omega) hlen1 (by omega)
            (fun _ k hk1 hk2 => hright1 k (by omega) hk2)
          refine ⟨d2, hrec2, (hfrAE.trans (hfr1.mono (le_refl _) (by omega))).trans
            (hfr2.mono (by omega) (le_refl _)), ?_⟩
          refine SortedOn.join (hs1.frame_outside hfr2 (Or.inl (by omega))) hs2 ?_ ?_
          · intro k hk1 hk2
            rw [hfr2.el_outside k (Or.inl (by omega)), hfr2.el_outside mid (Or.inl (by omega))]
            exact hleft1 k hk1 hk2
          · intro k hk1 hk2
            obtain ⟨k', h1, h2, eq⟩ := hfr2.el_inside k (by omega) hk2
            rw [eq, hfr2.el_outside mid (Or.inl (by omega))]
            exact hright1 k' (by omega) h2
        · rw [if_neg horder]
          obtain ⟨d1, hrec1, hfr1, hs1⟩ := ih dE (mid + 1) b limA true true (by omega) hlenE
            (by omega) (fun _ k hk1 hk2 => hright k (by omega) hk2)
          simp only [hrec1]
          have hlen1 : b ≤ d1.Versions.length := by rw [hfr1.length]; exact hlenE
          have hleft1 : ∀ k, a ≤ k → k < mid →
              (el d1.Versions k).less (el d1.Versions mid) = true := by
            intro k hk1 hk2
            rw [hfr1.el_outside k (Or.inl (by omega)), hfr1.el_outside mid (Or.inl (by omega))]
            exact hleft k hk1 hk2
          have hright1 : ∀ k, mid < k → k < b →
              (el d1.Versions k).less (el d1.Versions mid) = false := by
            intro k hk1 hk2
            obtain ⟨k', h1, h2, eq⟩ := hfr1.el_inside k (by omega) hk2
            rw [eq, hfr1.el_outside mid (Or.inl (by omega))]
            exact hright k' (by omega) h2
          have hlow1 : Low d1.Versions a b :=
            hlowE.frame (hfr1.mono (by omega) (le_refl _))
          obtain ⟨d2, hrec2, hfr2, hs2⟩ := ih d1 a mid limA
            (decide (b - mid ≥ (b - a) / 8)) already hm1 (by omega) (by omega)
            (fun ha k hk1 hk2 => hlow1 ha k hk1 (by omega))
          refine ⟨d2, hrec2, (hfrAE.trans (hfr1.mono (by omega) (le_refl _))).trans
            (hfr2.mono (le_refl _) (by omega)), ?_⟩
          refine SortedOn.join hs2 (hs1.frame_outside hfr2 (Or.inr (by omega))) ?_ ?_
          · intro k hk1 hk2
            obtain ⟨k', h1, h2, eq⟩ := hfr2.el_inside k hk1 hk2
            rw [eq, hfr2.el_outside mid (Or.inr (le_refl _))]
            exact hleft1 k' h1 h2
          · intro k hk1 hk2
            rw [hfr2.el_outside k (Or.inr (by omega)), hfr2.el_outside mid (Or.inr (le_refl _))]
            exact hright1 k hk1 hk2

theorem Sort_spec (random : Nat → Nat → Nat) (data : TalosVersionTags) :
    ∃ data', sort.Sort random data = some data' ∧ data'.Versions.Perm data.Versions ∧
      SortedOn data'.Versions 0 data'.Versions.length := by
  unfold sort.Sort
  by_cases h1 : data.Len ≤ 1
  · simp only [if_pos h1]
    refine ⟨data, rfl, List.Perm.refl _, ?_⟩
    intro p q _ hpq hq
    have : data.Versions.length ≤ 1 := h1
    omega
  · simp only [if_neg h1]
    obtain ⟨d, h, hfr, hs⟩ := pdqsort_spec random data.Len data 0 data.Len (bits.Len data.Len)
      true true (Nat.zero_le _) (le_refl _) (le_refl _) (fun h => absurd h (by decide))
    refine ⟨d, h, hfr.perm, ?_⟩
    rw [hfr.length]
    exact hs

theorem el_eq_getElem {l : List TalosVersion} {k : Nat} (h : k < l.length) : el l k = l[k] := by
  have h1 := getElem?_el h
  rw [List.getElem?_eq_getElem h] at h1
  exact (Option.some.inj h1).symm

theorem SortedOn.pairwise {l : List TalosVersion} (h : SortedOn l 0 l.length) :
    l.Pairwise (fun a b => b.less a = false) := by
  rw [List.pairwise_iff_getElem]
  intro i j hi hj hij
  rw [← el_eq_getElem hi, ← el_eq_getElem hj]
  exact h i j (Nat.zero_le _) hij hj

theorem sortSort_spec (random : Nat → Nat → Nat) (less : TalosVersion → TalosVersion → Bool)
    (l : List TalosVersion) :
    ∃ data, sort.Sort random ⟨l⟩ = some data ∧ sortSort random less l = data.Versions ∧
      data.Versions.Perm l ∧ data.Versions.Pairwise (fun a b => b.less a = false) := by
  obtain ⟨data, h, hperm, hsorted⟩ := Sort_spec random ⟨l⟩
  refine ⟨data, h, ?_, hperm, hsorted.pairwise⟩
  unfold sortSort
  simp only [h]

theorem less_false_compare {a b : TalosVersion} (h : b.less a = false) :
    ¬ semver.Compare a.Version b.Version > 0 := by
  unfold TalosVersion.less at h
  rw [decide_eq_false_iff_not, Compare_neg a.Version b.Version] at h
  omega

/-! ### Insertion sort keeps ties in place -/

theorem filter_swap_adjacent (p : TalosVersion → Bool) :
    ∀ (l : List TalosVersion) (j : Nat) (x y : TalosVersion), l[j]? = some x →
      l[j + 1]? = some y → (p x = true → p y = true → False) →
      ((l.set (j + 1) x).set j y).filter p = l.filter p := by
  intro l
  induction l with
  | nil => intro j x y hx; simp at hx
  | cons h t ih =>
    intro j x y hx hy hp
    cases j with
    | zero =>
      cases t with
      | nil => simp at hy
      | cons h2 t2 =>
        simp only [List.getElem?_cons_zero, Option.some.injEq] at hx
        simp only [zero_add, List.getElem?_cons_succ, List.getElem?_cons_zero,
          Option.some.injEq] at hy
        subst hx hy
        simp only [zero_add, List.set_cons_succ, List.set_cons_zero]
        cases hpx : p h <;> cases hpy : p h2
        · simp [List.filter_cons, hpx, hpy]
        · simp [List.filter_cons, hpx, hpy]
        · simp [List.filter_cons, hpx, hpy]
        · exact absurd (hp hpx hpy) id
    | succ j =>
      simp only [List.getElem?_cons_succ] at hx hy
      simp only [List.set_cons_succ, List.filter_cons]
      rw [ih j x y hx hy hp]

theorem Less_some {data : TalosVersionTags} {i j : Nat} {r : Bool}
    (h : data.Less i j = some r) :
    ∃ x y, data.Versions[i]? = some x ∧ data.Versions[j]? = some y ∧ x.less y = r := by
  unfold TalosVersionTags.Less at h
  cases hx : data.Versions[i]? with
  | none => rw [hx] at h; cases h
  | some x =>
    cases hy : data.Versions[j]? with
    | none => rw [hx, hy] at h; cases h
    | some y =>
      rw [hx, hy] at h
      exact ⟨x, y, rfl, rfl, Option.some.inj h⟩

theorem Swap_some {data data' : TalosVersionTags} {i j : Nat}
    (h : data.Swap i j = some data') :
    ∃ x y, data.Versions[i]? = some x ∧ data.Versions[j]? = some y ∧
      data'.Versions = (data.Versions.set i y).set j x := by
  unfold TalosVersionTags.Swap at h
  cases hx : data.Versions[i]? with
  | none => rw [hx] at h; cases h
  | some x =>
    cases hy : data.Versions[j]? with
    | none => rw [hx, hy] at h; cases h
    | some y =>
      rw [hx, hy] at h
      have := Option.some.inj h
      exact ⟨x, y, rfl, rfl, by rw [← this]⟩

theorem insertionSort_inner_filter (p : TalosVersion → Bool)
    (hp : ∀ x y : TalosVersion, y.less x = true → p x = true → p y = true → False) (a : Nat) :
    ∀ (j : Nat) (data data' : TalosVersionTags), sort.insertionSort.inner a j data = some data' →
      data'.Versions.filter p = data.Versions.filter p := by
  intro j
  induction j with
  | zero =>
    intro data data' h
    unfold sort.insertionSort.inner at h
    rw [← Option.some.inj h]
  | succ j ih =>
    intro data data' h
    unfold sort.insertionSort.inner at h
    by_cases hja : j + 1 > a
    · rw [if_pos hja] at h
      cases hL : data.Less (j + 1) j with
      | none => rw [hL] at h; cases h
      | some r =>
        cases r with
        | false =>
          rw [hL] at h
          rw [← Option.some.inj h]
        | true =>
          cases hS : data.Swap (j + 1) j with
          | none => rw [hL, hS] at h; cases h
          | some d =>
            rw [hL, hS] at h
            obtain ⟨y, x, hy, hx, hless⟩ := Less_some hL
            obtain ⟨y2, x2, hy2, hx2, hd⟩ := Swap_some hS
            rw [hy] at hy2
            rw [hx] at hx2
            cases hy2
            cases hx2
            rw [ih d data' h, hd]
            exact filter_swap_adjacent p data.Versions j x y hx hy (hp x y hless)
    · rw [if_neg hja] at h
      rw [← Option.some.inj h]

theorem insertionSort_outer_filter (p : TalosVersion → Bool)
    (hp : ∀ x y : TalosVersion, y.less x = true → p x = true → p y = true → False) (a b : Nat) :
    ∀ (fuel i : Nat) (data data' : TalosVersionTags),
      sort.insertionSort.outer a b fuel i data = some data' →
      data'.Versions.filter p = data.Versions.filter p := by
  intro fuel
  induction fuel with
  | zero =>
    intro i data data' h
    unfold sort.insertionSort.outer at h
    rw [← Option.some.inj h]
  | succ fuel ih =>
    intro i data data' h
    unfold sort.insertionSort.outer at h
    by_cases hib : i < b
    · rw [if_pos hib] at h
      cases hI : sort.insertionSort.inner a i data with
      | none => rw [hI] at h; cases h
      | some d =>
        rw [hI] at h
        rw [ih (i + 1) d data' h, insertionSort_inner_filter p hp a i data d hI]
    · rw [if_neg hib] at h
      rw [← Option.some.inj h]

theorem ties_apart (s : String) (x y : TalosVersion) (hless : y.less x = true)
    (hx : decide (semver.Compare x.Version s = 0) = true)
    (hy : decide (semver.Compare y.Version s = 0) = true) : False := by
  unfold TalosVersion.less at hless
  rw [decide_eq_true_iff] at hless hx hy
  have h1 : semver.Compare x.Version y.Version ≤ 0 :=
    Compare_trans_le x.Version s y.Version (by omega)
      (by rw [Compare_neg y.Version s]; omega)
  rw [Compare_neg y.Version x.Version] at h1
  omega

theorem Sort_short_filter (random : Nat → Nat → Nat) (p : TalosVersion → Bool)
    (hp : ∀ x y : TalosVersion, y.less x = true → p x = true → p y = true → False)
    (data data' : TalosVersionTags) (hshort : data.Versions.length ≤ 12)
    (h : sort.Sort random data = some data') :
    data'.Versions.filter p = data.Versions.filter p := by
  unfold sort.Sort at h
  by_cases h1 : data.Len ≤ 1
  · simp only [if_pos h1] at h
    rw [← Option.some.inj h]
  · simp only [if_neg h1] at h
    unfold sort.pdqsort at h
    have h12 : data.Len - 0 ≤ 12 := by
      unfold TalosVersionTags.Len
      omega
    rw [if_pos h12] at h
    exact insertionSort_outer_filter p hp _ _ _ _ data data' h

/-! ### The missing-version resolver -/

/-- C1: when `getMissingTags` succeeds, no entry of the returned delta has a
version for which `cachedTags.Contains` is true. -/
theorem getMissingTags_delta_not_cached (sortImpl : SortImpl) (hsort : SortContract sortImpl)
    (ListTags : List String × Option Error) (cachedTags : TalosVersionTags)
    (hok : (getMissingTags sortImpl ListTags cachedTags).err = none) :
    ∀ e ∈ (getMissingTags sortImpl ListTags cachedTags).tags.Versions,
      cachedTags.Contains e.Version = false := by
  obtain ⟨upstreamTags, err⟩ := ListTags
  cases err with
  | some err => simp [getMissingTags_err] at hok
  | none =>
    intro e he
    rw [getMissingTags_ok] at he
    exact ((mem_missing _ _ e).1 ((hsort.perm _ _).subset he)).2.2.2

/-- Witness for C1: a cache holding `v1.0.0` and an upstream list with that tag,
a newer one and `latest`. -/
theorem getMissingTags_delta_not_cached_witness :
    SortContract insertionSort ∧
    (getMissingTags insertionSort (["v1.1.0", "latest", "v1.0.0"], none)
      ⟨[⟨"v1.0.0", ["siderolabs/iscsi-tools"]⟩]⟩).err = none ∧
    ∀ e ∈ (getMissingTags insertionSort (["v1.1.0", "latest", "v1.0.0"], none)
      ⟨[⟨"v1.0.0", ["siderolabs/iscsi-tools"]⟩]⟩).tags.Versions,
      TalosVersionTags.Contains ⟨[⟨"v1.0.0", ["siderolabs/iscsi-tools"]⟩]⟩ e.Version = false :=
  ⟨insertionSort_contract, by decide,
    getMissingTags_delta_not_cached insertionSort insertionSort_contract _ _ (by decide)⟩

/-- C2: the delta returned by a successful `getMissingTags` is sorted ascending
by semantic version. `sort.Sort`, run on the tag set through its methods `Len`,
`Less` and `Swap`, returns without a panic, and in what it leaves no entry is
followed, next to it or further on, by one that `semver.Compare` puts before it:
for every adjacent pair `semver.Compare` of the earlier and the later version is
never greater than 0. -/
theorem getMissingTags_delta_sorted (random : Nat → Nat → Nat) (upstreamTags : List String)
    (cachedTags : TalosVersionTags) :
    (∃ data, sort.Sort random ⟨missing cachedTags upstreamTags⟩ = some data ∧
      (getMissingTags (sortSort random) (upstreamTags, none) cachedTags).tags = data) ∧
    (getMissingTags (sortSort random) (upstreamTags, none) cachedTags).tags.Versions.Pairwise
      (fun a b => ¬ semver.Compare a.Version b.Version > 0) ∧
    ∀ (i : Nat) (a b : TalosVersion),
      (getMissingTags (sortSort random) (upstreamTags, none) cachedTags).tags.Versions[i]?
        = some a →
      (getMissingTags (sortSort random) (upstreamTags, none) cachedTags).tags.Versions[i + 1]?
        = some b →
      ¬ semver.Compare a.Version b.Version > 0 := by
  obtain ⟨data, hsort, heq, _, hsorted⟩ :=
    sortSort_spec random TalosVersion.less (missing cachedTags upstreamTags)
  have hp : (getMissingTags (sortSort random) (upstreamTags, none)
      cachedTags).tags.Versions.Pairwise
      (fun a b => ¬ semver.Compare a.Version b.Version > 0) := by
    rw [getMissingTags_ok, heq]
    exact hsorted.imp (fun h => less_false_compare h)
  refine ⟨⟨data, hsort, ?_⟩, hp, ?_⟩
  · rw [getMissingTags_ok, heq]
  · intro i a b ha hb
    obtain ⟨hi, ha⟩ := List.getElem?_eq_some_iff.1 ha
    obtain ⟨hj, hb⟩ := List.getElem?_eq_some_iff.1 hb
    have h := List.pairwise_iff_getElem.1 hp i (i + 1) hi hj (Nat.lt_succ_self i)
    rw [ha, hb] at h
    exact h

/-- Witness for C2: four upstream tags in registry order, one of them not a
version; `sort.Sort` leaves the three versions in ascending order. -/
theorem getMissingTags_delta_sorted_witness :
    (getMissingTags (sortSort (fun _ _ => 0))
      (["v1.10.0", "v1.2.0", "latest", "v1.2.0-beta.1"], none)
      ⟨[]⟩).tags.Versions = [⟨"v1.2.0-beta.1", []⟩, ⟨"v1.2.0", []⟩, ⟨"v1.10.0", []⟩] ∧
    ¬ semver.Compare "v1.2.0-beta.1" "v1.2.0" > 0 ∧
    ¬ semver.Compare "v1.2.0" "v1.10.0" > 0 :=
  ⟨by decide,
    (getMissingTags_delta_sorted (fun _ _ => 0)
      ["v1.10.0", "v1.2.0", "latest", "v1.2.0-beta.1"] ⟨[]⟩).2.2 0
      ⟨"v1.2.0-beta.1", []⟩ ⟨"v1.2.0", []⟩ (by decide) (by decide),
    (getMissingTags_delta_sorted (fun _ _ => 0)
      ["v1.10.0", "v1.2.0", "latest", "v1.2.0-beta.1"] ⟨[]⟩).2.2 1
      ⟨"v1.2.0", []⟩ ⟨"v1.10.0", []⟩ (by decide) (by decide)⟩

/-- C3: every version in the delta returned by a successful `getMissingTags`
begins with the prefix `v`; with an empty cache the upstream list `latest`,
`v1.2.3`, `1.2.3` yields the delta whose only entry is `v1.2.3`. -/
theorem getMissingTags_delta_prefix_v (sortImpl : SortImpl) (hsort : SortContract sortImpl) :
    (∀ (ListTags : List String × Option Error) (cachedTags : TalosVersionTags),
      (getMissingTags sortImpl ListTags cachedTags).err = none →
      ∀ e ∈ (getMissingTags sortImpl ListTags cachedTags).tags.Versions,
        strings.HasPrefix e.Version "v" = true) ∧
    getMissingTags sortImpl (["latest", "v1.2.3", "1.2.3"], none) ⟨[]⟩
      = ⟨⟨[⟨"v1.2.3", []⟩]⟩, none, ⟨[]⟩⟩ := by
  constructor
  · rintro ⟨upstreamTags, err⟩ cachedTags hok e he
    cases err with
    | some err => simp [getMissingTags_err] at hok
    | none =>
      rw [getMissingTags_ok] at he
      exact ((mem_missing _ _ e).1 ((hsort.perm _ _).subset he)).2.2.1
  · rw [getMissingTags_ok]
    have hm : missing ⟨[]⟩ ["latest", "v1.2.3", "1.2.3"] = [⟨"v1.2.3", []⟩] := by decide
    rw [hm, List.perm_singleton.1 (hsort.perm _ _)]

/-- Witness for C3: insertion sort as the sorting routine. -/
theorem getMissingTags_delta_prefix_v_witness :
    SortContract insertionSort ∧
    getMissingTags insertionSort (["latest", "v1.2.3", "1.2.3"], none) ⟨[]⟩
      = ⟨⟨[⟨"v1.2.3", []⟩]⟩, none, ⟨[]⟩⟩ :=
  ⟨insertionSort_contract,
    (getMissingTags_delta_prefix_v insertionSort insertionSort_contract).2⟩

/-- C6: when the registry tag fetch fails, `getMissingTags` returns that same
error together with the supplied cached tags, entry for entry, whatever tag
list came with the error and whatever the sorting routine. -/
theorem getMissingTags_fetch_error (sortImpl : SortImpl) (upstreamTags : List String)
    (err : Error) (cachedTags : TalosVersionTags) :
    (getMissingTags sortImpl (upstreamTags, some err) cachedTags).err = some err ∧
    (getMissingTags sortImpl (upstreamTags, some err) cachedTags).tags = cachedTags ∧
    (getMissingTags sortImpl (upstreamTags, some err) cachedTags).cachedTags = cachedTags := by
  simp [getMissingTags_err]

/-- C7: when the cache contains every upstream tag, `getMissingTags` returns a
delta with zero versions and no error. -/
theorem getMissingTags_all_cached (sortImpl : SortImpl) (hsort : SortContract sortImpl)
    (upstreamTags : List String) (cachedTags : TalosVersionTags)
    (hall : ∀ tag ∈ upstreamTags, cachedTags.Contains tag = true) :
    (getMissingTags sortImpl (upstreamTags, none) cachedTags).tags.Versions = [] ∧
    (getMissingTags sortImpl (upstreamTags, none) cachedTags).tags.Len = 0 ∧
    (getMissingTags sortImpl (upstreamTags, none) cachedTags).err = none := by
  have hm : missing cachedTags upstreamTags = [] := by
    unfold missing
    rw [List.map_eq_nil_iff, List.filter_eq_nil_iff]
    intro tag htag
    simp [hall tag htag]
  have hs : sortImpl TalosVersion.less (missing cachedTags upstreamTags) = [] := by
    have := hsort.perm TalosVersion.less (missing cachedTags upstreamTags)
    rw [hm] at this ⊢
    exact List.perm_nil.1 this
  simp [getMissingTags_ok, hs, TalosVersionTags.Len]

/-- Witness for C7: two upstream tags, both cached. -/
theorem getMissingTags_all_cached_witness :
    (getMissingTags insertionSort (["v1.0.0", "v1.1.0"], none)
      ⟨[⟨"v1.1.0", []⟩, ⟨"v1.0.0", []⟩]⟩).tags.Versions = [] ∧
    (getMissingTags insertionSort (["v1.0.0", "v1.1.0"], none)
      ⟨[⟨"v1.1.0", []⟩, ⟨"v1.0.0", []⟩]⟩).tags.Len = 0 ∧
    (getMissingTags insertionSort (["v1.0.0", "v1.1.0"], none)
      ⟨[⟨"v1.1.0", []⟩, ⟨"v1.0.0", []⟩]⟩).err = none :=
  getMissingTags_all_cached insertionSort insertionSort_contract _ _ (by decide)

/-- C8: a call of `getMissingTags` leaves the supplied cache as it was, and a
second call made right after it on that cache, with the same upstream answer,
returns the same delta and the same error as the first. -/
theorem getMissingTags_twice (sortImpl : SortImpl) (ListTags : List String × Option Error)
    (cachedTags : TalosVersionTags) :
    (getMissingTags sortImpl ListTags cachedTags).cachedTags = cachedTags ∧
    (getMissingTags sortImpl ListTags
        (getMissingTags sortImpl ListTags cachedTags).cachedTags).tags
      = (getMissingTags sortImpl ListTags cachedTags).tags ∧
    (getMissingTags sortImpl ListTags
        (getMissingTags sortImpl ListTags cachedTags).cachedTags).err
      = (getMissingTags sortImpl ListTags cachedTags).err := by
  have h : (getMissingTags sortImpl ListTags cachedTags).cachedTags = cachedTags := by
    obtain ⟨upstreamTags, err⟩ := ListTags
    cases err with
    | some err => rw [getMissingTags_err]
    | none => rw [getMissingTags_ok]
  rw [h]
  exact ⟨rfl, rfl, rfl⟩

/-- C10: `v.Contains s` is true exactly when some entry of `v.Versions` has its
`Version` equal to `s`; emptying every `SystemExtensions` list changes nothing. -/
theorem Contains_iff_exists_version (v : TalosVersionTags) (s : String) :
    (v.Contains s = true ↔ ∃ a ∈ v.Versions, a.Version = s) ∧
    v.Contains s
      = TalosVersionTags.Contains ⟨v.Versions.map (fun a => ⟨a.Version, []⟩)⟩ s := by
  have h1 : v.Contains s = true ↔ ∃ a ∈ v.Versions, a.Version = s := Contains_loop_iff _ _
  refine ⟨h1, ?_⟩
  rw [Bool.eq_iff_iff, h1]
  unfold TalosVersionTags.Contains
  rw [Contains_loop_iff]
  simp

theorem missing_versions (cachedTags : TalosVersionTags) (upstreamTags : List String) :
    (missing cachedTags upstreamTags).map (fun e => e.Version)
      = upstreamTags.filter
          (fun tag => strings.HasPrefix tag "v" && !cachedTags.Contains tag) := by
  unfold missing
  rw [List.map_map]
  exact List.map_id _

/-- C11, as stated, fails: an upstream list that names `v1.0.0` twice gives a
delta with two entries of that version. -/
theorem getMissingTags_delta_duplicate :
    (getMissingTags insertionSort (["v1.0.0", "v1.0.0"], none) ⟨[]⟩).err = none ∧
    (getMissingTags insertionSort (["v1.0.0", "v1.0.0"], none) ⟨[]⟩).tags.Versions
      = [⟨"v1.0.0", []⟩, ⟨"v1.0.0", []⟩] ∧
    ¬ ((getMissingTags insertionSort (["v1.0.0", "v1.0.0"], none) ⟨[]⟩).tags.Versions.map
        (fun e => e.Version)).Nodup := by
  decide

/-- C11, amended: when no tag occurs twice in the upstream list, no two entries
of the delta returned by `getMissingTags` share a version string. -/
theorem getMissingTags_delta_nodup (sortImpl : SortImpl) (hsort : SortContract sortImpl)
    (upstreamTags : List String) (cachedTags : TalosVersionTags)
    (hnodup : upstreamTags.Nodup) :
    ((getMissingTags sortImpl (upstreamTags, none) cachedTags).tags.Versions.map
      (fun e => e.Version)).Nodup := by
  rw [getMissingTags_ok]
  have hp := (hsort.perm TalosVersion.less (missing cachedTags upstreamTags)).map
    (fun e => e.Version)
  rw [hp.nodup_iff, missing_versions]
  exact hnodup.filter _

/-- Witness for C11, amended: three distinct upstream tags. -/
theorem getMissingTags_delta_nodup_witness :
    (["v1.1.0", "v1.0.0", "v1.0.1"] : List String).Nodup ∧
    ((getMissingTags insertionSort (["v1.1.0", "v1.0.0", "v1.0.1"], none)
      ⟨[⟨"v1.0.0", []⟩]⟩).tags.Versions.map (fun e => e.Version)).Nodup :=
  ⟨by decide, getMissingTags_delta_nodup insertionSort insertionSort_contract _ _ (by decide)⟩

/-- C12: every entry of the delta returned by a successful `getMissingTags` has
its version equal to an upstream tag and an empty `SystemExtensions` list. -/
theorem getMissingTags_delta_entries (sortImpl : SortImpl) (hsort : SortContract sortImpl)
    (ListTags : List String × Option Error) (cachedTags : TalosVersionTags)
    (hok : (getMissingTags sortImpl ListTags cachedTags).err = none) :
    ∀ e ∈ (getMissingTags sortImpl ListTags cachedTags).tags.Versions,
      e.Version ∈ ListTags.1 ∧ e.SystemExtensions = [] := by
  obtain ⟨upstreamTags, err⟩ := ListTags
  cases err with
  | some err => simp [getMissingTags_err] at hok
  | none =>
    intro e he
    rw [getMissingTags_ok] at he
    have h := (mem_missing _ _ e).1 ((hsort.perm _ _).subset he)
    exact ⟨h.2.1, h.1⟩

/-- Witness for C12: a cache whose entry carries extensions, and two new tags. -/
theorem getMissingTags_delta_entries_witness :
    (getMissingTags insertionSort (["v1.1.0", "v1.0.0", "v1.0.1"], none)
      ⟨[⟨"v1.0.0", ["siderolabs/iscsi-tools"]⟩]⟩).err = none ∧
    ∀ e ∈ (getMissingTags insertionSort (["v1.1.0", "v1.0.0", "v1.0.1"], none)
      ⟨[⟨"v1.0.0", ["siderolabs/iscsi-tools"]⟩]⟩).tags.Versions,
      e.Version ∈ ["v1.1.0", "v1.0.0", "v1.0.1"] ∧ e.SystemExtensions = [] :=
  ⟨by decide,
    getMissingTags_delta_entries insertionSort insertionSort_contract
      (["v1.1.0", "v1.0.0", "v1.0.1"], none) _ (by decide)⟩

/-- C17: the versions of the delta returned by `getMissingTags` are a
permutation of the sub-list of upstream tags that begin with `v` and are not
contained in the cache. -/
theorem getMissingTags_delta_perm (sortImpl : SortImpl) (hsort : SortContract sortImpl)
    (upstreamTags : List String) (cachedTags : TalosVersionTags) :
    ((getMissingTags sortImpl (upstreamTags, none) cachedTags).tags.Versions.map
        (fun e => e.Version)).Perm
      (upstreamTags.filter
        (fun tag => strings.HasPrefix tag "v" && !cachedTags.Contains tag)) := by
  rw [getMissingTags_ok, ← missing_versions]
  exact (hsort.perm TalosVersion.less (missing cachedTags upstreamTags)).map _

/-- Witness for C17: an upstream list with a repeated tag, a cached tag and a
tag without the prefix. -/
theorem getMissingTags_delta_perm_witness :
    SortContract insertionSort ∧
    ((getMissingTags insertionSort (["v1.1.0", "latest", "v1.0.0", "v1.1.0", "v1.0.1"], none)
        ⟨[⟨"v1.0.0", []⟩]⟩).tags.Versions.map (fun e => e.Version)).Perm
      ["v1.1.0", "v1.1.0", "v1.0.1"] :=
  ⟨insertionSort_contract,
    getMissingTags_delta_perm insertionSort insertionSort_contract
      ["v1.1.0", "latest", "v1.0.0", "v1.1.0", "v1.0.1"] ⟨[⟨"v1.0.0", []⟩]⟩⟩

/-- C18: when the delta returned by `getMissingTags` is appended to the cache
and `getMissingTags` is called again on the merged cache with the same
upstream list, the second delta is empty and there is no error. -/
theorem getMissingTags_after_merge (sortImpl : SortImpl) (hsort : SortContract sortImpl)
    (upstreamTags : List String) (cachedTags : TalosVersionTags) :
    (getMissingTags sortImpl (upstreamTags, none)
      ⟨cachedTags.Versions
        ++ (getMissingTags sortImpl (upstreamTags, none) cachedTags).tags.Versions⟩).tags.Versions
      = [] ∧
    (getMissingTags sortImpl (upstreamTags, none)
      ⟨cachedTags.Versions
        ++ (getMissingTags sortImpl (upstreamTags, none) cachedTags).tags.Versions⟩).err
      = none := by
  have hm : missing ⟨cachedTags.Versions
      ++ (getMissingTags sortImpl (upstreamTags, none) cachedTags).tags.Versions⟩ upstreamTags
      = [] := by
    unfold missing
    rw [List.map_eq_nil_iff, List.filter_eq_nil_iff]
    intro tag htag
    by_cases hv : strings.HasPrefix tag "v" = true
    · have hc : TalosVersionTags.Contains ⟨cachedTags.Versions
          ++ (getMissingTags sortImpl (upstreamTags, none) cachedTags).tags.Versions⟩ tag
          = true := by
        unfold TalosVersionTags.Contains
        rw [Contains_loop_iff]
        by_cases hcached : cachedTags.Contains tag = true
        · obtain ⟨a, ha, hat⟩ := (Contains_loop_iff _ _).1 hcached
          exact ⟨a, List.mem_append_left _ ha, hat⟩
        · refine ⟨⟨tag, []⟩, List.mem_append_right _ ?_, rfl⟩
          rw [getMissingTags_ok]
          refine (hsort.perm _ _).mem_iff.2 ((mem_missing _ _ _).2 ⟨rfl, htag, hv, ?_⟩)
          simpa using hcached
      simp [hc]
    · simp [hv]
  rw [getMissingTags_ok sortImpl upstreamTags ⟨_⟩, hm]
  exact ⟨List.perm_nil.1 (hsort.perm _ _), rfl⟩

/-- Witness for C18: one cached tag and two new ones. -/
theorem getMissingTags_after_merge_witness :
    SortContract insertionSort ∧
    (getMissingTags insertionSort (["v1.1.0", "v1.0.0", "v1.0.1"], none)
      ⟨[⟨"v1.0.0", []⟩] ++ (getMissingTags insertionSort
        (["v1.1.0", "v1.0.0", "v1.0.1"], none) ⟨[⟨"v1.0.0", []⟩]⟩).tags.Versions⟩).tags.Versions
      = [] :=
  ⟨insertionSort_contract,
    (getMissingTags_after_merge insertionSort insertionSort_contract
      ["v1.1.0", "v1.0.0", "v1.0.1"] ⟨[⟨"v1.0.0", []⟩]⟩).1⟩

/-- C15, as stated, fails: on thirteen upstream tags that start with `v2` and
`v2.0.0`, which compare equal, `sort.Sort` returns `v2.0.0` before `v2`,
whatever its generator yields. -/
theorem sort_reorders_ties :
    semver.Compare "v2" "v2.0.0" = 0 ∧
    ∀ random : Nat → Nat → Nat,
      (getMissingTags (sortSort random)
        (["v2", "v2.0.0", "v1.0.0", "v1.0.1", "v1.0.2", "v1.0.3", "v1.0.4", "v1.0.5", "v1.0.6",
          "v1.0.7", "v1.0.8", "v1.0.9", "v1.0.10"], none) ⟨[]⟩).tags.Versions
        = [⟨"v1.0.0", []⟩, ⟨"v1.0.1", []⟩, ⟨"v1.0.2", []⟩, ⟨"v1.0.3", []⟩, ⟨"v1.0.4", []⟩,
          ⟨"v1.0.5", []⟩, ⟨"v1.0.6", []⟩, ⟨"v1.0.7", []⟩, ⟨"v1.0.8", []⟩, ⟨"v1.0.9", []⟩,
          ⟨"v1.0.10", []⟩, ⟨"v2.0.0", []⟩, ⟨"v2", []⟩] := by
  refine ⟨by decide, ?_⟩
  intro random
  rfl

/-- C15, amended: `sort.Sort`, run on the delta through `Len`, `Less` and
`Swap`, puts it in ascending order and keeps, for every version `s`, the entries
whose versions compare equal to `s`, each as often as the tag loop appended it.
In a delta of at most 12 entries, which `sort.Sort` sorts by insertion, these
entries also keep their relative order; in a longer delta their order is not
fixed. -/
theorem sort_keeps_ties (random : Nat → Nat → Nat) (upstreamTags : List String)
    (cachedTags : TalosVersionTags) (s : String) :
    ((getMissingTags (sortSort random) (upstreamTags, none) cachedTags).tags.Versions.filter
        (fun e => decide (semver.Compare e.Version s = 0))).Perm
      ((missing cachedTags upstreamTags).filter
        (fun e => decide (semver.Compare e.Version s = 0))) ∧
    (getMissingTags (sortSort random) (upstreamTags, none) cachedTags).tags.Versions.Pairwise
      (fun a b => ¬ semver.Compare a.Version b.Version > 0) ∧
    ((missing cachedTags upstreamTags).length ≤ 12 →
      (getMissingTags (sortSort random) (upstreamTags, none) cachedTags).tags.Versions.filter
          (fun e => decide (semver.Compare e.Version s = 0))
        = (missing cachedTags upstreamTags).filter
          (fun e => decide (semver.Compare e.Version s = 0))) := by
  obtain ⟨data, hsort, heq, hperm, hsorted⟩ :=
    sortSort_spec random TalosVersion.less (missing cachedTags upstreamTags)
  rw [getMissingTags_ok, heq]
  refine ⟨hperm.filter _, hsorted.imp (fun h => less_false_compare h), ?_⟩
  intro hshort
  exact Sort_short_filter random _ (ties_apart s) ⟨missing cachedTags upstreamTags⟩ data
    hshort hsort

/-- Witness for C15, amended: a delta of four entries, three of which compare
equal to `v1.0.0`; they come out in the order in which the registry listed
them. -/
theorem sort_keeps_ties_witness :
    (missing ⟨[]⟩ ["v1.1.0", "v1.0", "v1.0.0", "v1"]).length ≤ 12 ∧
    (getMissingTags (sortSort (fun _ _ => 0)) (["v1.1.0", "v1.0", "v1.0.0", "v1"], none)
        ⟨[]⟩).tags.Versions
      = [⟨"v1.0", []⟩, ⟨"v1.0.0", []⟩, ⟨"v1", []⟩, ⟨"v1.1.0", []⟩] ∧
    (getMissingTags (sortSort (fun _ _ => 0)) (["v1.1.0", "v1.0", "v1.0.0", "v1"], none)
        ⟨[]⟩).tags.Versions.filter (fun e => decide (semver.Compare e.Version "v1.0.0" = 0))
      = (missing ⟨[]⟩ ["v1.1.0", "v1.0", "v1.0.0", "v1"]).filter
        (fun e => decide (semver.Compare e.Version "v1.0.0" = 0)) :=
  ⟨by decide, by decide,
    (sort_keeps_ties (fun _ _ => 0) ["v1.1.0", "v1.0", "v1.0.0", "v1"] ⟨[]⟩ "v1.0.0").2.2
      (by decide)⟩

/-- C16, as stated, fails: when `checkCache()` returns true, `loadCache` is not
called and the supplied empty tag set is resolved as it is, so the cached tag
`v1.0.0` comes back as missing; when it returns false, `loadCache` is called. -/
theorem getMissingVersions_check_true_no_load :
    getMissingVersions insertionSort (["v1.0.0"], none) true
        (fun _ => ⟨[⟨"v1.0.0", ["siderolabs/iscsi-tools"]⟩]⟩) ⟨[]⟩
      = ⟨some ⟨[⟨"v1.0.0", []⟩]⟩, ⟨[]⟩, false⟩ ∧
    getMissingVersions insertionSort (["v1.0.0"], none) false
        (fun _ => ⟨[⟨"v1.0.0", ["siderolabs/iscsi-tools"]⟩]⟩) ⟨[]⟩
      = ⟨some ⟨[]⟩, ⟨[⟨"v1.0.0", ["siderolabs/iscsi-tools"]⟩]⟩, true⟩ := by
  decide

/-- C16, amended: `getMissingVersions` calls `loadCache` exactly when
`checkCache()` returns false, and then resolves what was loaded; when
`checkCache()` returns true no load is attempted and the supplied tag set is
resolved as it is. A failed fetch ends the process. -/
theorem getMissingVersions_loads_iff_check_false (sortImpl : SortImpl)
    (ListTags : List String × Option Error) (checkCache : Bool)
    (loadCache : TalosVersionTags → TalosVersionTags) (versionsTags : TalosVersionTags) :
    (getMissingVersions sortImpl ListTags checkCache loadCache versionsTags).loaded
      = !checkCache ∧
    getMissingVersions sortImpl ListTags true loadCache versionsTags
      = ⟨if (getMissingTags sortImpl ListTags versionsTags).err = none
          then some (getMissingTags sortImpl ListTags versionsTags).tags else none,
        versionsTags, false⟩ ∧
    getMissingVersions sortImpl ListTags false loadCache versionsTags
      = ⟨if (getMissingTags sortImpl ListTags (loadCache versionsTags)).err = none
          then some (getMissingTags sortImpl ListTags (loadCache versionsTags)).tags else none,
        loadCache versionsTags, true⟩ := by
  have key : ∀ v : TalosVersionTags, ∀ b : Bool,
      (match (getMissingTags sortImpl ListTags v).err with
        | some _ => (⟨none, (getMissingTags sortImpl ListTags v).cachedTags, b⟩ : Resolved)
        | none => ⟨some (getMissingTags sortImpl ListTags v).tags,
            (getMissingTags sortImpl ListTags v).cachedTags, b⟩)
      = ⟨if (getMissingTags sortImpl ListTags v).err = none
          then some (getMissingTags sortImpl ListTags v).tags else none, v, b⟩ := by
    intro v b
    obtain ⟨upstreamTags, err⟩ := ListTags
    cases err with
    | some err => simp [getMissingTags_err]
    | none => simp [getMissingTags_ok]
  refine ⟨?_, ?_, ?_⟩
  · unfold getMissingVersions
    dsimp only
    rw [key]
    cases checkCache <;> rfl
  · unfold getMissingVersions
    exact key versionsTags false
  · unfold getMissingVersions
    exact key (loadCache versionsTags) true

/-! ### The image-reference canonicaliser -/

theorem Sprintf_plain (verbs : List Char → List Char) (format : String)
    (h : '%' ∉ format.data) : fmt.Sprintf verbs format = format := by
  have h1 : format.data.takeWhile (fun c => c != '%') = format.data := by
    rw [List.takeWhile_eq_self_iff]
    intro c hc
    have : c ≠ '%' := fun hcp => h (hcp ▸ hc)
    simpa using this
  have h2 : format.data.dropWhile (fun c => c != '%') = [] := by
    rw [List.dropWhile_eq_nil_iff]
    intro c hc
    have : c ≠ '%' := fun hcp => h (hcp ▸ hc)
    simpa using this
  unfold fmt.Sprintf
  simp only [h1, h2, if_true, List.append_nil]

theorem render_eq_table (verbs : List Char → List Char) (flags : Flags) (result : StringMap)
    (ref : ImageReference)
    (hregistry : result.index "registry" = ref.registry) (horg : result.index "org" = ref.org)
    (hrepo : result.index "repo" = ref.repo) (htag : result.index "tag" = ref.tag)
    (hshasum : result.index "shasum" = ref.shasum)
    (hplain : ∀ field ∈ ref.fields, '%' ∉ field.data) :
    renderingTable.output flags ref = some (cleanString.render verbs flags result) := by
  simp only [ImageReference.fields, List.mem_cons, List.mem_singleton, forall_eq_or_imp,
    forall_eq, List.not_mem_nil, false_imp_iff, implies_true, and_true] at hplain
  obtain ⟨p1, p2, p3, p4, p5⟩ := hplain
  obtain ⟨minimal, trimRegistry, trimSha256, trimTag⟩ := flags
  unfold cleanString.render renderingTable.output renderingTable
  rw [hregistry, horg, hrepo, htag, hshasum]
  cases minimal <;> cases trimRegistry <;> cases trimSha256 <;> cases trimTag <;>
    simp only [List.find?, Bool.and_self, Bool.or_self, Bool.not_true, Bool.not_false,
      Bool.and_true, Bool.and_false, Bool.or_true, Bool.or_false, Bool.true_and,
      Bool.false_and, Bool.true_or, Bool.false_or, Option.map, if_true, if_false,
      Bool.false_eq_true] <;>
    rw [Sprintf_plain] <;>
    simp [String.data_append, p1, p2, p3, p4, p5]

theorem cleanString_of_captures (verbs : List Char → List Char) (regexp : Regexp)
    (flags : Flags) (line : String) (result : StringMap)
    (h : cleanString.captures 0 regexp.SubexpNames (regexp.FindStringSubmatch line) []
      = .ok result) :
    cleanString verbs regexp flags line = .ok (cleanString.render verbs flags result) := by
  unfold cleanString
  simp only [h]

theorem captures_no_match (names : List String) (i : Nat) (result : StringMap)
    (h : ∃ j name, i + j ≠ 0 ∧ name ≠ "" ∧ names[j]? = some name) :
    cleanString.captures i names [] result = .error "index out of range" := by
  induction names generalizing i result with
  | nil =>
    obtain ⟨j, name, _, _, hj⟩ := h
    simp at hj
  | cons n rest ih =>
    unfold cleanString.captures
    by_cases hn : i ≠ 0 ∧ n ≠ ""
    · simp [hn]
    · rw [if_neg hn]
      obtain ⟨j, name, hij, hname, hj⟩ := h
      cases j with
      | zero =>
        simp only [List.getElem?_cons_zero, Option.some.injEq] at hj
        subst hj
        exact absurd ⟨by simpa using hij, hname⟩ hn
      | succ j =>
        refine ih (i + 1) result ⟨j, name, by omega, hname, ?_⟩
        simpa using hj

/-- C4, as stated, fails: for a pattern that lets the tag `100%` through,
`cleanString` with `trimRegistry` and `trimSha256` set returns
`acme/widget:100%!(NOVERB)`, because the text is handed to `fmt.Sprintf` as the
format, where the table row gives `acme/widget:100%`. -/
theorem cleanString_percent_in_tag :
    (exactRegexp "registry.example.com/acme/widget:100%@sha256:deadbeef"
        ⟨"registry.example.com", "acme", "widget", "100%", "deadbeef"⟩).Parses
      "registry.example.com/acme/widget:100%@sha256:deadbeef"
      ⟨"registry.example.com", "acme", "widget", "100%", "deadbeef"⟩ ∧
    (∀ verbs : List Char → List Char,
      cleanString verbs
          (exactRegexp "registry.example.com/acme/widget:100%@sha256:deadbeef"
            ⟨"registry.example.com", "acme", "widget", "100%", "deadbeef"⟩)
          ⟨false, true, true, false⟩ "registry.example.com/acme/widget:100%@sha256:deadbeef"
        = .ok "acme/widget:100%!(NOVERB)") ∧
    renderingTable.output ⟨false, true, true, false⟩
        ⟨"registry.example.com", "acme", "widget", "100%", "deadbeef"⟩
      = some "acme/widget:100%" :=
  ⟨⟨by decide, [("shasum", "deadbeef"), ("tag", "100%"), ("repo", "widget"),
      ("org", "acme"), ("registry", "registry.example.com")],
      rfl, by decide, by decide, by decide, by decide, by decide⟩, fun _ => rfl, by decide⟩

/-- C4, amended: for a reference that the grammar parses into fields that hold
no `%`, and for every value of the four flags, `cleanString` returns the output
of the first matching row of the rendering table of the specification. -/
theorem cleanString_rendering_table (verbs : List Char → List Char) (regexp : Regexp)
    (flags : Flags) (line : String) (ref : ImageReference)
    (hparse : regexp.Parses line ref) (hplain : ∀ field ∈ ref.fields, '%' ∉ field.data) :
    ∃ out, renderingTable.output flags ref = some out ∧
      cleanString verbs regexp flags line = .ok out := by
  obtain ⟨_, result, hres, h1, h2, h3, h4, h5⟩ := hparse
  exact ⟨_, render_eq_table verbs flags result ref h1 h2 h3 h4 h5 hplain,
    cleanString_of_captures verbs regexp flags line result hres⟩

/-- Witness for C4, amended: the reference of the specification's canonicalisation table
and its four listed outputs. -/
theorem cleanString_rendering_table_witness :
    tableRegexp.Parses "registry.example.com/acme/widget:v1.2.3@sha256:deadbeef" tableReference ∧
    (∀ field ∈ tableReference.fields, '%' ∉ field.data) ∧
    cleanString id tableRegexp ⟨false, false, false, false⟩
        "registry.example.com/acme/widget:v1.2.3@sha256:deadbeef"
      = .ok "registry.example.com/acme/widget:v1.2.3@sha256:deadbeef" ∧
    cleanString id tableRegexp ⟨true, false, false, false⟩
        "registry.example.com/acme/widget:v1.2.3@sha256:deadbeef"
      = .ok "acme/widget" ∧
    cleanString id tableRegexp ⟨false, true, false, true⟩
        "registry.example.com/acme/widget:v1.2.3@sha256:deadbeef"
      = .ok "acme/widget@sha256:deadbeef" ∧
    cleanString id tableRegexp ⟨false, false, true, false⟩
        "registry.example.com/acme/widget:v1.2.3@sha256:deadbeef"
      = .ok "registry.example.com/acme/widget:v1.2.3" := by
  have hparse : tableRegexp.Parses
      "registry.example.com/acme/widget:v1.2.3@sha256:deadbeef" tableReference :=
    ⟨by decide, [("shasum", "deadbeef"), ("tag", "v1.2.3"), ("repo", "widget"),
      ("org", "acme"), ("registry", "registry.example.com")],
      rfl, by decide, by decide, by decide, by decide, by decide⟩
  have hplain : ∀ field ∈ tableReference.fields, '%' ∉ field.data := by decide
  have key : ∀ flags out, renderingTable.output flags tableReference = some out →
      cleanString id tableRegexp flags
        "registry.example.com/acme/widget:v1.2.3@sha256:deadbeef" = .ok out := by
    intro flags out h
    obtain ⟨o, h1, h2⟩ := cleanString_rendering_table id tableRegexp flags _ _ hparse hplain
    rw [h] at h1
    cases h1
    exact h2
  exact ⟨hparse, hplain, key _ _ (by decide), key _ _ (by decide), key _ _ (by decide),
    key _ _ (by decide)⟩

/-- C5, as stated, fails: for a pattern that lets the repository name `widget%`
through, `cleanString` with `minimal` set returns `acme/widget%!(NOVERB)`, not
`org/repo`, which is `acme/widget%`. -/
theorem cleanString_percent_in_repo :
    (exactRegexp "registry.example.com/acme/widget%:v1.2.3@sha256:deadbeef"
        ⟨"registry.example.com", "acme", "widget%", "v1.2.3", "deadbeef"⟩).Parses
      "registry.example.com/acme/widget%:v1.2.3@sha256:deadbeef"
      ⟨"registry.example.com", "acme", "widget%", "v1.2.3", "deadbeef"⟩ ∧
    (∀ verbs : List Char → List Char,
      cleanString verbs
          (exactRegexp "registry.example.com/acme/widget%:v1.2.3@sha256:deadbeef"
            ⟨"registry.example.com", "acme", "widget%", "v1.2.3", "deadbeef"⟩)
          ⟨true, false, false, false⟩
          "registry.example.com/acme/widget%:v1.2.3@sha256:deadbeef"
        = .ok "acme/widget%!(NOVERB)") ∧
    ("acme" ++ "/" ++ "widget%" : String) ≠ "acme/widget%!(NOVERB)" :=
  ⟨⟨by decide, [("shasum", "deadbeef"), ("tag", "v1.2.3"), ("repo", "widget%"),
      ("org", "acme"), ("registry", "registry.example.com")],
      rfl, by decide, by decide, by decide, by decide, by decide⟩, fun _ => rfl, by decide⟩

/-- C5, amended: for a reference parsed into fields that hold no `%`,
`cleanString` with `minimal` set returns `org/repo` whatever the three trim
flags are; with `minimal` clear and the three trim flags all set it returns the
same string. -/
theorem cleanString_minimal (verbs : List Char → List Char) (regexp : Regexp)
    (line : String) (ref : ImageReference)
    (hparse : regexp.Parses line ref) (hplain : ∀ field ∈ ref.fields, '%' ∉ field.data)
    (trimRegistry trimSha256 trimTag : Bool) :
    cleanString verbs regexp ⟨true, trimRegistry, trimSha256, trimTag⟩ line
      = .ok (ref.org ++ "/" ++ ref.repo) ∧
    cleanString verbs regexp ⟨false, true, true, true⟩ line
      = cleanString verbs regexp ⟨true, trimRegistry, trimSha256, trimTag⟩ line := by
  obtain ⟨_, result, hres, h1, h2, h3, h4, h5⟩ := hparse
  have hmin : ∀ flags : Flags,
      ((flags.trimRegistry && flags.trimSha256 && flags.trimTag) || flags.minimal) = true →
      cleanString verbs regexp flags line = .ok (ref.org ++ "/" ++ ref.repo) := by
    intro flags hf
    have hout := render_eq_table verbs flags result ref h1 h2 h3 h4 h5 hplain
    have hrow : renderingTable.output flags ref = some (ref.org ++ "/" ++ ref.repo) := by
      have hf2 : (flags.minimal || (flags.trimRegistry && flags.trimSha256 && flags.trimTag))
          = true := by rw [Bool.or_comm]; exact hf
      simp [renderingTable.output, renderingTable, List.find?, hf2]
    rw [hrow] at hout
    rw [cleanString_of_captures verbs regexp flags line result hres, ← Option.some.inj hout]
  rw [hmin ⟨true, trimRegistry, trimSha256, trimTag⟩ (by simp), hmin ⟨false, true, true, true⟩ rfl]
  exact ⟨rfl, rfl⟩

/-- Witness for C5, amended: the reference of the specification's canonicalisation table,
with `minimal` and `trimTag` set. -/
theorem cleanString_minimal_witness :
    cleanString id tableRegexp ⟨true, false, false, true⟩
        "registry.example.com/acme/widget:v1.2.3@sha256:deadbeef"
      = .ok "acme/widget" ∧
    cleanString id tableRegexp ⟨false, true, true, true⟩
        "registry.example.com/acme/widget:v1.2.3@sha256:deadbeef"
      = cleanString id tableRegexp ⟨true, false, false, true⟩
        "registry.example.com/acme/widget:v1.2.3@sha256:deadbeef" :=
  cleanString_minimal id tableRegexp
    "registry.example.com/acme/widget:v1.2.3@sha256:deadbeef" tableReference
    ⟨by decide, [("shasum", "deadbeef"), ("tag", "v1.2.3"), ("repo", "widget"),
      ("org", "acme"), ("registry", "registry.example.com")],
      rfl, by decide, by decide, by decide, by decide, by decide⟩
    (by decide) false false true

/-- C13, as stated, fails: for a pattern that lets the digest `dead%` through,
`cleanString` with all flags clear returns a string ending in `%!(NOVERB)`,
which is none of the eight forms of the rendering table for that reference. -/
theorem cleanString_percent_in_shasum :
    (exactRegexp "registry.example.com/acme/widget:v1.2.3@sha256:dead%"
        ⟨"registry.example.com", "acme", "widget", "v1.2.3", "dead%"⟩).Parses
      "registry.example.com/acme/widget:v1.2.3@sha256:dead%"
      ⟨"registry.example.com", "acme", "widget", "v1.2.3", "dead%"⟩ ∧
    (∀ verbs : List Char → List Char,
      cleanString verbs
          (exactRegexp "registry.example.com/acme/widget:v1.2.3@sha256:dead%"
            ⟨"registry.example.com", "acme", "widget", "v1.2.3", "dead%"⟩)
          ⟨false, false, false, false⟩ "registry.example.com/acme/widget:v1.2.3@sha256:dead%"
        = .ok "registry.example.com/acme/widget:v1.2.3@sha256:dead%!(NOVERB)") ∧
    ∀ row ∈ renderingTable,
      row.2 ⟨"registry.example.com", "acme", "widget", "v1.2.3", "dead%"⟩
        ≠ "registry.example.com/acme/widget:v1.2.3@sha256:dead%!(NOVERB)" := by
  refine ⟨⟨by decide, [("shasum", "dead%"), ("tag", "v1.2.3"), ("repo", "widget"),
      ("org", "acme"), ("registry", "registry.example.com")],
      rfl, by decide, by decide, by decide, by decide, by decide⟩, fun _ => rfl, ?_⟩
  intro row hrow
  simp only [renderingTable, List.mem_cons, List.mem_singleton, List.not_mem_nil,
    or_false] at hrow
  rcases hrow with rfl | rfl | rfl | rfl | rfl | rfl | rfl | rfl <;> decide

/-- C13, amended: for a reference parsed into fields that hold no `%`, every one
of the sixteen flag combinations makes `cleanString` return one of the eight
forms of the rendering table, and each of the eight forms is returned for some
flags. -/
theorem cleanString_eight_forms (verbs : List Char → List Char) (regexp : Regexp)
    (line : String) (ref : ImageReference)
    (hparse : regexp.Parses line ref) (hplain : ∀ field ∈ ref.fields, '%' ∉ field.data) :
    renderingTable.length = 8 ∧
    (∀ flags : Flags, ∃ row ∈ renderingTable,
      cleanString verbs regexp flags line = .ok (row.2 ref)) ∧
    (∀ row ∈ renderingTable, ∃ flags : Flags,
      cleanString verbs regexp flags line = .ok (row.2 ref)) := by
  obtain ⟨_, result, hres, h1, h2, h3, h4, h5⟩ := hparse
  have hclean : ∀ flags row, renderingTable.find? (fun r => r.1 flags) = some row →
      cleanString verbs regexp flags line = .ok (row.2 ref) := by
    intro flags row hrow
    have hout := render_eq_table verbs flags result ref h1 h2 h3 h4 h5 hplain
    unfold renderingTable.output at hout
    rw [hrow] at hout
    rw [cleanString_of_captures verbs regexp flags line result hres,
      ← Option.some.inj hout]
  refine ⟨rfl, ?_, ?_⟩
  · intro flags
    have hsome : ∃ row, renderingTable.find? (fun r => r.1 flags) = some row := by
      have hout := render_eq_table verbs flags result ref h1 h2 h3 h4 h5 hplain
      unfold renderingTable.output at hout
      cases hf : renderingTable.find? (fun r => r.1 flags) with
      | none => rw [hf] at hout; cases hout
      | some row => exact ⟨row, rfl⟩
    obtain ⟨row, hrow⟩ := hsome
    exact ⟨row, List.mem_of_find?_eq_some hrow, hclean flags row hrow⟩
  · intro row hrow
    simp only [renderingTable, List.mem_cons, List.mem_singleton, List.not_mem_nil,
      or_false] at hrow
    rcases hrow with rfl | rfl | rfl | rfl | rfl | rfl | rfl | rfl
    · exact ⟨⟨true, false, false, false⟩, hclean _ _ rfl⟩
    · exact ⟨⟨false, true, true, false⟩, hclean _ _ rfl⟩
    · exact ⟨⟨false, true, false, true⟩, hclean _ _ rfl⟩
    · exact ⟨⟨false, true, false, false⟩, hclean _ _ rfl⟩
    · exact ⟨⟨false, false, true, true⟩, hclean _ _ rfl⟩
    · exact ⟨⟨false, false, true, false⟩, hclean _ _ rfl⟩
    · exact ⟨⟨false, false, false, true⟩, hclean _ _ rfl⟩
    · exact ⟨⟨false, false, false, false⟩, hclean _ _ rfl⟩

/-- Witness for C13, amended: the reference of the specification's canonicalisation table. -/
theorem cleanString_eight_forms_witness :
    renderingTable.length = 8 ∧
    (∀ flags : Flags, ∃ row ∈ renderingTable,
      cleanString id tableRegexp flags
          "registry.example.com/acme/widget:v1.2.3@sha256:deadbeef"
        = .ok (row.2 tableReference)) ∧
    (∀ row ∈ renderingTable, ∃ flags : Flags,
      cleanString id tableRegexp flags
          "registry.example.com/acme/widget:v1.2.3@sha256:deadbeef"
        = .ok (row.2 tableReference)) :=
  cleanString_eight_forms id tableRegexp
    "registry.example.com/acme/widget:v1.2.3@sha256:deadbeef" tableReference
    ⟨by decide, [("shasum", "deadbeef"), ("tag", "v1.2.3"), ("repo", "widget"),
      ("org", "acme"), ("registry", "registry.example.com")],
      rfl, by decide, by decide, by decide, by decide, by decide⟩
    (by decide)

/-- C14, as stated, fails: for the reference of the specification's
canonicalisation table, with `minimal` clear, the outputs for `trimTag` set and
clear differ in each of the four combinations of `trimRegistry` and
`trimSha256`. -/
theorem cleanString_trimTag_all_four :
    cleanString id tableRegexp ⟨false, true, true, true⟩
        "registry.example.com/acme/widget:v1.2.3@sha256:deadbeef" = .ok "acme/widget" ∧
    cleanString id tableRegexp ⟨false, true, true, false⟩
        "registry.example.com/acme/widget:v1.2.3@sha256:deadbeef" = .ok "acme/widget:v1.2.3" ∧
    cleanString id tableRegexp ⟨false, true, false, true⟩
        "registry.example.com/acme/widget:v1.2.3@sha256:deadbeef"
      = .ok "acme/widget@sha256:deadbeef" ∧
    cleanString id tableRegexp ⟨false, true, false, false⟩
        "registry.example.com/acme/widget:v1.2.3@sha256:deadbeef"
      = .ok "acme/widget:v1.2.3@sha256:deadbeef" ∧
    cleanString id tableRegexp ⟨false, false, true, true⟩
        "registry.example.com/acme/widget:v1.2.3@sha256:deadbeef"
      = .ok "registry.example.com/acme/widget" ∧
    cleanString id tableRegexp ⟨false, false, true, false⟩
        "registry.example.com/acme/widget:v1.2.3@sha256:deadbeef"
      = .ok "registry.example.com/acme/widget:v1.2.3" ∧
    cleanString id tableRegexp ⟨false, false, false, true⟩
        "registry.example.com/acme/widget:v1.2.3@sha256:deadbeef"
      = .ok "registry.example.com/acme/widget@sha256:deadbeef" ∧
    cleanString id tableRegexp ⟨false, false, false, false⟩
        "registry.example.com/acme/widget:v1.2.3@sha256:deadbeef"
      = .ok "registry.example.com/acme/widget:v1.2.3@sha256:deadbeef" ∧
    ∀ trimRegistry trimSha256 : Bool,
      cleanString id tableRegexp ⟨false, trimRegistry, trimSha256, true⟩
          "registry.example.com/acme/widget:v1.2.3@sha256:deadbeef"
        ≠ cleanString id tableRegexp ⟨false, trimRegistry, trimSha256, false⟩
          "registry.example.com/acme/widget:v1.2.3@sha256:deadbeef" := by
  refine ⟨rfl, rfl, rfl, rfl, rfl, rfl, rfl, rfl, ?_⟩
  intro trimRegistry trimSha256 h
  cases trimRegistry <;> cases trimSha256 <;>
    exact absurd (Except.ok.inj h) (by decide)

/-- C14, amended: with `minimal` clear, the value of `trimTag` changes the
output of `cleanString` in all four combinations of `trimRegistry` and
`trimSha256`: for a reference parsed into fields that hold no `%` the output
with `trimTag` clear differs from the output with `trimTag` set. -/
theorem cleanString_trimTag_effect (verbs : List Char → List Char) (regexp : Regexp)
    (line : String) (ref : ImageReference)
    (hparse : regexp.Parses line ref) (hplain : ∀ field ∈ ref.fields, '%' ∉ field.data)
    (trimRegistry trimSha256 : Bool) :
    cleanString verbs regexp ⟨false, trimRegistry, trimSha256, true⟩ line
      ≠ cleanString verbs regexp ⟨false, trimRegistry, trimSha256, false⟩ line := by
  obtain ⟨_, result, hres, h1, h2, h3, h4, h5⟩ := hparse
  have hset := render_eq_table verbs ⟨false, trimRegistry, trimSha256, true⟩ result ref
    h1 h2 h3 h4 h5 hplain
  have hclear := render_eq_table verbs ⟨false, trimRegistry, trimSha256, false⟩ result ref
    h1 h2 h3 h4 h5 hplain
  rw [cleanString_of_captures verbs regexp _ line result hres,
    cleanString_of_captures verbs regexp _ line result hres]
  intro h
  have heq := Except.ok.inj h
  have hopt : renderingTable.output ⟨false, trimRegistry, trimSha256, true⟩ ref
      = renderingTable.output ⟨false, trimRegistry, trimSha256, false⟩ ref := by
    rw [hset, hclear, heq]
  have hlen : ∀ a b : String, some a = some b → a.length = b.length := by
    intro a b hab
    rw [Option.some.inj hab]
  have hcolon : (":" : String).length = 1 := rfl
  cases trimRegistry <;> cases trimSha256 <;>
    · have := hlen _ _ hopt
      simp only [renderingTable.output, renderingTable, List.find?, Option.map,
        String.length_append, Bool.not_false, Bool.not_true, Bool.and_true, Bool.and_false,
        Bool.or_false, Bool.false_or, Bool.and_self, Bool.true_and] at this
      omega

/-- Witness for C14, amended: the reference of the specification's
canonicalisation table with both `trimRegistry` and `trimSha256` set, the
combination whose table row leaves `trimTag` open. -/
theorem cleanString_trimTag_effect_witness :
    tableRegexp.Parses "registry.example.com/acme/widget:v1.2.3@sha256:deadbeef" tableReference ∧
    (∀ field ∈ tableReference.fields, '%' ∉ field.data) ∧
    cleanString id tableRegexp ⟨false, true, true, true⟩
        "registry.example.com/acme/widget:v1.2.3@sha256:deadbeef"
      ≠ cleanString id tableRegexp ⟨false, true, true, false⟩
        "registry.example.com/acme/widget:v1.2.3@sha256:deadbeef" :=
  ⟨⟨by decide, [("shasum", "deadbeef"), ("tag", "v1.2.3"), ("repo", "widget"),
      ("org", "acme"), ("registry", "registry.example.com")],
      rfl, by decide, by decide, by decide, by decide, by decide⟩,
    by decide,
    cleanString_trimTag_effect id tableRegexp
      "registry.example.com/acme/widget:v1.2.3@sha256:deadbeef" tableReference
      ⟨by decide, [("shasum", "deadbeef"), ("tag", "v1.2.3"), ("repo", "widget"),
        ("org", "acme"), ("registry", "registry.example.com")],
        rfl, by decide, by decide, by decide, by decide, by decide⟩
      (by decide) true true⟩

/-- C9, the code at a line without a match: when the pattern has a named
capture group and the submatch search finds nothing, the index expression
`matches[i]` on the nil slice panics with index out of range. `cleanString` has
no failure path of its own; the panic, recorded here as the error, is all that
happens, and no string is returned. -/
theorem cleanString_no_match (verbs : List Char → List Char) (regexp : Regexp)
    (flags : Flags) (line : String)
    (hgroup : ∃ i name, i ≠ 0 ∧ name ≠ "" ∧ regexp.SubexpNames[i]? = some name)
    (hnomatch : regexp.FindStringSubmatch line = []) :
    cleanString verbs regexp flags line = .error "index out of range" ∧
    ∀ out, cleanString verbs regexp flags line ≠ .ok out := by
  have h : cleanString verbs regexp flags line = .error "index out of range" := by
    obtain ⟨i, name, hi, hname, hidx⟩ := hgroup
    unfold cleanString
    simp only [hnomatch]
    rw [captures_no_match _ 0 [] ⟨i, name, by omega, hname, hidx⟩]
  refine ⟨h, ?_⟩
  intro out hout
  rw [h] at hout
  cases hout

/-- Witness for C9: the five-group pattern on a line without the structure of a
reference. -/
theorem cleanString_no_match_witness :
    (∃ i name, i ≠ 0 ∧ name ≠ "" ∧ tableRegexp.SubexpNames[i]? = some name) ∧
    tableRegexp.FindStringSubmatch "not a reference" = [] ∧
    cleanString id tableRegexp ⟨false, false, false, false⟩ "not a reference"
      = .error "index out of range" ∧
    ∀ out, cleanString id tableRegexp ⟨false, false, false, false⟩ "not a reference"
      ≠ .ok out :=
  ⟨⟨1, "registry", by decide, by decide, by decide⟩, by decide,
    cleanString_no_match id tableRegexp _ "not a reference"
      ⟨1, "registry", by decide, by decide, by decide⟩ (by decide)⟩

/-! ### The client configuration -/

theorem foldl_endpoints (nodes : List Node) (endpoints : List String) :
    nodes.foldl GenerateClientConfigBytes.body endpoints
      = endpoints ++ (nodes.filter (fun node => node.ControlPlane)).map
          (fun node => node.IPAddress) := by
  induction nodes generalizing endpoints with
  | nil => simp
  | cons node rest ih =>
    rw [List.foldl_cons, ih]
    unfold GenerateClientConfigBytes.body
    cases h : node.ControlPlane <;> simp [h]

/-- C19: the endpoint list that `GenerateClientConfigBytes` sets on the
generation input, before it calls `Talosconfig`, is the `IPAddress` of each
node whose `ControlPlane` flag is true, in the order of the node list; nothing
else of the input is changed. -/
theorem GenerateClientConfigBytes_endpoints {ω ι κ : Type}
    (Talosconfig : Input ω ι → Except Error κ) (Bytes : κ → Except Error (List Nat))
    (c : TalhelperConfig) (input : Input ω ι) :
    (GenerateClientConfigBytes Talosconfig Bytes c input).input.Options.EndpointList
      = (c.Nodes.filter (fun node => node.ControlPlane)).map (fun node => node.IPAddress) ∧
    (GenerateClientConfigBytes Talosconfig Bytes c input).input.Options.other
      = input.Options.other ∧
    (GenerateClientConfigBytes Talosconfig Bytes c input).input.other = input.other := by
  unfold GenerateClientConfigBytes
  simp only [foldl_endpoints, List.nil_append]
  split
  · exact ⟨rfl, rfl, rfl⟩
  · split <;> exact ⟨rfl, rfl, rfl⟩

end Talhelper
